import Mathlib

/-!
# hvpp: the bit vector of `src/hvpp/lib/bitmap.cpp`

A shallow embedding of the `bitmap` class and proofs about its range
operations and run scans.

Conventions of the embedding.

* The word width `bit_count` (`sizeof(word_t) * 8`, a constant of the class
  declaration) is a parameter of every operation that uses it.
* `int` arguments that the properties below constrain to be non-negative
  (`index`, `count`, `bit`, the size) are natural numbers; results that can
  be `-1` are integers.  Sums of `int`s that cannot leave the range of
  `int` on a vector whose size is an `int` are exact.  The sums that can
  are reduced to the signed 32-bit range by `int_wrap`: the sum
  `index + count` in the guards of `are_bits_set` / `are_bits_clear`, and
  the sum `current_bit + count` in the loop tests of
  `find_first_set(index, count)` / `find_first_clear(index, count)`.
* A `word_t` is a natural number below `2 ^ bit_count`; every operation on
  words is reduced modulo `2 ^ bit_count`, which is C++ arithmetic on an
  unsigned type that is at least as wide as `int`.
* The buffer is a list of words; `buffer_[i]` is `b.buffer_[i]?`, so an
  access outside the buffer makes the whole call return `none`.
* Loops whose trip count is not a structural argument take fuel; the
  callers supply enough of it, and the theorems prove that a result is
  returned.
-/

namespace hvpp

/-! ## Words -/

/-- Modelled from the spec: `word(index)` of the class declaration
(`bitmap.h`, not among the sources): the word that holds bit `index`. -/
def word (bit_count index : Nat) : Nat := index / bit_count

/-- Modelled from the spec: `offset(index)` of the class declaration
(`bitmap.h`, not among the sources): the position of bit `index` inside
its word. -/
def offset (bit_count index : Nat) : Nat := index % bit_count

/-- Modelled from the spec: `mask(index)` of the class declaration
(`bitmap.h`, not among the sources): the word with the single bit
`offset(index)` set, `word_t(1) << offset(index)`. -/
def mask (bit_count index : Nat) : Nat :=
  (1 <<< offset bit_count index) % 2 ^ bit_count

/-- The C++ `~w` on a `word_t`. -/
def w_not (bit_count w : Nat) : Nat := 2 ^ bit_count - 1 - w

/-- The C++ `a + b` on `word_t`. -/
def w_add (bit_count a b : Nat) : Nat := (a + b) % 2 ^ bit_count

/-- The C++ `a - b` on `word_t`. -/
def w_sub (bit_count a b : Nat) : Nat :=
  (a + (2 ^ bit_count - b % 2 ^ bit_count)) % 2 ^ bit_count

/-- The C++ `a << k` on `word_t`. -/
def w_shl (bit_count a k : Nat) : Nat := (a <<< k) % 2 ^ bit_count

/-- The C++ `a >> k` on `word_t`. -/
def w_shr (a k : Nat) : Nat := a >>> k

/-- Auxiliary scan of `ia32_asm_bsf`: the position of the lowest set bit of
`v`, counted from `i`, looking at no more than `fuel` bits. -/
def bsf_scan : Nat → Nat → Nat → Nat
  | 0, _, i => i
  | fuel + 1, v, i => if v % 2 = 1 then i else bsf_scan fuel (v / 2) (i + 1)

/-- Modelled from the spec: `ia32_asm_bsf` (`ia32/asm.h`, not among the
sources), the lowest-set-bit scan of a 64-bit operand.  The value for an
operand of `0` is unspecified by the hardware (here `64`); the code never
asks for it. -/
def ia32_asm_bsf (v : Nat) : Nat := bsf_scan 64 v 0

/-- The largest `int`, `std::numeric_limits<int>::max()`. -/
def max_count : Nat := 2 ^ 31 - 1

/-- Reduction of an exact integer to the signed 32-bit range. -/
def int_wrap (x : Int) : Int := (x + 2 ^ 31) % 2 ^ 32 - 2 ^ 31

/-- The C library `memset(buffer, value, n)` on a little-endian buffer of
words, where `buffer` is a word index, the fill byte is `0xff` (`ones`) or
`0x00`, and `n` counts bytes: the first `n / (bit_count / 8)` words are
filled, then the low `n % (bit_count / 8)` bytes of the next word. -/
def memset (bit_count : Nat) (mem : List Nat) (buffer : Nat) (ones : Bool) (n : Nat) :
    Option (List Nat) :=
  let full := n / (bit_count / 8)
  let rest := n % (bit_count / 8)
  if buffer + full + (if rest = 0 then 0 else 1) ≤ mem.length then
    some (mem.mapIdx fun j w =>
      if j < buffer then w
      else if j < buffer + full then (if ones then 2 ^ bit_count - 1 else 0)
      else if j = buffer + full then
        (if ones then w ||| (2 ^ (8 * rest) - 1) else (w >>> (8 * rest)) <<< (8 * rest))
      else w)
  else none

/-! ## The bit vector -/

/-- Modelled from the spec: the data members of `class bitmap` (`bitmap.h`,
not among the sources): a view, buffer pointer and bit length, over memory
it does not own. -/
structure bitmap where
  /-- the words of the buffer -/
  buffer_ : List Nat
  /-- the length in bits -/
  size_in_bits_ : Nat
  deriving DecidableEq

namespace bitmap

/-- The C++ `*buffer = f(*buffer)` for the word at index `buffer`. -/
def update (b : bitmap) (buffer : Nat) (f : Nat → Nat) : Option bitmap :=
  match b.buffer_[buffer]? with
  | none => none
  | some w => some { b with buffer_ := b.buffer_.set buffer (f w) }

/-- The end of `set(index, count)`, from the `memset` on: whole words by a
bulk fill, then a partial last word with a prefix mask. -/
def set_tail (bit_count : Nat) (b : bitmap) (buffer count : Nat) : Option bitmap :=
  match memset bit_count b.buffer_ buffer true (count >>> 3) with
  | none => none
  | some mem =>
    let b := { b with buffer_ := mem }
    let buffer := buffer + count / bit_count
    let count := count % bit_count
    if count ≠ 0 then
      b.update buffer fun w => w ||| w_sub bit_count (mask bit_count count) 1
    else some b

/-- The C++ `bitmap::set(int index, int count)`. -/
def set (bit_count : Nat) (b : bitmap) (index count : Nat) : Option bitmap :=
  let buffer := word bit_count index
  let bits := offset bit_count index
  if bits ≠ 0 then
    let bits := bit_count - bits
    if count < bits then
      let bits := bits - count
      b.update buffer fun w =>
        w ||| w_shr (w_shl bit_count
          (w_add bit_count (w_not bit_count (mask bit_count (offset bit_count index))) 1)
          bits) bits
    else
      match b.update buffer fun w =>
          w ||| w_add bit_count (w_not bit_count (mask bit_count (offset bit_count index))) 1 with
      | none => none
      | some b => set_tail bit_count b (buffer + 1) (count - bits)
  else set_tail bit_count b buffer count

/-- The C++ `bitmap::set(int bit)`. -/
def set_bit (bit_count : Nat) (b : bitmap) (bit : Nat) : Option bitmap :=
  b.update (word bit_count bit) fun w => w ||| mask bit_count bit

/-- The end of `clear(index, count)`, from the `memset` on. -/
def clear_tail (bit_count : Nat) (b : bitmap) (buffer count : Nat) : Option bitmap :=
  match memset bit_count b.buffer_ buffer false (count >>> 3) with
  | none => none
  | some mem =>
    let b := { b with buffer_ := mem }
    let buffer := buffer + count / bit_count
    let count := count % bit_count
    if count ≠ 0 then
      b.update buffer fun w =>
        w &&& w_not bit_count (w_sub bit_count (mask bit_count count) 1)
    else some b

/-- The C++ `bitmap::clear(int index, int count)`. -/
def clear (bit_count : Nat) (b : bitmap) (index count : Nat) : Option bitmap :=
  let buffer := word bit_count index
  let bits := offset bit_count index
  if bits ≠ 0 then
    let bits := bit_count - bits
    if count < bits then
      let bits := bits - count
      b.update buffer fun w =>
        w &&& w_not bit_count (w_shr (w_shl bit_count
          (w_add bit_count (w_not bit_count (mask bit_count (offset bit_count index))) 1)
          bits) bits)
    else
      match b.update buffer fun w =>
          w &&& w_sub bit_count (mask bit_count (offset bit_count index)) 1 with
      | none => none
      | some b => clear_tail bit_count b (buffer + 1) (count - bits)
  else clear_tail bit_count b buffer count

/-- The C++ `bitmap::clear(int bit)`. -/
def clear_bit (bit_count : Nat) (b : bitmap) (bit : Nat) : Option bitmap :=
  b.update (word bit_count bit) fun w => w &&& w_not bit_count (mask bit_count bit)

/-- The C++ `bitmap::test(int bit)`, `!!ia32_asm_bt(buffer_, bit)`: the bit
test instruction addresses bit `bit` of the bit string that starts at
`buffer_`, which on a little-endian buffer is bit `offset(bit)` of word
`word(bit)`. -/
def test (bit_count : Nat) (b : bitmap) (bit : Nat) : Option Bool :=
  match b.buffer_[word bit_count bit]? with
  | none => none
  | some w => some (w.testBit (offset bit_count bit))

/-- The word loop of `get_length_of_set` (`inv = true`,
`while (inv_value == 0 && buffer < buffer_max) inv_value = ~(*buffer++);`)
and of `get_length_of_clear` (`inv = false`, the same without `~`).  The
first argument is the distance `buffer_max - buffer`, so it is `0` exactly
when `buffer < buffer_max` fails. -/
def scan_words (bit_count : Nat) (mem : List Nat) (inv : Bool) :
    Nat → Nat → Nat → Option (Nat × Nat)
  | 0, value, buffer => some (value, buffer)
  | dist + 1, value, buffer =>
    if value = 0 then
      match mem[buffer]? with
      | none => none
      | some w => scan_words bit_count mem inv dist
          (if inv then w_not bit_count w else w) (buffer + 1)
    else some (value, buffer)

/-- The C++ `bitmap::get_length_of_set(int index, int count)`.  The two
subtractions of the length computation are exact: `buffer` is past the word
of `index`, and `bit_position` is at least `offset(index)` when the bit found
lies in that word. -/
def get_length_of_set (bit_count : Nat) (b : bitmap) (index count : Nat) : Option Nat :=
  if index ≥ b.size_in_bits_ then some 0
  else
    let buffer := word bit_count index
    let bit_position := offset bit_count index
    let count := min count (b.size_in_bits_ - index)
    let buffer_max := buffer + word bit_count (bit_position + count + bit_count - 1)
    match b.buffer_[buffer]? with
    | none => none
    | some w =>
      let inv_value := w_shl bit_count (w_shr (w_not bit_count w) bit_position) bit_position
      let buffer := buffer + 1
      match scan_words bit_count b.buffer_ true (buffer_max - buffer) inv_value buffer with
      | none => none
      | some (inv_value, buffer) =>
        if inv_value = 0 then some count
        else
          let bit_position := ia32_asm_bsf inv_value
          let length := buffer * bit_count - index
          let length := length + bit_position - bit_count
          if length > b.size_in_bits_ - index then some (b.size_in_bits_ - index)
          else some length

/-- The C++ `bitmap::get_length_of_clear(int index, int count)`. -/
def get_length_of_clear (bit_count : Nat) (b : bitmap) (index count : Nat) : Option Nat :=
  if index ≥ b.size_in_bits_ then some 0
  else
    let buffer := word bit_count index
    let bit_position := offset bit_count index
    let count := min count (b.size_in_bits_ - index)
    let buffer_max := buffer + word bit_count (bit_position + count + bit_count - 1)
    match b.buffer_[buffer]? with
    | none => none
    | some w =>
      let value := w_shl bit_count (w_shr w bit_position) bit_position
      let buffer := buffer + 1
      match scan_words bit_count b.buffer_ false (buffer_max - buffer) value buffer with
      | none => none
      | some (value, buffer) =>
        if value = 0 then some count
        else
          let bit_position := ia32_asm_bsf value
          let length := buffer * bit_count - index
          let length := length + bit_position - bit_count
          if length > b.size_in_bits_ - index then some (b.size_in_bits_ - index)
          else some length

/-- The `while` loop of `find_first_set(int index, int count)`; `none` when
the fuel runs out or a read leaves the buffer.  The loop test
`current_bit + count <= size_in_bits_` adds two `int`s. -/
def find_first_set_loop (bit_count : Nat) (b : bitmap) (count : Nat) :
    Nat → Nat → Option Int
  | 0, _ => none
  | fuel + 1, current_bit =>
    if int_wrap (current_bit + count) ≤ b.size_in_bits_ then
      match get_length_of_clear bit_count b current_bit max_count with
      | none => none
      | some skipped =>
        let current_bit := current_bit + skipped
        match get_length_of_set bit_count b current_bit count with
        | none => none
        | some current_length =>
          if current_length ≥ count then some (current_bit : Int)
          else find_first_set_loop bit_count b count fuel (current_bit + current_length)
    else some (-1)

/-- The C++ `bitmap::find_first_set(int index, int count)`. -/
def find_first_set (bit_count : Nat) (b : bitmap) (index count : Nat) : Option Int :=
  if count > b.size_in_bits_ then some (-1)
  else
    let index := if index ≥ b.size_in_bits_ then 0 else index
    if count = 0 then some ((index &&& 0xfffffff8 : Nat) : Int)
    else find_first_set_loop bit_count b count (b.size_in_bits_ + 1) index

/-- The C++ `bitmap::find_first_set(int count)`. -/
def find_first_set_count (bit_count : Nat) (b : bitmap) (count : Nat) : Option Int :=
  find_first_set bit_count b 0 count

/-- The `while` loop of `find_first_clear(int index, int count)`; `none`
when the fuel runs out or a read leaves the buffer.  The loop test
`current_bit + count < size_in_bits_` adds two `int`s. -/
def find_first_clear_loop (bit_count : Nat) (b : bitmap) (count : Nat) :
    Nat → Nat → Option Int
  | 0, _ => none
  | fuel + 1, current_bit =>
    if int_wrap (current_bit + count) < b.size_in_bits_ then
      match get_length_of_set bit_count b current_bit max_count with
      | none => none
      | some skipped =>
        let current_bit := current_bit + skipped
        match get_length_of_clear bit_count b current_bit count with
        | none => none
        | some current_length =>
          if current_length ≥ count then some (current_bit : Int)
          else find_first_clear_loop bit_count b count fuel (current_bit + current_length)
    else some (-1)

/-- The C++ `bitmap::find_first_clear(int index, int count)`. -/
def find_first_clear (bit_count : Nat) (b : bitmap) (index count : Nat) : Option Int :=
  if count > b.size_in_bits_ then some (-1)
  else
    let index := if index ≥ b.size_in_bits_ then 0 else index
    if count = 0 then some ((index &&& 0xfffffff8 : Nat) : Int)
    else find_first_clear_loop bit_count b count (b.size_in_bits_ + 1) index

/-- The C++ `bitmap::find_first_clear(int count)`. -/
def find_first_clear_count (bit_count : Nat) (b : bitmap) (count : Nat) : Option Int :=
  find_first_clear bit_count b 0 count

/-- The `for` loop of `find_first_set()`, from `i` on. -/
def find_first_set_bytes (b : bitmap) : Nat → Nat → Option Nat
  | 0, _ => none
  | fuel + 1, i =>
    if i * 8 < b.size_in_bits_ then
      match b.buffer_[i]? with
      | none => none
      | some w =>
        if w ≠ 0 then some (min (i * 8 + ia32_asm_bsf w) b.size_in_bits_)
        else find_first_set_bytes b fuel (i + 1)
    else some b.size_in_bits_

/-- The C++ `bitmap::find_first_set()`. -/
def find_first_set_any (b : bitmap) : Option Nat :=
  find_first_set_bytes b (b.size_in_bits_ + 1) 0

/-- The `for` loop of `find_first_clear()`, from `i` on; `~0` converted to
`word_t` is the word of all ones, and the complement is taken on the
operand widened to 64 bits. -/
def find_first_clear_bytes (bit_count : Nat) (b : bitmap) : Nat → Nat → Option Nat
  | 0, _ => none
  | fuel + 1, i =>
    if i * 8 < b.size_in_bits_ then
      match b.buffer_[i]? with
      | none => none
      | some w =>
        if w ≠ 2 ^ bit_count - 1 then
          some (min (i * 8 + ia32_asm_bsf (w_not 64 w)) b.size_in_bits_)
        else find_first_clear_bytes bit_count b fuel (i + 1)
    else some b.size_in_bits_

/-- The C++ `bitmap::find_first_clear()`. -/
def find_first_clear_any (bit_count : Nat) (b : bitmap) : Option Nat :=
  find_first_clear_bytes bit_count b (b.size_in_bits_ + 1) 0

/-- The C++ `bitmap::are_bits_set(int index, int count)`. -/
def are_bits_set (bit_count : Nat) (b : bitmap) (index count : Nat) : Option Bool :=
  if int_wrap (index + count) > b.size_in_bits_ ∨ int_wrap (index + count) ≤ index then
    some false
  else
    match get_length_of_set bit_count b index count with
    | none => none
    | some length => some (decide (length ≥ count))

/-- The C++ `bitmap::are_bits_clear(int index, int count)`. -/
def are_bits_clear (bit_count : Nat) (b : bitmap) (index count : Nat) : Option Bool :=
  if int_wrap (index + count) > b.size_in_bits_ ∨ int_wrap (index + count) ≤ index then
    some false
  else
    match get_length_of_clear bit_count b index count with
    | none => none
    | some length => some (decide (length ≥ count))

/-- The C++ `bitmap::all_set()`. -/
def all_set (bit_count : Nat) (b : bitmap) : Option Bool :=
  are_bits_set bit_count b 0 b.size_in_bits_

/-- The C++ `bitmap::all_clear()`. -/
def all_clear (bit_count : Nat) (b : bitmap) : Option Bool :=
  are_bits_clear bit_count b 0 b.size_in_bits_

/-! ## The bit view of a buffer -/

/-- The word at index `q` of a buffer, `0` outside it. -/
def word_at (b : bitmap) (q : Nat) : Nat := (b.buffer_[q]?).getD 0

/-- The value of bit `i` of the vector: bit `i % bit_count` of word
`i / bit_count`. -/
def bit_at (bit_count : Nat) (b : bitmap) (i : Nat) : Bool :=
  (word_at b (i / bit_count)).testBit (i % bit_count)

/-- A well-formed bit vector: the word width is a positive multiple of 8 of
at most 64 bits, the length is a whole number of words, the buffer has
exactly that many words, and each of them is a `word_t`. -/
def valid (bit_count : Nat) (b : bitmap) : Prop :=
  0 < bit_count ∧ 8 ∣ bit_count ∧ bit_count ≤ 64 ∧
    bit_count * b.buffer_.length = b.size_in_bits_ ∧ ∀ w ∈ b.buffer_, w < 2 ^ bit_count

instance (bit_count : Nat) (b : bitmap) : Decidable (valid bit_count b) :=
  inferInstanceAs (Decidable (0 < bit_count ∧ 8 ∣ bit_count ∧ bit_count ≤ 64 ∧
    bit_count * b.buffer_.length = b.size_in_bits_ ∧ ∀ w ∈ b.buffer_, w < 2 ^ bit_count))

/-- The naive bit-by-bit scan: the number of consecutive bits of value `val`
from bit `i` on, looking at no more than `k` bits. -/
def naive_run (bit_count : Nat) (b : bitmap) (val : Bool) : Nat → Nat → Nat
  | 0, _ => 0
  | k + 1, i =>
    if test bit_count b i = some val then naive_run bit_count b val k (i + 1) + 1 else 0

/-- The naive scan for set bits: count the consecutive set bits from `index`
until the first clear bit or the end of the vector. -/
def naive_length_of_set (bit_count : Nat) (b : bitmap) (index : Nat) : Nat :=
  naive_run bit_count b true (b.size_in_bits_ - index) index

/-- The naive scan for clear bits: count the consecutive clear bits from
`index` until the first set bit or the end of the vector. -/
def naive_length_of_clear (bit_count : Nat) (b : bitmap) (index : Nat) : Nat :=
  naive_run bit_count b false (b.size_in_bits_ - index) index

/-- The common body of `get_length_of_set` (`inv = true`) and
`get_length_of_clear` (`inv = false`), which differ only in the `~` applied
to each word read. -/
def get_length_of (bit_count : Nat) (inv : Bool) (b : bitmap) (index count : Nat) :
    Option Nat :=
  if index ≥ b.size_in_bits_ then some 0
  else
    let buffer := word bit_count index
    let bit_position := offset bit_count index
    let count := min count (b.size_in_bits_ - index)
    let buffer_max := buffer + word bit_count (bit_position + count + bit_count - 1)
    match b.buffer_[buffer]? with
    | none => none
    | some w =>
      let value := w_shl bit_count
        (w_shr (if inv then w_not bit_count w else w) bit_position) bit_position
      let buffer := buffer + 1
      match scan_words bit_count b.buffer_ inv (buffer_max - buffer) value buffer with
      | none => none
      | some (value, buffer) =>
        if value = 0 then some count
        else
          let bit_position := ia32_asm_bsf value
          let length := buffer * bit_count - index
          let length := length + bit_position - bit_count
          if length > b.size_in_bits_ - index then some (b.size_in_bits_ - index)
          else some length

/-- The first bit position after the words that a run scan from `index`
with limit `count` looks at. -/
def scan_end (bit_count : Nat) (b : bitmap) (index count : Nat) : Nat :=
  bit_count * (index / bit_count +
    max 1 ((index % bit_count + min count (b.size_in_bits_ - index) + bit_count - 1)
      / bit_count))

/-- The invariant of the word loop of a run scan from `index`: `value`
marks the bits of word `q` at or after `index` that end the run, and no bit
between `index` and word `q` ends it. -/
def scan_inv (bit_count : Nat) (inv : Bool) (b : bitmap) (index value q : Nat) : Prop :=
  value < 2 ^ bit_count ∧ index / bit_count ≤ q ∧
    (∀ t, t < bit_count → value.testBit t =
      (decide (index ≤ bit_count * q + t) && (bit_at bit_count b (bit_count * q + t) != inv))) ∧
    ∀ j, index ≤ j → j < bit_count * q → bit_at bit_count b j = inv

/-- A run of `count` bits of value `val` starts at bit `i` and lies inside
the vector. -/
def run_at (bit_count : Nat) (b : bitmap) (val : Bool) (i count : Nat) : Prop :=
  i + count ≤ b.size_in_bits_ ∧ ∀ j, i ≤ j → j < i + count → bit_at bit_count b j = val

/-- Calling `set(i)` for each `i` of `[index, index + count)`, in increasing
order. -/
def set_each (bit_count : Nat) (b : bitmap) (index : Nat) : Nat → Option bitmap
  | 0 => some b
  | count + 1 =>
    (set_each bit_count b index count).bind fun b => set_bit bit_count b (index + count)

/-- Calling `clear(i)` for each `i` of `[index, index + count)`, in
increasing order. -/
def clear_each (bit_count : Nat) (b : bitmap) (index : Nat) : Nat → Option bitmap
  | 0 => some b
  | count + 1 =>
    (clear_each bit_count b index count).bind fun b => clear_bit bit_count b (index + count)

/-- A vector of `words` 64-bit words whose buffer holds the value `w` in
every word: all clear for `w = 0`, all set for `w = 2 ^ 64 - 1`. -/
def filled (w words : Nat) : bitmap := ⟨List.replicate words w, 64 * words⟩

end bitmap

/-! ## The statistics handler of `src/hvpp/hvpp/vmexit/vmexit_stats.cpp`

Conventions of the embedding.

* A statistics block is a map from a counter name and an index to the value
  of `stats.name[index]`; a scalar counter is the element 0 of an array of
  size 1.  The array sizes are the parameter `stats_dims`, and an access
  `stats.name[index]` with `index` outside the array makes the call return
  `none`.
* Counters are `uint32_t` (they are printed with `%u`): `+=` is reduced
  modulo `2 ^ 32`.
* `mp::cpu_count()` and `mp::cpu_index()` are the parameters `cpu_count` and
  `cpu_index`; the trace log written by `hvpp_trace` and the report written
  by `hvpp_info` are lists of lines.
* The context `vcpu_t&` is passed in and returned, so that what `handle`
  does to it can be stated.
-/

/-- Modelled from the spec: the counters of `vmexit_stats_storage_t`
(`vmexit_stats.h`, not among the sources), by the names the code uses: a
coarse counter per trap reason and the secondary counters. -/
inductive stats_field
  | vmexit | expt_vector | cpuid_0 | cpuid_8 | cpuid_other
  | mov_from_cr | mov_to_cr | clts | lmsw | mov_from_dr | mov_to_dr
  | gdtr_idtr | ldtr_tr | io_in | io_out
  | rdmsr_0 | rdmsr_c | rdmsr_other | wrmsr_0 | wrmsr_c | wrmsr_other
  deriving DecidableEq

/-- Modelled from the spec: the array sizes of `vmexit_stats_storage_t`
(`vmexit_stats.h`, not among the sources); `cpuid_0` has `cpuid_0_max`
elements and `cpuid_8` has `cpuid_8_max`. -/
structure stats_dims where
  /-- the number of coarse counters -/
  vmexit : Nat
  /-- the number of exception vectors counted -/
  expt_vector : Nat
  /-- the number of leaves of the low CPUID range -/
  cpuid_0_max : Nat
  /-- the number of leaves of the high CPUID range -/
  cpuid_8_max : Nat
  /-- the number of control registers counted for reads -/
  mov_from_cr : Nat
  /-- the number of control registers counted for writes -/
  mov_to_cr : Nat
  /-- the number of debug registers counted for reads -/
  mov_from_dr : Nat
  /-- the number of debug registers counted for writes -/
  mov_to_dr : Nat
  /-- the number of GDTR/IDTR instructions -/
  gdtr_idtr : Nat
  /-- the number of LDTR/TR instructions -/
  ldtr_tr : Nat
  /-- the number of input ports -/
  io_in : Nat
  /-- the number of output ports -/
  io_out : Nat
  /-- the number of low MSRs counted for reads -/
  rdmsr_0 : Nat
  /-- the number of high MSRs counted for reads -/
  rdmsr_c : Nat
  /-- the number of low MSRs counted for writes -/
  wrmsr_0 : Nat
  /-- the number of high MSRs counted for writes -/
  wrmsr_c : Nat

/-- The C++ `std::size(stats.name)`, 1 for a scalar counter. -/
def stats_dims.size (d : stats_dims) : stats_field → Nat
  | .vmexit => d.vmexit
  | .expt_vector => d.expt_vector
  | .cpuid_0 => d.cpuid_0_max
  | .cpuid_8 => d.cpuid_8_max
  | .cpuid_other => 1
  | .mov_from_cr => d.mov_from_cr
  | .mov_to_cr => d.mov_to_cr
  | .clts => 1
  | .lmsw => 1
  | .mov_from_dr => d.mov_from_dr
  | .mov_to_dr => d.mov_to_dr
  | .gdtr_idtr => d.gdtr_idtr
  | .ldtr_tr => d.ldtr_tr
  | .io_in => d.io_in
  | .io_out => d.io_out
  | .rdmsr_0 => d.rdmsr_0
  | .rdmsr_c => d.rdmsr_c
  | .rdmsr_other => 1
  | .wrmsr_0 => d.wrmsr_0
  | .wrmsr_c => d.wrmsr_c
  | .wrmsr_other => 1

/-- Modelled from the spec: `vmexit_stats_storage_t` (`vmexit_stats.h`, not
among the sources), one statistics block: the value of `stats.name[index]`
for every counter. -/
abbrev vmexit_stats_storage_t := stats_field → Nat → Nat

/-- The block after `memset(&block, 0, sizeof(block))`. -/
def storage_zero : vmexit_stats_storage_t := fun _ _ => 0

/-- The C++ `a + b` on `uint32_t` counters. -/
def u32_add (a b : Nat) : Nat := (a + b) % 2 ^ 32

/-- The C++ `stats.name[index] += 1`. -/
def incr (d : stats_dims) (stats : vmexit_stats_storage_t) (name : stats_field)
    (index : Nat) : Option vmexit_stats_storage_t :=
  if index < d.size name then
    some fun f i => if f = name ∧ i = index then u32_add (stats f i) 1 else stats f i
  else none

namespace exit_reason

/-- Modelled from the spec: the values of `vmx::exit_reason` that the handler
names (declared outside the sources), in the hardware-defined numbering of
trap reasons; this one is `exception_or_nmi`. -/
abbrev exception_or_nmi : Nat := 0
/-- The reason `execute_cpuid`. -/
abbrev execute_cpuid : Nat := 10
/-- The reason `execute_invd`. -/
abbrev execute_invd : Nat := 13
/-- The reason `execute_invlpg`. -/
abbrev execute_invlpg : Nat := 14
/-- The reason `execute_rdtsc`. -/
abbrev execute_rdtsc : Nat := 16
/-- The reason `mov_cr`. -/
abbrev mov_cr : Nat := 28
/-- The reason `mov_dr`. -/
abbrev mov_dr : Nat := 29
/-- The reason `execute_io_instruction`. -/
abbrev execute_io_instruction : Nat := 30
/-- The reason `execute_rdmsr`. -/
abbrev execute_rdmsr : Nat := 31
/-- The reason `execute_wrmsr`. -/
abbrev execute_wrmsr : Nat := 32
/-- The reason `gdtr_idtr_access`. -/
abbrev gdtr_idtr_access : Nat := 46
/-- The reason `ldtr_tr_access`. -/
abbrev ldtr_tr_access : Nat := 47
/-- The reason `ept_violation`. -/
abbrev ept_violation : Nat := 48
/-- The reason `execute_rdtscp`. -/
abbrev execute_rdtscp : Nat := 51
/-- The reason `execute_wbinvd`. -/
abbrev execute_wbinvd : Nat := 54
/-- The reason `execute_xsetbv`. -/
abbrev execute_xsetbv : Nat := 55
/-- The reason `execute_invpcid`. -/
abbrev execute_invpcid : Nat := 58

end exit_reason

/-- Modelled from the spec: the interrupt types `hardware_exception` (3) and
`software_exception` (6) of `vmx::interrupt_type`, declared outside the
sources; this one is `hardware_exception`. -/
abbrev interrupt_type_hardware_exception : Nat := 3
/-- The interrupt type `software_exception`. -/
abbrev interrupt_type_software_exception : Nat := 6

/-- Modelled from the spec: the access types of the qualification of a
control-register trap, declared outside the sources; this one is
`access_to_cr`. -/
abbrev access_to_cr : Nat := 0
/-- The access type `access_from_cr`. -/
abbrev access_from_cr : Nat := 1
/-- The access type `access_clts`. -/
abbrev access_clts : Nat := 2
/-- The access type `access_lmsw`. -/
abbrev access_lmsw : Nat := 3
/-- The access type `access_to_dr` of a debug-register trap. -/
abbrev access_to_dr : Nat := 0
/-- The access type `access_from_dr` of a debug-register trap. -/
abbrev access_from_dr : Nat := 1
/-- The access type `access_out` of an I/O trap. -/
abbrev access_out : Nat := 0
/-- The access type `access_in` of an I/O trap. -/
abbrev access_in : Nat := 1

/-- Modelled from the spec: what `vp.exit_interrupt_info()` returns (declared
outside the sources). -/
structure interrupt_info_t where
  /-- the interrupt type -/
  type : Nat
  /-- the vector -/
  vector : Nat
  deriving DecidableEq

/-- Modelled from the spec: the `mov_cr` view of the qualification. -/
structure exit_qualification_mov_cr_t where
  /-- the access type -/
  access_type : Nat
  /-- the control register -/
  cr_number : Nat
  /-- the general register operand -/
  gp_register : Nat
  deriving DecidableEq

/-- Modelled from the spec: the `mov_dr` view of the qualification. -/
structure exit_qualification_mov_dr_t where
  /-- the access type -/
  access_type : Nat
  /-- the debug register -/
  dr_number : Nat
  /-- the general register operand -/
  gp_register : Nat
  deriving DecidableEq

/-- Modelled from the spec: the `io_instruction` view of the qualification. -/
structure exit_qualification_io_instruction_t where
  /-- the access type -/
  access_type : Nat
  /-- the port -/
  port_number : Nat
  deriving DecidableEq

/-- Modelled from the spec: what `vp.exit_qualification()` returns (declared
outside the sources), with the views the handler reads. -/
structure exit_qualification_t where
  /-- the linear address -/
  linear_address : Nat
  /-- the view of a control-register trap -/
  mov_cr : exit_qualification_mov_cr_t
  /-- the view of a debug-register trap -/
  mov_dr : exit_qualification_mov_dr_t
  /-- the view of an I/O trap -/
  io_instruction : exit_qualification_io_instruction_t
  deriving DecidableEq

/-- Modelled from the spec: what `vp.exit_instruction_info()` returns
(declared outside the sources): the decoded sub-opcode of a descriptor-table
instruction. -/
structure instruction_info_t where
  /-- the field `gdtr_idtr_access.instruction` -/
  gdtr_idtr_access_instruction : Nat
  /-- the field `ldtr_tr_access.instruction` -/
  ldtr_tr_access_instruction : Nat
  deriving DecidableEq

/-- Modelled from the spec: what `vp.exit_context()` returns (declared
outside the sources), the general-register image. -/
structure context_t where
  /-- the 16 general registers, `rax` first, then `rcx`, `rdx` -/
  gp_register : Nat → Nat

/-- The register `rax`. -/
def context_t.rax (c : context_t) : Nat := c.gp_register 0
/-- The register `rdx`. -/
def context_t.rdx (c : context_t) : Nat := c.gp_register 2
/-- The low half `eax` of `rax`. -/
def context_t.eax (c : context_t) : Nat := c.gp_register 0 % 2 ^ 32
/-- The low half `ecx` of `rcx`. -/
def context_t.ecx (c : context_t) : Nat := c.gp_register 1 % 2 ^ 32

/-- Modelled from the spec: the trap context `vcpu_t` (declared outside the
sources), as far as the handler reads it. -/
structure vcpu_t where
  /-- the numeric trap reason -/
  exit_reason : Nat
  /-- the interrupt information -/
  exit_interrupt_info : interrupt_info_t
  /-- the qualification -/
  exit_qualification : exit_qualification_t
  /-- the instruction information -/
  exit_instruction_info : instruction_info_t
  /-- the guest registers -/
  exit_context : context_t

/-- A line written by `hvpp_trace`: the format and the numeric arguments
(a `%s` argument is given by the number it is computed from). -/
structure trace_line where
  /-- the format string -/
  format : String
  /-- the arguments -/
  args : List Nat

/-- Modelled from the spec: the data members of `vmexit_stats_handler`
(`vmexit_stats.h`, not among the sources) that `handle` and `dump` use. -/
structure vmexit_stats_handler where
  /-- one block per processor, `storage_[i]` for `i < cpu_count` -/
  storage_ : Nat → vmexit_stats_storage_t
  /-- the aggregate block -/
  storage_merged_ : vmexit_stats_storage_t
  /-- the reasons for which tracing is enabled -/
  vmexit_trace_bitmap_ : bitmap

/-- The macro `hvpp_trace_if_enabled(format, ...)`. -/
def hvpp_trace_if_enabled (bit_count : Nat) (h : vmexit_stats_handler) (exit_reason : Nat)
    (line : trace_line) (log : List trace_line) : Option (List trace_line) :=
  match bitmap.test bit_count h.vmexit_trace_bitmap_ exit_reason with
  | none => none
  | some enabled => some (if enabled then log ++ [line] else log)

/-- A case of the `switch` of `handle` that counts and traces:
`stats.name[index] += 1; hvpp_trace_if_enabled(...)`. -/
def count_and_trace (bit_count : Nat) (d : stats_dims) (h : vmexit_stats_handler)
    (exit_reason : Nat) (stats : vmexit_stats_storage_t) (name : stats_field) (index : Nat)
    (line : trace_line) (log : List trace_line) :
    Option (vmexit_stats_storage_t × List trace_line) :=
  (incr d stats name index).bind fun stats =>
    (hvpp_trace_if_enabled bit_count h exit_reason line log).map fun log => (stats, log)

/-- A case of the `switch` of `handle` that only traces. -/
def trace_only (bit_count : Nat) (h : vmexit_stats_handler) (exit_reason : Nat)
    (stats : vmexit_stats_storage_t) (line : trace_line) (log : List trace_line) :
    Option (vmexit_stats_storage_t × List trace_line) :=
  (hvpp_trace_if_enabled bit_count h exit_reason line log).map fun log => (stats, log)

/-- The `switch (exit_reason)` of `vmexit_stats_handler::handle`. -/
def handle_switch (bit_count : Nat) (d : stats_dims) (h : vmexit_stats_handler)
    (vp : vcpu_t) (stats : vmexit_stats_storage_t) (log : List trace_line) :
    Option (vmexit_stats_storage_t × List trace_line) :=
  if vp.exit_reason = exit_reason.exception_or_nmi then
    if vp.exit_interrupt_info.type = interrupt_type_hardware_exception ∨
        vp.exit_interrupt_info.type = interrupt_type_software_exception then
      count_and_trace bit_count d h vp.exit_reason stats .expt_vector
        vp.exit_interrupt_info.vector
        ⟨"exit_reason::exception_or_nmi: %s", [vp.exit_interrupt_info.vector]⟩ log
    else some (stats, log)
  else if vp.exit_reason = exit_reason.execute_cpuid then
    (if vp.exit_context.eax < (0x00000000 + d.cpuid_0_max) % 2 ^ 32 then
      incr d stats .cpuid_0 vp.exit_context.eax
    else if vp.exit_context.eax ≥ 0x80000000 ∧
        vp.exit_context.eax < (0x80000000 + d.cpuid_8_max) % 2 ^ 32 then
      incr d stats .cpuid_8 (vp.exit_context.eax - 0x80000000)
    else incr d stats .cpuid_other 0).bind fun stats =>
      trace_only bit_count h vp.exit_reason stats
        ⟨"exit_reason::execute_cpuid: 0x%08x", [vp.exit_context.eax]⟩ log
  else if vp.exit_reason = exit_reason.execute_invd then
    trace_only bit_count h vp.exit_reason stats ⟨"exit_reason::execute_invd", []⟩ log
  else if vp.exit_reason = exit_reason.execute_invlpg then
    trace_only bit_count h vp.exit_reason stats
      ⟨"exit_reason::execute_invlpg: 0x%p", [vp.exit_qualification.linear_address]⟩ log
  else if vp.exit_reason = exit_reason.execute_rdtsc then
    trace_only bit_count h vp.exit_reason stats ⟨"exit_reason::execute_rdtsc", []⟩ log
  else if vp.exit_reason = exit_reason.mov_cr then
    if vp.exit_qualification.mov_cr.access_type = access_to_cr then
      count_and_trace bit_count d h vp.exit_reason stats .mov_to_cr
        vp.exit_qualification.mov_cr.cr_number
        ⟨"exit_reason::mov_cr: (to_cr%u) 0x%p", [vp.exit_qualification.mov_cr.cr_number,
          vp.exit_context.gp_register vp.exit_qualification.mov_cr.gp_register]⟩ log
    else if vp.exit_qualification.mov_cr.access_type = access_from_cr then
      count_and_trace bit_count d h vp.exit_reason stats .mov_from_cr
        vp.exit_qualification.mov_cr.cr_number
        ⟨"exit_reason::mov_cr: (from_cr%u) 0x%p", [vp.exit_qualification.mov_cr.cr_number,
          vp.exit_context.gp_register vp.exit_qualification.mov_cr.gp_register]⟩ log
    else if vp.exit_qualification.mov_cr.access_type = access_clts then
      count_and_trace bit_count d h vp.exit_reason stats .clts 0
        ⟨"exit_reason::mov_cr: (clts)", []⟩ log
    else if vp.exit_qualification.mov_cr.access_type = access_lmsw then
      count_and_trace bit_count d h vp.exit_reason stats .lmsw 0
        ⟨"exit_reason::mov_cr: (lmsw)", []⟩ log
    else some (stats, log)
  else if vp.exit_reason = exit_reason.mov_dr then
    if vp.exit_qualification.mov_dr.access_type = access_to_dr then
      count_and_trace bit_count d h vp.exit_reason stats .mov_to_dr
        vp.exit_qualification.mov_dr.dr_number
        ⟨"exit_reason::mov_dr: (to_dr%u) 0x%p", [vp.exit_qualification.mov_dr.dr_number,
          vp.exit_context.gp_register vp.exit_qualification.mov_dr.gp_register]⟩ log
    else if vp.exit_qualification.mov_dr.access_type = access_from_dr then
      count_and_trace bit_count d h vp.exit_reason stats .mov_from_dr
        vp.exit_qualification.mov_dr.dr_number
        ⟨"exit_reason::mov_dr: (from_dr%u) 0x%p", [vp.exit_qualification.mov_dr.dr_number,
          vp.exit_context.gp_register vp.exit_qualification.mov_dr.gp_register]⟩ log
    else some (stats, log)
  else if vp.exit_reason = exit_reason.execute_io_instruction then
    if vp.exit_qualification.io_instruction.access_type = access_out then
      count_and_trace bit_count d h vp.exit_reason stats .io_out
        vp.exit_qualification.io_instruction.port_number
        ⟨"exit_reason::execute_io_instruction: out 0x%04x",
          [vp.exit_qualification.io_instruction.port_number]⟩ log
    else if vp.exit_qualification.io_instruction.access_type = access_in then
      count_and_trace bit_count d h vp.exit_reason stats .io_in
        vp.exit_qualification.io_instruction.port_number
        ⟨"exit_reason::execute_io_instruction: in 0x%04x",
          [vp.exit_qualification.io_instruction.port_number]⟩ log
    else some (stats, log)
  else if vp.exit_reason = exit_reason.execute_rdmsr then
    (if vp.exit_context.ecx ≤ 0x00001fff then
      incr d stats .rdmsr_0 vp.exit_context.ecx
    else if vp.exit_context.ecx ≥ 0xc0000000 ∧ vp.exit_context.ecx ≤ 0xc0001fff then
      incr d stats .rdmsr_c (vp.exit_context.ecx - 0xc0000000)
    else incr d stats .rdmsr_other 0).bind fun stats =>
      trace_only bit_count h vp.exit_reason stats
        ⟨"exit_reason::execute_rdmsr: 0x%08x", [vp.exit_context.ecx]⟩ log
  else if vp.exit_reason = exit_reason.execute_wrmsr then
    (if vp.exit_context.ecx ≤ 0x00001fff then
      incr d stats .wrmsr_0 vp.exit_context.ecx
    else if vp.exit_context.ecx ≥ 0xc0000000 ∧ vp.exit_context.ecx ≤ 0xc0001fff then
      incr d stats .wrmsr_c (vp.exit_context.ecx - 0xc0000000)
    else incr d stats .wrmsr_other 0).bind fun stats =>
      trace_only bit_count h vp.exit_reason stats
        ⟨"exit_reason::execute_wrmsr: 0x%08x", [vp.exit_context.ecx]⟩ log
  else if vp.exit_reason = exit_reason.gdtr_idtr_access then
    count_and_trace bit_count d h vp.exit_reason stats .gdtr_idtr
      vp.exit_instruction_info.gdtr_idtr_access_instruction
      ⟨"exit_reason::gdtr_idtr_access: %s",
        [vp.exit_instruction_info.gdtr_idtr_access_instruction]⟩ log
  else if vp.exit_reason = exit_reason.ldtr_tr_access then
    count_and_trace bit_count d h vp.exit_reason stats .ldtr_tr
      vp.exit_instruction_info.ldtr_tr_access_instruction
      ⟨"exit_reason::ldtr_tr_access: %s",
        [vp.exit_instruction_info.ldtr_tr_access_instruction]⟩ log
  else if vp.exit_reason = exit_reason.ept_violation then
    some (stats, log)
  else if vp.exit_reason = exit_reason.execute_rdtscp then
    trace_only bit_count h vp.exit_reason stats ⟨"exit_reason::execute_rdtscp", []⟩ log
  else if vp.exit_reason = exit_reason.execute_wbinvd then
    trace_only bit_count h vp.exit_reason stats ⟨"exit_reason::execute_wbinvd", []⟩ log
  else if vp.exit_reason = exit_reason.execute_xsetbv then
    trace_only bit_count h vp.exit_reason stats
      ⟨"exit_reason::execute_xsetbv: [0x%08x] -> %p", [vp.exit_context.ecx,
        ((vp.exit_context.rdx <<< 32) % 2 ^ 64) ||| vp.exit_context.rax]⟩ log
  else if vp.exit_reason = exit_reason.execute_invpcid then
    trace_only bit_count h vp.exit_reason stats ⟨"exit_reason::execute_invpcid", []⟩ log
  else some (stats, log)

/-- The result of `handle`: the handler, the context and the trace log. -/
structure handle_result where
  /-- the handler after the call -/
  handler : vmexit_stats_handler
  /-- the context after the call -/
  vp : vcpu_t
  /-- the trace log after the call -/
  log : List trace_line

/-- The C++ `vmexit_stats_handler::handle(vcpu_t& vp)`, run on processor
`cpu_index` of `cpu_count`. -/
def handle (bit_count : Nat) (d : stats_dims) (cpu_count cpu_index : Nat)
    (h : vmexit_stats_handler) (vp : vcpu_t) (log : List trace_line) :
    Option handle_result :=
  let exit_reason := vp.exit_reason
  if cpu_index < cpu_count then
    match incr d (h.storage_ cpu_index) .vmexit exit_reason with
    | none => none
    | some stats =>
      match handle_switch bit_count d h vp stats log with
      | none => none
      | some (stats, log) =>
        some ⟨{ h with storage_ := fun i => if i = cpu_index then stats else h.storage_ i },
          vp, log⟩
  else none

/-- One `STORAGE_MERGE_IMPL(name)` of `storage_merge`, which for a scalar
counter is `lhs.name += rhs.name`. -/
def merge_field (d : stats_dims) (name : stats_field)
    (lhs rhs : vmexit_stats_storage_t) : vmexit_stats_storage_t :=
  fun f i => if f = name ∧ i < d.size name then u32_add (lhs f i) (rhs f i) else lhs f i

/-- The C++ `vmexit_stats_handler::storage_merge(lhs, rhs)`; the result is
`lhs` after the call. -/
def storage_merge (d : stats_dims) (lhs rhs : vmexit_stats_storage_t) :
    vmexit_stats_storage_t :=
  let lhs := merge_field d .vmexit lhs rhs
  let lhs := merge_field d .expt_vector lhs rhs
  let lhs := merge_field d .cpuid_0 lhs rhs
  let lhs := merge_field d .cpuid_8 lhs rhs
  let lhs := merge_field d .cpuid_other lhs rhs
  let lhs := merge_field d .mov_from_cr lhs rhs
  let lhs := merge_field d .mov_to_cr lhs rhs
  let lhs := merge_field d .clts lhs rhs
  let lhs := merge_field d .lmsw lhs rhs
  let lhs := merge_field d .mov_from_dr lhs rhs
  let lhs := merge_field d .mov_to_dr lhs rhs
  let lhs := merge_field d .gdtr_idtr lhs rhs
  let lhs := merge_field d .ldtr_tr lhs rhs
  let lhs := merge_field d .io_in lhs rhs
  let lhs := merge_field d .io_out lhs rhs
  let lhs := merge_field d .rdmsr_0 lhs rhs
  let lhs := merge_field d .rdmsr_c lhs rhs
  let lhs := merge_field d .rdmsr_other lhs rhs
  let lhs := merge_field d .wrmsr_0 lhs rhs
  let lhs := merge_field d .wrmsr_c lhs rhs
  let lhs := merge_field d .wrmsr_other lhs rhs
  lhs

/-- A line written by `hvpp_info` in `storage_dump`: the header, or the line
of the counter `name` with the key printed before it (the index, offset for
the high ranges) and the value printed. -/
inductive report_line
  | header
  | counter (name : stats_field) (key : Nat) (value : Nat)
  deriving DecidableEq

/-- A loop of `storage_dump` over one array:
`for (i = 0; i < std::size(stats.name); ++i) if (stats.name[i] > 0) hvpp_info(...)`,
where the key printed is `i + base`. -/
def dump_array (d : stats_dims) (stats : vmexit_stats_storage_t) (name : stats_field)
    (base : Nat) : List report_line :=
  (List.range (d.size name)).flatMap fun i =>
    if stats name i > 0 then [report_line.counter name (i + base) (stats name i)] else []

/-- The `switch` of `storage_dump`, for the reason `exit_reason_index`. -/
def dump_switch (d : stats_dims) (stats : vmexit_stats_storage_t)
    (exit_reason_index : Nat) : List report_line :=
  if exit_reason_index = exit_reason.exception_or_nmi then
    dump_array d stats .expt_vector 0
  else if exit_reason_index = exit_reason.execute_cpuid then
    dump_array d stats .cpuid_0 0 ++ dump_array d stats .cpuid_8 0x80000000 ++
      (if stats .cpuid_other 0 > 0 then
        [report_line.counter .cpuid_other 0 (stats .cpuid_other 0)] else [])
  else if exit_reason_index = exit_reason.mov_cr then
    dump_array d stats .mov_from_cr 0 ++ dump_array d stats .mov_to_cr 0 ++
      (if stats .lmsw 0 > 0 then [report_line.counter .clts 0 (stats .clts 0)] else []) ++
      (if stats .lmsw 0 > 0 then [report_line.counter .lmsw 0 (stats .lmsw 0)] else [])
  else if exit_reason_index = exit_reason.mov_dr then
    dump_array d stats .mov_from_dr 0 ++ dump_array d stats .mov_to_dr 0
  else if exit_reason_index = exit_reason.gdtr_idtr_access then
    dump_array d stats .gdtr_idtr 0
  else if exit_reason_index = exit_reason.ldtr_tr_access then
    dump_array d stats .ldtr_tr 0
  else if exit_reason_index = exit_reason.execute_io_instruction then
    dump_array d stats .io_in 0 ++ dump_array d stats .io_out 0
  else if exit_reason_index = exit_reason.execute_rdmsr then
    dump_array d stats .rdmsr_0 0 ++ dump_array d stats .rdmsr_c 0xc0000000 ++
      (if stats .rdmsr_other 0 > 0 then
        [report_line.counter .rdmsr_other 0 (stats .rdmsr_other 0)] else [])
  else if exit_reason_index = exit_reason.execute_wrmsr then
    dump_array d stats .wrmsr_0 0 ++ dump_array d stats .wrmsr_c 0xc0000000 ++
      (if stats .wrmsr_other 0 > 0 then
        [report_line.counter .wrmsr_other 0 (stats .wrmsr_other 0)] else [])
  else []

/-- The C++ `vmexit_stats_handler::storage_dump(storage_to_dump)`: the lines
written. -/
def storage_dump (d : stats_dims) (stats : vmexit_stats_storage_t) : List report_line :=
  report_line.header ::
    (List.range (d.size .vmexit)).flatMap fun exit_reason_index =>
      if stats .vmexit exit_reason_index > 0 then
        report_line.counter .vmexit exit_reason_index (stats .vmexit exit_reason_index) ::
          dump_switch d stats exit_reason_index
      else []

/-- The C++ `vmexit_stats_handler::dump()`: the handler with the aggregate
recomputed, and the lines written. -/
def dump (d : stats_dims) (cpu_count : Nat) (h : vmexit_stats_handler) :
    vmexit_stats_handler × List report_line :=
  let storage_merged_ := (List.range cpu_count).foldl
    (fun merged i => storage_merge d merged (h.storage_ i)) storage_zero
  ({ h with storage_merged_ := storage_merged_ }, storage_dump d storage_merged_)

/-! ## Vocabulary for the properties of the statistics handler -/

/-- The secondary counter that a trap selects, if any: the counter that the
`switch` of `handle` increments for it. -/
def secondary_counter (d : stats_dims) (vp : vcpu_t) : Option (stats_field × Nat) :=
  if vp.exit_reason = exit_reason.exception_or_nmi then
    if vp.exit_interrupt_info.type = interrupt_type_hardware_exception ∨
        vp.exit_interrupt_info.type = interrupt_type_software_exception then
      some (.expt_vector, vp.exit_interrupt_info.vector)
    else none
  else if vp.exit_reason = exit_reason.execute_cpuid then
    if vp.exit_context.eax < (0x00000000 + d.cpuid_0_max) % 2 ^ 32 then
      some (.cpuid_0, vp.exit_context.eax)
    else if vp.exit_context.eax ≥ 0x80000000 ∧
        vp.exit_context.eax < (0x80000000 + d.cpuid_8_max) % 2 ^ 32 then
      some (.cpuid_8, vp.exit_context.eax - 0x80000000)
    else some (.cpuid_other, 0)
  else if vp.exit_reason = exit_reason.mov_cr then
    if vp.exit_qualification.mov_cr.access_type = access_to_cr then
      some (.mov_to_cr, vp.exit_qualification.mov_cr.cr_number)
    else if vp.exit_qualification.mov_cr.access_type = access_from_cr then
      some (.mov_from_cr, vp.exit_qualification.mov_cr.cr_number)
    else if vp.exit_qualification.mov_cr.access_type = access_clts then some (.clts, 0)
    else if vp.exit_qualification.mov_cr.access_type = access_lmsw then some (.lmsw, 0)
    else none
  else if vp.exit_reason = exit_reason.mov_dr then
    if vp.exit_qualification.mov_dr.access_type = access_to_dr then
      some (.mov_to_dr, vp.exit_qualification.mov_dr.dr_number)
    else if vp.exit_qualification.mov_dr.access_type = access_from_dr then
      some (.mov_from_dr, vp.exit_qualification.mov_dr.dr_number)
    else none
  else if vp.exit_reason = exit_reason.execute_io_instruction then
    if vp.exit_qualification.io_instruction.access_type = access_out then
      some (.io_out, vp.exit_qualification.io_instruction.port_number)
    else if vp.exit_qualification.io_instruction.access_type = access_in then
      some (.io_in, vp.exit_qualification.io_instruction.port_number)
    else none
  else if vp.exit_reason = exit_reason.execute_rdmsr then
    if vp.exit_context.ecx ≤ 0x00001fff then some (.rdmsr_0, vp.exit_context.ecx)
    else if vp.exit_context.ecx ≥ 0xc0000000 ∧ vp.exit_context.ecx ≤ 0xc0001fff then
      some (.rdmsr_c, vp.exit_context.ecx - 0xc0000000)
    else some (.rdmsr_other, 0)
  else if vp.exit_reason = exit_reason.execute_wrmsr then
    if vp.exit_context.ecx ≤ 0x00001fff then some (.wrmsr_0, vp.exit_context.ecx)
    else if vp.exit_context.ecx ≥ 0xc0000000 ∧ vp.exit_context.ecx ≤ 0xc0001fff then
      some (.wrmsr_c, vp.exit_context.ecx - 0xc0000000)
    else some (.wrmsr_other, 0)
  else if vp.exit_reason = exit_reason.gdtr_idtr_access then
    some (.gdtr_idtr, vp.exit_instruction_info.gdtr_idtr_access_instruction)
  else if vp.exit_reason = exit_reason.ldtr_tr_access then
    some (.ldtr_tr, vp.exit_instruction_info.ldtr_tr_access_instruction)
  else none

/-- The block after `stats.name[index] += 1` with `index` inside the array. -/
def bumped (stats : vmexit_stats_storage_t) (name : stats_field) (index : Nat) :
    vmexit_stats_storage_t :=
  fun f i => if f = name ∧ i = index then u32_add (stats f i) 1 else stats f i

/-- What `handle` does to the block of its processor: the coarse counter of
the reason, then the secondary counter selected. -/
def count_trap (d : stats_dims) (stats : vmexit_stats_storage_t) (vp : vcpu_t) :
    Option vmexit_stats_storage_t :=
  match incr d stats .vmexit vp.exit_reason with
  | none => none
  | some stats =>
    match secondary_counter d vp with
    | none => some stats
    | some c => incr d stats c.1 c.2

/-- The trap indexes every array it counts in inside the array. -/
def trap_fits (d : stats_dims) (vp : vcpu_t) : Prop :=
  vp.exit_reason < d.vmexit ∧ ∀ c ∈ secondary_counter d vp, c.2 < d.size c.1

instance (d : stats_dims) (vp : vcpu_t) : Decidable (trap_fits d vp) :=
  inferInstanceAs (Decidable (vp.exit_reason < d.vmexit ∧
    ∀ c ∈ secondary_counter d vp, c.2 < d.size c.1))

/-- The trace bit vector of the handler is well formed and has a bit for
every reason that has a coarse counter. -/
def trace_ok (bit_count : Nat) (d : stats_dims) (h : vmexit_stats_handler) : Prop :=
  bitmap.valid bit_count h.vmexit_trace_bitmap_ ∧
    d.vmexit ≤ h.vmexit_trace_bitmap_.size_in_bits_

instance (bit_count : Nat) (d : stats_dims) (h : vmexit_stats_handler) :
    Decidable (trace_ok bit_count d h) :=
  inferInstanceAs (Decidable (bitmap.valid bit_count h.vmexit_trace_bitmap_ ∧
    d.vmexit ≤ h.vmexit_trace_bitmap_.size_in_bits_))

/-- A block whose counters are `uint32_t` values and which holds nothing
outside its arrays. -/
def storage_valid (d : stats_dims) (stats : vmexit_stats_storage_t) : Prop :=
  ∀ f i, stats f i < 2 ^ 32 ∧ (d.size f ≤ i → stats f i = 0)

/-- A trap on a processor. -/
abbrev event := Nat × vcpu_t

/-- The handler after `handle` has run for each trap of a sequence, each on
its processor. -/
def handle_all (bit_count : Nat) (d : stats_dims) (cpu_count : Nat) :
    List event → vmexit_stats_handler → List trace_line →
      Option (vmexit_stats_handler × List trace_line)
  | [], h, log => some (h, log)
  | e :: rest, h, log =>
    match handle bit_count d cpu_count e.1 h e.2 log with
    | none => none
    | some res => handle_all bit_count d cpu_count rest res.handler res.log

/-- How often one trap counts in `name[index]`. -/
def hits (d : stats_dims) (vp : vcpu_t) (name : stats_field) (index : Nat) : Nat :=
  (if name = .vmexit ∧ index = vp.exit_reason then 1 else 0) +
    (if secondary_counter d vp = some (name, index) then 1 else 0)

/-- How often the traps of a sequence that run on processor `q` count in
`name[index]`. -/
def tally (d : stats_dims) : List event → Nat → stats_field → Nat → Nat
  | [], _, _, _ => 0
  | e :: rest, q, name, index =>
    (if e.1 = q then hits d e.2 name index else 0) + tally d rest q name index

/-- The sum `g 0 + ... + g (n - 1)`. -/
def sum_below (g : Nat → Nat) : Nat → Nat
  | 0 => 0
  | n + 1 => sum_below g n + g n

/-- The CPUID bucket of a leaf, in the words of the specification: the low
range, the high range, else "other". -/
def cpuid_bucket (d : stats_dims) (eax : Nat) : stats_field × Nat :=
  if eax < d.cpuid_0_max then (.cpuid_0, eax)
  else if 0x80000000 ≤ eax ∧ eax < 0x80000000 + d.cpuid_8_max then
    (.cpuid_8, eax - 0x80000000)
  else (.cpuid_other, 0)

/-- The MSR bucket of an index, in the words of the specification: the low
range `[0, 0x2000)`, the high range `[0xC0000000, 0xC0002000)`, else
"other". -/
def msr_bucket (low high other : stats_field) (ecx : Nat) : stats_field × Nat :=
  if ecx < 0x2000 then (low, ecx)
  else if 0xC0000000 ≤ ecx ∧ ecx < 0xC0002000 then (high, ecx - 0xC0000000)
  else (other, 0)

/-- The counter the specification names for an MSR trap with index `ecx`, in
the write counters when `write` holds and in the read counters otherwise. -/
def msr_counter (write : Bool) (ecx : Nat) : stats_field × Nat :=
  if write then msr_bucket .wrmsr_0 .wrmsr_c .wrmsr_other ecx
  else msr_bucket .rdmsr_0 .rdmsr_c .rdmsr_other ecx

/-- Every trap of the sequence runs on a processor below `cpu_count` and
indexes every array it counts in inside the array. -/
def events_fit (d : stats_dims) (cpu_count : Nat) (events : List event) : Prop :=
  ∀ e ∈ events, e.1 < cpu_count ∧ trap_fits d e.2

instance (d : stats_dims) (cpu_count : Nat) (events : List event) :
    Decidable (events_fit d cpu_count events) :=
  inferInstanceAs (Decidable (∀ e ∈ events, e.1 < cpu_count ∧ trap_fits d e.2))

/-- How often the traps of a sequence count in `name[index]`, whatever their
processor. -/
def tally_all (d : stats_dims) : List event → stats_field → Nat → Nat
  | [], _, _ => 0
  | e :: rest, name, index => hits d e.2 name index + tally_all d rest name index

/-- Every block of the handler is a valid block. -/
def blocks_valid (d : stats_dims) (h : vmexit_stats_handler) : Prop :=
  ∀ q, storage_valid d (h.storage_ q)

/-! ## Concrete inputs -/

/-- Array sizes used at concrete inputs: 64 reasons, 32 vectors, 32 leaves in
each CPUID range, 16 control and 8 debug registers, 4 descriptor-table
instructions, all ports and `0x2000` MSRs in each range. -/
def sample_dims : stats_dims :=
  ⟨64, 32, 32, 32, 16, 16, 8, 8, 4, 4, 65536, 65536, 8192, 8192, 8192, 8192⟩

/-- A handler after `initialize()`: zeroed blocks, and a 64-bit trace bit
vector with no reason enabled. -/
def sample_handler : vmexit_stats_handler :=
  ⟨fun _ => storage_zero, storage_zero, ⟨[0], 64⟩⟩

/-- A handler whose trace bit vector enables every reason and whose block 0
has the coarse counter of `execute_invd` at the largest `uint32_t`. -/
def sample_full_handler : vmexit_stats_handler :=
  ⟨fun _ f i => if f = .vmexit ∧ i = exit_reason.execute_invd then 4294967295 else 0,
    storage_zero, ⟨[2 ^ 64 - 1], 64⟩⟩

/-- A context with the given reason, `rax = eax` and `rcx = ecx`, and the
given access type in every view of the qualification; all else is 0. -/
def sample_vp (exit_reason eax ecx access_type : Nat) : vcpu_t :=
  ⟨exit_reason, ⟨0, 0⟩, ⟨0, ⟨access_type, 0, 0⟩, ⟨access_type, 0, 0⟩, ⟨access_type, 0⟩⟩,
    ⟨0, 0⟩, ⟨fun r => if r = 0 then eax else if r = 1 then ecx else 0⟩⟩

/-! ## The nested-virtualization hooks of `src/hvpp/hvpp/vmexit/vmexit_passthrough.h`

The header declares the twelve hooks and `handle_vm_fallback`; their bodies
(`vmexit_passthrough.cpp`) are not among the sources, so they are modelled
from the specification: "a single shared fallback routine injects an
invalid-operation or VM-instruction-error fault for every one of these,
unconditionally".
-/

/-- Modelled from the spec: the fault that the fallback injects into the
guest, an invalid-operation fault or a VM-instruction error
(`vmexit_passthrough.cpp` is not among the sources). -/
inductive guest_fault
  | invalid_operation
  | vm_instruction_error
  deriving DecidableEq

/-- Modelled from the spec: the processor state that a hook of the
passthrough handler acts on (`vcpu_t` is declared outside the sources): the
host virtualization state, of any type, and the faults injected into the
guest so far, oldest first. -/
structure passthrough_vcpu_t (host_state_t : Type) where
  /-- the host virtualization state -/
  host_state : host_state_t
  /-- the faults injected into the guest -/
  injected : List guest_fault

/-- Modelled from the spec: `vmexit_passthrough_handler::handle_vm_fallback`
(body in `vmexit_passthrough.cpp`, not among the sources), the shared
fallback that injects a fault into the guest unconditionally; `fault` is the
fault it injects. -/
def handle_vm_fallback {host_state_t : Type} (fault : guest_fault)
    (vp : passthrough_vcpu_t host_state_t) : passthrough_vcpu_t host_state_t :=
  { vp with injected := vp.injected ++ [fault] }

/-- Modelled from the spec: `vmexit_passthrough_handler::handle_execute_vmclear`
(body in `vmexit_passthrough.cpp`, not among the sources), which goes
through the shared fallback. -/
def handle_execute_vmclear {host_state_t : Type} (fault : guest_fault)
    (vp : passthrough_vcpu_t host_state_t) : passthrough_vcpu_t host_state_t :=
  handle_vm_fallback fault vp

/-- Modelled from the spec: `vmexit_passthrough_handler::handle_execute_vmlaunch`
(body in `vmexit_passthrough.cpp`, not among the sources), which goes
through the shared fallback. -/
def handle_execute_vmlaunch {host_state_t : Type} (fault : guest_fault)
    (vp : passthrough_vcpu_t host_state_t) : passthrough_vcpu_t host_state_t :=
  handle_vm_fallback fault vp

/-- Modelled from the spec: `vmexit_passthrough_handler::handle_execute_vmptrld`
(body in `vmexit_passthrough.cpp`, not among the sources), which goes
through the shared fallback. -/
def handle_execute_vmptrld {host_state_t : Type} (fault : guest_fault)
    (vp : passthrough_vcpu_t host_state_t) : passthrough_vcpu_t host_state_t :=
  handle_vm_fallback fault vp

/-- Modelled from the spec: `vmexit_passthrough_handler::handle_execute_vmptrst`
(body in `vmexit_passthrough.cpp`, not among the sources), which goes
through the shared fallback. -/
def handle_execute_vmptrst {host_state_t : Type} (fault : guest_fault)
    (vp : passthrough_vcpu_t host_state_t) : passthrough_vcpu_t host_state_t :=
  handle_vm_fallback fault vp

/-- Modelled from the spec: `vmexit_passthrough_handler::handle_execute_vmread`
(body in `vmexit_passthrough.cpp`, not among the sources), which goes
through the shared fallback. -/
def handle_execute_vmread {host_state_t : Type} (fault : guest_fault)
    (vp : passthrough_vcpu_t host_state_t) : passthrough_vcpu_t host_state_t :=
  handle_vm_fallback fault vp

/-- Modelled from the spec: `vmexit_passthrough_handler::handle_execute_vmresume`
(body in `vmexit_passthrough.cpp`, not among the sources), which goes
through the shared fallback. -/
def handle_execute_vmresume {host_state_t : Type} (fault : guest_fault)
    (vp : passthrough_vcpu_t host_state_t) : passthrough_vcpu_t host_state_t :=
  handle_vm_fallback fault vp

/-- Modelled from the spec: `vmexit_passthrough_handler::handle_execute_vmwrite`
(body in `vmexit_passthrough.cpp`, not among the sources), which goes
through the shared fallback. -/
def handle_execute_vmwrite {host_state_t : Type} (fault : guest_fault)
    (vp : passthrough_vcpu_t host_state_t) : passthrough_vcpu_t host_state_t :=
  handle_vm_fallback fault vp

/-- Modelled from the spec: `vmexit_passthrough_handler::handle_execute_vmxoff`
(body in `vmexit_passthrough.cpp`, not among the sources), which goes
through the shared fallback. -/
def handle_execute_vmxoff {host_state_t : Type} (fault : guest_fault)
    (vp : passthrough_vcpu_t host_state_t) : passthrough_vcpu_t host_state_t :=
  handle_vm_fallback fault vp

/-- Modelled from the spec: `vmexit_passthrough_handler::handle_execute_vmxon`
(body in `vmexit_passthrough.cpp`, not among the sources), which goes
through the shared fallback. -/
def handle_execute_vmxon {host_state_t : Type} (fault : guest_fault)
    (vp : passthrough_vcpu_t host_state_t) : passthrough_vcpu_t host_state_t :=
  handle_vm_fallback fault vp

/-- Modelled from the spec: `vmexit_passthrough_handler::handle_execute_invept`
(body in `vmexit_passthrough.cpp`, not among the sources), which goes
through the shared fallback. -/
def handle_execute_invept {host_state_t : Type} (fault : guest_fault)
    (vp : passthrough_vcpu_t host_state_t) : passthrough_vcpu_t host_state_t :=
  handle_vm_fallback fault vp

/-- Modelled from the spec: `vmexit_passthrough_handler::handle_execute_invvpid`
(body in `vmexit_passthrough.cpp`, not among the sources), which goes
through the shared fallback. -/
def handle_execute_invvpid {host_state_t : Type} (fault : guest_fault)
    (vp : passthrough_vcpu_t host_state_t) : passthrough_vcpu_t host_state_t :=
  handle_vm_fallback fault vp

/-- Modelled from the spec: `vmexit_passthrough_handler::handle_execute_vmfunc`
(body in `vmexit_passthrough.cpp`, not among the sources), which goes
through the shared fallback. -/
def handle_execute_vmfunc {host_state_t : Type} (fault : guest_fault)
    (vp : passthrough_vcpu_t host_state_t) : passthrough_vcpu_t host_state_t :=
  handle_vm_fallback fault vp

/-- The twelve nested-virtualization hooks that `vmexit_passthrough.h`
declares under "VM-instructions", in the order of the header. -/
def vm_instruction_hooks (host_state_t : Type) :
    List (guest_fault → passthrough_vcpu_t host_state_t → passthrough_vcpu_t host_state_t) :=
  [handle_execute_vmclear, handle_execute_vmlaunch, handle_execute_vmptrld,
    handle_execute_vmptrst, handle_execute_vmread, handle_execute_vmresume,
    handle_execute_vmwrite, handle_execute_vmxoff, handle_execute_vmxon, handle_execute_invept,
    handle_execute_invvpid, handle_execute_vmfunc]

/-- A `clts` trap: a control-register trap with access type `access_clts`. -/
def sample_clts : vcpu_t := sample_vp exit_reason.mov_cr 0 0 access_clts

/-- The trap reason in whose case of the `switch` of `handle` the secondary
counter `name` is incremented; the coarse counters have none. -/
def field_reason : stats_field → Option Nat
  | .vmexit => none
  | .expt_vector => some exit_reason.exception_or_nmi
  | .cpuid_0 => some exit_reason.execute_cpuid
  | .cpuid_8 => some exit_reason.execute_cpuid
  | .cpuid_other => some exit_reason.execute_cpuid
  | .mov_from_cr => some exit_reason.mov_cr
  | .mov_to_cr => some exit_reason.mov_cr
  | .clts => some exit_reason.mov_cr
  | .lmsw => some exit_reason.mov_cr
  | .mov_from_dr => some exit_reason.mov_dr
  | .mov_to_dr => some exit_reason.mov_dr
  | .gdtr_idtr => some exit_reason.gdtr_idtr_access
  | .ldtr_tr => some exit_reason.ldtr_tr_access
  | .io_in => some exit_reason.execute_io_instruction
  | .io_out => some exit_reason.execute_io_instruction
  | .rdmsr_0 => some exit_reason.execute_rdmsr
  | .rdmsr_c => some exit_reason.execute_rdmsr
  | .rdmsr_other => some exit_reason.execute_rdmsr
  | .wrmsr_0 => some exit_reason.execute_wrmsr
  | .wrmsr_c => some exit_reason.execute_wrmsr
  | .wrmsr_other => some exit_reason.execute_wrmsr

/-- The secondary buckets `low`, `high` and `other` of a block partition its
coarse counter of `reason`, as 32-bit sums: the sum of the elements of
`low`, of the elements of `high`, and of the scalar `other`, in `uint32_t`
arithmetic, is `vmexit[reason]`. -/
def partitioned (d : stats_dims) (stats : vmexit_stats_storage_t)
    (low high other : stats_field) (reason : Nat) : Prop :=
  (sum_below (stats low) (d.size low) + sum_below (stats high) (d.size high)
    + stats other 0) % 2 ^ 32 = stats .vmexit reason

/-- A CPUID trap on processor 0, an MSR read on processor 1 and an MSR write
of `0xC0000080` on processor 0. -/
def sample_events : List event :=
  [(0, sample_vp exit_reason.execute_cpuid 1 0 0),
    (1, sample_vp exit_reason.execute_rdmsr 0 0x10 0),
    (0, sample_vp exit_reason.execute_wrmsr 0 0xC0000080 0)]

namespace bitmap

/-! ## Facts about words -/

theorem testBit_of_lt {W w t : Nat} (hw : w < 2 ^ W) (ht : W ≤ t) : w.testBit t = false :=
  Nat.testBit_lt_two_pow (lt_of_lt_of_le hw (Nat.pow_le_pow_right (by decide) ht))

theorem mask_eq {W i : Nat} (hW : 0 < W) : mask W i = 2 ^ (i % W) := by
  unfold mask offset
  rw [Nat.one_shiftLeft]
  exact Nat.mod_eq_of_lt (Nat.pow_lt_pow_right (by decide) (Nat.mod_lt _ hW))

theorem testBit_w_not {W w : Nat} (hw : w < 2 ^ W) (t : Nat) :
    (w_not W w).testBit t = (decide (t < W) && !w.testBit t) := by
  unfold w_not
  rw [Nat.sub_sub, Nat.add_comm 1 w]
  exact Nat.testBit_two_pow_sub_succ hw t

theorem w_not_lt {W : Nat} (w : Nat) : w_not W w < 2 ^ W := by
  unfold w_not
  have : 0 < 2 ^ W := Nat.two_pow_pos _
  omega

/-- The word `~mask(offset(index)) + 1` has the bits from `offset(index)` up. -/
theorem high_mask_eq {W i : Nat} (hW : 0 < W) :
    w_add W (w_not W (mask W (offset W i))) 1 = 2 ^ W - 2 ^ (i % W) := by
  have hm : mask W (offset W i) = 2 ^ (i % W) := by
    rw [mask_eq hW]; unfold offset; rw [Nat.mod_mod]
  rw [hm]
  unfold w_add w_not
  have h1 : 2 ^ (i % W) < 2 ^ W := Nat.pow_lt_pow_right (by decide) (Nat.mod_lt _ hW)
  have h2 : 0 < 2 ^ (i % W) := Nat.two_pow_pos _
  rw [Nat.mod_eq_of_lt (by omega)]
  omega

theorem testBit_high_mask {W i : Nat} (hW : 0 < W) (t : Nat) :
    (w_add W (w_not W (mask W (offset W i))) 1).testBit t
      = (decide (t < W) && decide (i % W ≤ t)) := by
  rw [high_mask_eq hW]
  have h1 : 2 ^ (i % W) < 2 ^ W := Nat.pow_lt_pow_right (by decide) (Nat.mod_lt _ hW)
  have h2 : 0 < 2 ^ (i % W) := Nat.two_pow_pos _
  have h3 : 2 ^ W - 2 ^ (i % W) = 2 ^ W - ((2 ^ (i % W) - 1) + 1) := by omega
  rw [h3, Nat.testBit_two_pow_sub_succ (by omega), Nat.testBit_two_pow_sub_one]
  by_cases h : t < i % W <;> simp [h]
  omega

theorem testBit_shl_shr (W x k t : Nat) :
    (w_shr (w_shl W x k) k).testBit t = (decide (k + t < W) && x.testBit t) := by
  unfold w_shr w_shl
  simp [Nat.testBit_shiftRight, Nat.testBit_mod_two_pow, Nat.testBit_shiftLeft]

theorem testBit_shr_shl (W x k t : Nat) :
    (w_shl W (w_shr x k) k).testBit t = (decide (t < W) && (decide (k ≤ t) && x.testBit t)) := by
  unfold w_shr w_shl
  simp only [Nat.testBit_shiftRight, Nat.testBit_mod_two_pow, Nat.testBit_shiftLeft]
  by_cases h : k ≤ t
  · simp [h, Nat.add_sub_cancel' h]
  · simp [h]

/-- The word `mask(count) - 1` has the bits below `count`. -/
theorem low_mask_eq {W c : Nat} (hW : 0 < W) :
    w_sub W (mask W c) 1 = 2 ^ (c % W) - 1 := by
  rw [mask_eq hW]
  unfold w_sub
  have h1 : 2 ^ (c % W) < 2 ^ W := Nat.pow_lt_pow_right (by decide) (Nat.mod_lt _ hW)
  have h2 : 0 < 2 ^ (c % W) := Nat.two_pow_pos _
  have h4 : 1 < 2 ^ W := Nat.one_lt_two_pow (by omega)
  rw [Nat.mod_eq_of_lt h4]
  have : 2 ^ (c % W) + (2 ^ W - 1) = (2 ^ (c % W) - 1) + 2 ^ W := by omega
  rw [this, Nat.add_mod_right, Nat.mod_eq_of_lt (by omega)]

theorem testBit_low_mask {W c : Nat} (hW : 0 < W) (t : Nat) :
    (w_sub W (mask W c) 1).testBit t = decide (t < c % W) := by
  rw [low_mask_eq hW, Nat.testBit_two_pow_sub_one]


theorem mul_cmp (W q p : Nat) :
    (q < p → W * q + W ≤ W * p) ∧ (p < q → W * p + W ≤ W * q) ∧ (q = p → W * q = W * p) := by
  refine ⟨fun h => ?_, fun h => ?_, fun h => by rw [h]⟩
  · have := Nat.mul_le_mul_left W (Nat.succ_le_of_lt h); rwa [Nat.mul_succ] at this
  · have := Nat.mul_le_mul_left W (Nat.succ_le_of_lt h); rwa [Nat.mul_succ] at this

theorem in_range_iff {W : Nat} (hW : 0 < W) (p c j : Nat) :
    (W * p ≤ j ∧ j < W * p + c) ↔
      ((p ≤ j / W ∧ j / W < p + c / W) ∨ (j / W = p + c / W ∧ j % W < c % W)) := by
  have hj := Nat.div_add_mod j W
  have hc := Nat.div_add_mod c W
  have ht := Nat.mod_lt j hW
  have hr := Nat.mod_lt c hW
  have h1 := mul_cmp W (j / W) p
  have h2 := mul_cmp W (j / W) (p + c / W)
  rw [Nat.mul_add] at h2
  omega
theorem valid.word_lt {W : Nat} {b : bitmap} (h : valid W b) (q : Nat) :
    word_at b q < 2 ^ W := by
  unfold word_at
  cases hq : b.buffer_[q]? with
  | none => exact Nat.two_pow_pos _
  | some w => exact h.2.2.2.2 w (List.mem_iff_getElem?.2 ⟨q, hq⟩)

theorem valid_of_words {W : Nat} {b b' : bitmap} (h : valid W b)
    (hs : b'.size_in_bits_ = b.size_in_bits_) (hl : b'.buffer_.length = b.buffer_.length)
    (hw : ∀ q, word_at b' q < 2 ^ W) : valid W b' := by
  refine ⟨h.1, h.2.1, h.2.2.1, by rw [hl, hs]; exact h.2.2.2.1, fun w hmem => ?_⟩
  obtain ⟨q, hq⟩ := List.mem_iff_getElem?.1 hmem
  have := hw q
  simpa [word_at, hq] using this

theorem word_index_lt {W : Nat} {b : bitmap} (h : valid W b) {i : Nat}
    (hi : i < b.size_in_bits_) : i / W < b.buffer_.length := by
  rw [Nat.div_lt_iff_lt_mul h.1, Nat.mul_comm, h.2.2.2.1]; exact hi

theorem test_eq {W : Nat} {b : bitmap} (h : valid W b) {i : Nat}
    (hi : i < b.size_in_bits_) : test W b i = some (bit_at W b i) := by
  have hq := word_index_lt h hi
  unfold test bit_at word_at word offset
  rw [List.getElem?_eq_getElem hq]
  rfl

theorem update_spec (b : bitmap) {p : Nat} (f : Nat → Nat) (hp : p < b.buffer_.length) :
    ∃ b', b.update p f = some b' ∧ b'.size_in_bits_ = b.size_in_bits_ ∧
      b'.buffer_.length = b.buffer_.length ∧
      ∀ q, word_at b' q = if q = p then f (word_at b p) else word_at b q := by
  unfold update
  rw [List.getElem?_eq_getElem hp]
  refine ⟨_, rfl, rfl, by simp, fun q => ?_⟩
  unfold word_at
  simp only [List.getElem?_set, List.getElem?_eq_getElem hp, Option.getD_some]
  by_cases hq : q = p
  · subst hq; simp [hp]
  · have : ¬ p = q := fun h => hq h.symm
    simp [hq, this]

theorem memset_spec {W : Nat} (hW : 0 < W) (h8 : 8 ∣ W) (mem : List Nat) (p : Nat)
    (ones : Bool) (nb : Nat) (hfit : W * p + 8 * nb ≤ W * mem.length)
    (hmem : ∀ q : Nat, (mem[q]?).getD 0 < 2 ^ W) :
    ∃ mem' : List Nat, memset W mem p ones nb = some mem' ∧ mem'.length = mem.length ∧
      (∀ q : Nat, (mem'[q]?).getD 0 < 2 ^ W) ∧
      ∀ j, ((mem'[j / W]?).getD 0).testBit (j % W) =
        if W * p ≤ j ∧ j < W * p + 8 * nb then ones
        else ((mem[j / W]?).getD 0).testBit (j % W) := by
  obtain ⟨B, rfl⟩ := h8
  have hB : 0 < B := by omega
  have hBd : 8 * B / 8 = B := Nat.mul_div_cancel_left B (by decide)
  have hr : ∀ j, (8 * B * p ≤ j ∧ j < 8 * B * p + 8 * nb) ↔
      ((p ≤ j / (8 * B) ∧ j / (8 * B) < p + nb / B) ∨
        (j / (8 * B) = p + nb / B ∧ j % (8 * B) < 8 * (nb % B))) := by
    intro j
    have hr := in_range_iff hW p (8 * nb) j
    have hd : 8 * nb / (8 * B) = nb / B := Nat.mul_div_mul_left nb B (by decide)
    have hm : 8 * nb % (8 * B) = 8 * (nb % B) := Nat.mul_mod_mul_left 8 nb B
    rw [hd, hm] at hr
    exact hr
  have hnb : 8 * nb = 8 * B * (nb / B) + 8 * (nb % B) := by
    rw [Nat.mul_assoc, ← Nat.mul_add, Nat.div_add_mod]
  have hrest : nb % B < B := Nat.mod_lt _ hB
  unfold memset
  simp only [hBd]
  generalize nb / B = full at *
  generalize nb % B = rest at *
  -- the words reached by the fill are inside the buffer
  have hin : p + full + (if rest = 0 then 0 else 1) ≤ mem.length := by
    have h1 := mul_cmp (8 * B) mem.length (p + full)
    rw [Nat.mul_add] at h1
    split <;> omega
  have hin' : p + full ≤ mem.length := by
    have := hin
    split at this <;> omega
  have hin'' : rest ≠ 0 → p + full < mem.length := by
    intro h
    have := hin
    rw [if_neg h] at this
    omega
  rw [if_pos hin]
  -- the word-level description of the result
  have hword : ∀ q t : Nat, (((mem.mapIdx fun j w =>
      if j < p then w
      else if j < p + full then (if ones then 2 ^ (8 * B) - 1 else 0)
      else if j = p + full then
        (if ones then w ||| (2 ^ (8 * rest) - 1)
          else (w >>> (8 * rest)) <<< (8 * rest))
      else w)[q]?).getD 0).testBit t =
      if p ≤ q ∧ q < p + full then (ones && decide (t < 8 * B))
      else if q = p + full then
        (if ones then (((mem[q]?).getD 0).testBit t || decide (t < 8 * rest))
          else (decide (8 * rest ≤ t) && ((mem[q]?).getD 0).testBit t))
      else ((mem[q]?).getD 0).testBit t := by
    intro q t
    rw [List.getElem?_mapIdx]
    cases hq : mem[q]? with
    | none =>
      have hlen : mem.length ≤ q := List.getElem?_eq_none_iff.1 hq
      have h1 : ¬ (p ≤ q ∧ q < p + full) := by omega
      have h2 : q = p + full → rest = 0 := by
        intro h; by_contra hc; have := hin'' hc; omega
      simp only [Option.map_none', Option.getD_none, Nat.zero_testBit, if_neg h1]
      by_cases h3 : q = p + full
      · simp [h3, h2 h3]
      · simp [h3]
    | some w =>
      simp only [Option.map_some', Option.getD_some]
      by_cases h1 : q < p
      · have : ¬ (p ≤ q ∧ q < p + full) := by omega
        have h3 : ¬ q = p + full := by omega
        simp [h1, this, h3]
      · by_cases h2 : q < p + full
        · have : p ≤ q ∧ q < p + full := by omega
          rw [if_neg h1, if_pos h2, if_pos this]
          cases ones <;> simp
        · have : ¬ (p ≤ q ∧ q < p + full) := by omega
          rw [if_neg h1, if_neg h2, if_neg this]
          by_cases h3 : q = p + full
          · rw [if_pos h3, if_pos h3]
            cases ones
            · simp only [Bool.false_eq_true, if_false, Nat.testBit_shiftLeft,
                Nat.testBit_shiftRight]
              by_cases h4 : 8 * rest ≤ t
              · simp [h4, Nat.add_sub_cancel' h4]
              · simp [h4]
            · simp
          · rw [if_neg h3, if_neg h3]
  refine ⟨_, rfl, by simp, fun q => ?_, fun j => ?_⟩
  · apply Nat.lt_pow_two_of_testBit
    intro t ht
    rw [hword]
    have hold := testBit_of_lt (hmem q) ht
    have h5 : ¬ t < 8 * B := by omega
    have h6 : ¬ t < 8 * rest := by omega
    split
    · simp [h5]
    · split
      · cases ones <;> simp [hold, h6]
      · exact hold
  · rw [hword]
    have hr := hr j
    have ht : j % (8 * B) < 8 * B := Nat.mod_lt _ hW
    by_cases h1 : p ≤ j / (8 * B) ∧ j / (8 * B) < p + full
    · rw [if_pos h1, if_pos (hr.2 (Or.inl h1))]; simp [ht]
    · rw [if_neg h1]
      by_cases h2 : j / (8 * B) = p + full
      · rw [if_pos h2]
        by_cases h3 : j % (8 * B) < 8 * rest
        · rw [if_pos (hr.2 (Or.inr ⟨h2, h3⟩))]
          cases ones
          · simp; omega
          · simp [h3]
        · have : ¬ (8 * B * p ≤ j ∧ j < 8 * B * p + 8 * nb) := by
            intro h; rcases hr.1 h with h | h
            · exact h1 h
            · exact h3 h.2
          rw [if_neg this]
          cases ones
          · simp; intro h; omega
          · simp [h3]
      · rw [if_neg h2]
        have : ¬ (8 * B * p ≤ j ∧ j < 8 * B * p + 8 * nb) := by
          intro h; rcases hr.1 h with h | h
          · exact h1 h
          · exact h2 h.1
        rw [if_neg this]

theorem round8 {W : Nat} (hW : 0 < W) (h8 : 8 ∣ W) (c : Nat) :
    8 * (c / 8) / W = c / W ∧ 8 * (c / 8) % W ≤ c % W ∧ (c % W = 0 → 8 * (c / 8) = c) := by
  have hdiv : 8 * (c / 8) / W = c / W := by
    obtain ⟨B, rfl⟩ := h8
    rw [Nat.mul_div_mul_left _ _ (by decide : 0 < 8), Nat.div_div_eq_div_mul]
  refine ⟨hdiv, ?_, fun h => ?_⟩
  · have h1 := Nat.div_add_mod (8 * (c / 8)) W
    have h2 := Nat.div_add_mod c W
    rw [hdiv] at h1
    omega
  · have : 8 ∣ c := Nat.dvd_trans h8 (Nat.dvd_of_mod_eq_zero h)
    omega

theorem tail_word_lt {W : Nat} {b : bitmap} (h : valid W b) {p c : Nat}
    (hfit : W * p + c ≤ b.size_in_bits_) (hc : c % W ≠ 0) :
    p + c / W < b.buffer_.length := by
  have h1 := mul_cmp W b.buffer_.length (p + c / W)
  have h2 := Nat.div_add_mod c W
  have h3 := h.2.2.2.1
  rw [Nat.mul_add] at h1
  omega

theorem set_tail_spec {W : Nat} {b : bitmap} (h : valid W b) (p c : Nat)
    (hfit : W * p + c ≤ b.size_in_bits_) :
    ∃ b', set_tail W b p c = some b' ∧ valid W b' ∧
      b'.size_in_bits_ = b.size_in_bits_ ∧
      ∀ j, bit_at W b' j = (decide (W * p ≤ j ∧ j < W * p + c) || bit_at W b j) := by
  have hW := h.1
  have hlen := h.2.2.2.1
  obtain ⟨hr1, hr2, hr3⟩ := round8 hW h.2.1 c
  obtain ⟨mem, hmem, hml, hmb, hmbit⟩ := memset_spec hW h.2.1 b.buffer_ p true (c / 8)
    (by omega) (fun q => h.word_lt q)
  have hv1 : valid W { b with buffer_ := mem } :=
    valid_of_words h rfl hml (fun q => hmb q)
  have hrc := in_range_iff hW p c
  have hr8 := in_range_iff hW p (8 * (c / 8))
  unfold set_tail
  rw [Nat.shiftRight_eq_div_pow, show (2 : Nat) ^ 3 = 8 from rfl, hmem]
  simp only
  by_cases hc : c % W = 0
  · rw [if_neg (by simpa using hc)]
    refine ⟨_, rfl, hv1, rfl, fun j => ?_⟩
    have := hmbit j
    unfold bit_at word_at
    rw [this, hr3 hc]
    by_cases hin : W * p ≤ j ∧ j < W * p + c <;> simp [hin]
  · rw [if_pos hc]
    have hp : p + c / W < ({ b with buffer_ := mem } : bitmap).buffer_.length := by
      show p + c / W < mem.length
      rw [hml]; exact tail_word_lt h hfit hc
    obtain ⟨b2, hb2, hs2, hl2, hw2⟩ := update_spec { b with buffer_ := mem }
      (fun w => w ||| w_sub W (mask W (c % W)) 1) hp
    have hbit2 : ∀ q t, (word_at b2 q).testBit t =
        ((word_at { b with buffer_ := mem } q).testBit t ||
          (decide (q = p + c / W) && decide (t < c % W))) := by
      intro q t
      rw [hw2]
      by_cases hq : q = p + c / W
      · subst hq
        simp [testBit_low_mask hW, Nat.mod_mod]
      · simp [hq]
    refine ⟨b2, hb2, ?_, hs2, fun j => ?_⟩
    · refine valid_of_words hv1 hs2 hl2 (fun q => ?_)
      apply Nat.lt_pow_two_of_testBit
      intro t ht
      rw [hbit2, testBit_of_lt (hv1.word_lt q) ht]
      have : ¬ t < c % W := by have := Nat.mod_lt c hW; omega
      simp [this]
    · have hm := hmbit j
      have hrc := hrc j
      have hr8 := hr8 j
      rw [hr1] at hr8
      unfold bit_at
      rw [hbit2]
      unfold word_at at hm ⊢
      show (((mem[j / W]?).getD 0).testBit (j % W) || _) = _
      rw [hm]
      by_cases hin : W * p ≤ j ∧ j < W * p + c
      · rw [decide_eq_true hin, Bool.true_or]
        by_cases hin8 : W * p ≤ j ∧ j < W * p + 8 * (c / 8)
        · simp [hin8]
        · rw [if_neg hin8]
          have : j / W = p + c / W ∧ j % W < c % W := by
            rcases hrc.1 hin with h1 | h1
            · exact absurd (hr8.2 (Or.inl h1)) hin8
            · exact h1
          simp [this.1, this.2]
      · rw [decide_eq_false hin, Bool.false_or]
        have hin8 : ¬ (W * p ≤ j ∧ j < W * p + 8 * (c / 8)) := by
          intro h8; apply hin; exact ⟨h8.1, by omega⟩
        rw [if_neg hin8]
        have : ¬ (j / W = p + c / W ∧ j % W < c % W) := fun h1 => hin (hrc.2 (Or.inr h1))
        by_cases hq : j / W = p + c / W
        · have : ¬ j % W < c % W := fun h2 => this ⟨hq, h2⟩
          simp [hq, this]
        · simp [hq]

theorem update_or_spec {W : Nat} {b : bitmap} (h : valid W b) {p : Nat} (m : Nat)
    (hp : p < b.buffer_.length) (hm : m < 2 ^ W) :
    ∃ b', b.update p (fun w => w ||| m) = some b' ∧ valid W b' ∧
      b'.size_in_bits_ = b.size_in_bits_ ∧
      ∀ j, bit_at W b' j = (bit_at W b j || (decide (j / W = p) && m.testBit (j % W))) := by
  obtain ⟨b', hb', hs, hl, hw⟩ := update_spec b (fun w => w ||| m) hp
  refine ⟨b', hb', valid_of_words h hs hl (fun q => ?_), hs, fun j => ?_⟩
  · rw [hw]
    split
    · exact Nat.or_lt_two_pow (h.word_lt p) hm
    · exact h.word_lt q
  · unfold bit_at
    rw [hw]
    by_cases hq : j / W = p
    · simp [hq]
    · simp [hq]

theorem update_and_spec {W : Nat} {b : bitmap} (h : valid W b) {p : Nat} (m : Nat)
    (hp : p < b.buffer_.length) :
    ∃ b', b.update p (fun w => w &&& m) = some b' ∧ valid W b' ∧
      b'.size_in_bits_ = b.size_in_bits_ ∧
      ∀ j, bit_at W b' j = (bit_at W b j && (!decide (j / W = p) || m.testBit (j % W))) := by
  obtain ⟨b', hb', hs, hl, hw⟩ := update_spec b (fun w => w &&& m) hp
  refine ⟨b', hb', valid_of_words h hs hl (fun q => ?_), hs, fun j => ?_⟩
  · rw [hw]
    split
    · exact lt_of_le_of_lt Nat.and_le_left (h.word_lt p)
    · exact h.word_lt q
  · unfold bit_at
    rw [hw]
    by_cases hq : j / W = p
    · simp [hq]
    · simp [hq]

theorem head_word_lt {W : Nat} {b : bitmap} (h : valid W b) {index count : Nat}
    (hfit : index + count ≤ b.size_in_bits_) (hoff : index % W ≠ 0) :
    index / W < b.buffer_.length := by
  have h1 := mul_cmp W b.buffer_.length (index / W)
  have h2 := Nat.div_add_mod index W
  have h3 := h.2.2.2.1
  omega

theorem high_mask_lt {W : Nat} (i : Nat) :
    w_add W (w_not W (mask W (offset W i))) 1 < 2 ^ W :=
  Nat.mod_lt _ (Nat.two_pow_pos _)

theorem set_spec {W : Nat} {b : bitmap} (h : valid W b) (index count : Nat)
    (hfit : index + count ≤ b.size_in_bits_) :
    ∃ b', set W b index count = some b' ∧ valid W b' ∧
      b'.size_in_bits_ = b.size_in_bits_ ∧
      ∀ j, bit_at W b' j = (decide (index ≤ j ∧ j < index + count) || bit_at W b j) := by
  have hW := h.1
  have hidx := Nat.div_add_mod index W
  have hoffl := Nat.mod_lt index hW
  unfold set
  simp only [word, offset]
  by_cases hoff : index % W = 0
  · rw [if_neg (by simpa using hoff)]
    obtain ⟨b', hb', hv, hs, hbit⟩ := set_tail_spec h (index / W) count (by omega)
    refine ⟨b', hb', hv, hs, fun j => ?_⟩
    rw [hbit]
    have : W * (index / W) = index := by omega
    rw [this]
  · rw [if_pos hoff]
    have hp := head_word_lt h hfit hoff
    by_cases hcnt : count < W - index % W
    · rw [if_pos hcnt]
      obtain ⟨b', hb', hv, hs, hbit⟩ := update_or_spec h
        (w_shr (w_shl W (w_add W (w_not W (mask W (offset W index))) 1)
          (W - index % W - count)) (W - index % W - count)) hp
        (lt_of_le_of_lt (Nat.div_le_self _ _ |> fun x => by
          unfold w_shr; rw [Nat.shiftRight_eq_div_pow]; exact x)
          (Nat.mod_lt _ (Nat.two_pow_pos _)))
      refine ⟨b', by simpa [offset] using hb', hv, hs, fun j => ?_⟩
      rw [hbit, testBit_shl_shr, testBit_high_mask hW]
      have hj := Nat.div_add_mod j W
      have hjl := Nat.mod_lt j hW
      have hc := mul_cmp W (j / W) (index / W)
      by_cases hin : index ≤ j ∧ j < index + count
      · have h1 : j / W = index / W := by omega
        have h2 : W - index % W - count + j % W < W := by omega
        have h3 : index % W ≤ j % W := by omega
        simp [hin, h1, h2, h3, hjl]
      · have : ¬ (j / W = index / W ∧ W - index % W - count + j % W < W ∧
            index % W ≤ j % W) := by
          intro ⟨h1, h2, h3⟩
          rw [h1] at hj
          omega
        by_cases h1 : j / W = index / W
        · by_cases h2 : W - index % W - count + j % W < W
          · have h3 : ¬ index % W ≤ j % W := fun h3 => this ⟨h1, h2, h3⟩
            simp [hin, h3]
          · simp [hin, h2]
        · simp [hin, h1]
    · rw [if_neg hcnt]
      obtain ⟨b1, hb1, hv1, hs1, hbit1⟩ := update_or_spec h
        (w_add W (w_not W (mask W (offset W index))) 1) hp (high_mask_lt index)
      have hb1' : b.update (index / W) (fun w =>
          w ||| w_add W (w_not W (mask W (index % W))) 1) = some b1 := by
        simpa [offset] using hb1
      rw [hb1']
      simp only
      have hc0 := mul_cmp W (index / W + 1) (index / W)
      obtain ⟨b', hb', hv, hs, hbit⟩ := set_tail_spec hv1 (index / W + 1)
        (count - (W - index % W)) (by rw [hs1, Nat.mul_add]; omega)
      refine ⟨b', hb', hv, hs.trans hs1, fun j => ?_⟩
      rw [hbit, hbit1, testBit_high_mask hW]
      have hj := Nat.div_add_mod j W
      have hjl := Nat.mod_lt j hW
      have hc := mul_cmp W (j / W) (index / W)
      have hmul : W * (index / W + 1) = W * (index / W) + W := Nat.mul_succ _ _
      rw [hmul]
      by_cases hin : index ≤ j ∧ j < index + count
      · by_cases h1 : W * (index / W) + W ≤ j
        · have : W * (index / W) + W ≤ j ∧
              j < W * (index / W) + W + (count - (W - index % W)) := by omega
          simp [hin, this]
        · have h2 : j / W = index / W := by omega
          have h3 : index % W ≤ j % W := by omega
          simp [hin, h2, h3, hjl]
      · have h1 : ¬ (W * (index / W) + W ≤ j ∧
            j < W * (index / W) + W + (count - (W - index % W))) := by omega
        have h2 : ¬ (j / W = index / W ∧ index % W ≤ j % W) := by
          intro ⟨h2, h3⟩
          rw [h2] at hj
          omega
        by_cases h3 : j / W = index / W
        · have h4 : ¬ index % W ≤ j % W := fun h4 => h2 ⟨h3, h4⟩
          simp [hin, h1, h4]
        · simp [hin, h1, h3]

theorem shl_shr_lt (W x k : Nat) : w_shr (w_shl W x k) k < 2 ^ W := by
  unfold w_shr
  rw [Nat.shiftRight_eq_div_pow]
  exact lt_of_le_of_lt (Nat.div_le_self _ _) (Nat.mod_lt _ (Nat.two_pow_pos _))

theorem low_mask_lt (W c : Nat) : w_sub W (mask W c) 1 < 2 ^ W :=
  Nat.mod_lt _ (Nat.two_pow_pos _)

theorem clear_tail_spec {W : Nat} {b : bitmap} (h : valid W b) (p c : Nat)
    (hfit : W * p + c ≤ b.size_in_bits_) :
    ∃ b', clear_tail W b p c = some b' ∧ valid W b' ∧
      b'.size_in_bits_ = b.size_in_bits_ ∧
      ∀ j, bit_at W b' j = (!decide (W * p ≤ j ∧ j < W * p + c) && bit_at W b j) := by
  have hW := h.1
  have hlen := h.2.2.2.1
  obtain ⟨hr1, hr2, hr3⟩ := round8 hW h.2.1 c
  obtain ⟨mem, hmem, hml, hmb, hmbit⟩ := memset_spec hW h.2.1 b.buffer_ p false (c / 8)
    (by omega) (fun q => h.word_lt q)
  have hv1 : valid W { b with buffer_ := mem } :=
    valid_of_words h rfl hml (fun q => hmb q)
  have hrc := in_range_iff hW p c
  have hr8 := in_range_iff hW p (8 * (c / 8))
  have hbit1 : ∀ j, bit_at W { b with buffer_ := mem } j =
      (!decide (W * p ≤ j ∧ j < W * p + 8 * (c / 8)) && bit_at W b j) := by
    intro j
    have := hmbit j
    unfold bit_at word_at
    show ((mem[j / W]?).getD 0).testBit (j % W) = _
    rw [this]
    by_cases hin : W * p ≤ j ∧ j < W * p + 8 * (c / 8) <;> simp [hin]
  unfold clear_tail
  rw [Nat.shiftRight_eq_div_pow, show (2 : Nat) ^ 3 = 8 from rfl, hmem]
  simp only
  by_cases hc : c % W = 0
  · rw [if_neg (by simpa using hc)]
    refine ⟨_, rfl, hv1, rfl, fun j => ?_⟩
    rw [hbit1, hr3 hc]
  · rw [if_pos hc]
    have hp : p + c / W < ({ b with buffer_ := mem } : bitmap).buffer_.length := by
      show p + c / W < mem.length
      rw [hml]; exact tail_word_lt h hfit hc
    obtain ⟨b2, hb2, hv2, hs2, hbit2⟩ := update_and_spec hv1
      (w_not W (w_sub W (mask W (c % W)) 1)) hp
    refine ⟨b2, hb2, hv2, hs2, fun j => ?_⟩
    have hrc := hrc j
    have hr8 := hr8 j
    rw [hr1] at hr8
    have hjl := Nat.mod_lt j hW
    rw [hbit2, hbit1, testBit_w_not (low_mask_lt W _), testBit_low_mask hW, Nat.mod_mod]
    by_cases hin : W * p ≤ j ∧ j < W * p + c
    · rw [decide_eq_true hin]
      by_cases hin8 : W * p ≤ j ∧ j < W * p + 8 * (c / 8)
      · simp [hin8]
      · have : j / W = p + c / W ∧ j % W < c % W := by
          rcases hrc.1 hin with h1 | h1
          · exact absurd (hr8.2 (Or.inl h1)) hin8
          · exact h1
        simp [this.1, this.2]
    · rw [decide_eq_false hin]
      have hin8 : ¬ (W * p ≤ j ∧ j < W * p + 8 * (c / 8)) := by
        intro h8; apply hin; exact ⟨h8.1, by omega⟩
      have : ¬ (j / W = p + c / W ∧ j % W < c % W) := fun h1 => hin (hrc.2 (Or.inr h1))
      by_cases hq : j / W = p + c / W
      · have : ¬ j % W < c % W := fun h2 => this ⟨hq, h2⟩
        simp [hin8, hq, this, hjl]
      · simp [hin8, hq]

theorem clear_spec {W : Nat} {b : bitmap} (h : valid W b) (index count : Nat)
    (hfit : index + count ≤ b.size_in_bits_) :
    ∃ b', clear W b index count = some b' ∧ valid W b' ∧
      b'.size_in_bits_ = b.size_in_bits_ ∧
      ∀ j, bit_at W b' j = (!decide (index ≤ j ∧ j < index + count) && bit_at W b j) := by
  have hW := h.1
  have hidx := Nat.div_add_mod index W
  have hoffl := Nat.mod_lt index hW
  unfold clear
  simp only [word, offset]
  by_cases hoff : index % W = 0
  · rw [if_neg (by simpa using hoff)]
    obtain ⟨b', hb', hv, hs, hbit⟩ := clear_tail_spec h (index / W) count (by omega)
    refine ⟨b', hb', hv, hs, fun j => ?_⟩
    rw [hbit]
    have : W * (index / W) = index := by omega
    rw [this]
  · rw [if_pos hoff]
    have hp := head_word_lt h hfit hoff
    by_cases hcnt : count < W - index % W
    · rw [if_pos hcnt]
      obtain ⟨b', hb', hv, hs, hbit⟩ := update_and_spec h
        (w_not W (w_shr (w_shl W (w_add W (w_not W (mask W (offset W index))) 1)
          (W - index % W - count)) (W - index % W - count))) hp
      refine ⟨b', by simpa [offset] using hb', hv, hs, fun j => ?_⟩
      rw [hbit, testBit_w_not (shl_shr_lt W _ _), testBit_shl_shr, testBit_high_mask hW]
      have hj := Nat.div_add_mod j W
      have hjl := Nat.mod_lt j hW
      have hc := mul_cmp W (j / W) (index / W)
      by_cases hin : index ≤ j ∧ j < index + count
      · have h1 : j / W = index / W := by omega
        have h2 : W - index % W - count + j % W < W := by omega
        have h3 : index % W ≤ j % W := by omega
        simp [hin, h1, h2, h3, hjl]
      · have : ¬ (j / W = index / W ∧ W - index % W - count + j % W < W ∧
            index % W ≤ j % W) := by
          intro ⟨h1, h2, h3⟩
          rw [h1] at hj
          omega
        by_cases h1 : j / W = index / W
        · by_cases h2 : W - index % W - count + j % W < W
          · have h3 : ¬ index % W ≤ j % W := fun h3 => this ⟨h1, h2, h3⟩
            simp [hin, h3, hjl]
          · simp [hin, h2, hjl]
        · simp [hin, h1]
    · rw [if_neg hcnt]
      obtain ⟨b1, hb1, hv1, hs1, hbit1⟩ := update_and_spec h
        (w_sub W (mask W (offset W index)) 1) hp
      have hb1' : b.update (index / W) (fun w =>
          w &&& w_sub W (mask W (index % W)) 1) = some b1 := by
        simpa [offset] using hb1
      rw [hb1']
      simp only
      have hc0 := mul_cmp W (index / W + 1) (index / W)
      obtain ⟨b', hb', hv, hs, hbit⟩ := clear_tail_spec hv1 (index / W + 1)
        (count - (W - index % W)) (by rw [hs1, Nat.mul_add]; omega)
      refine ⟨b', hb', hv, hs.trans hs1, fun j => ?_⟩
      rw [hbit, hbit1, testBit_low_mask hW]
      have hj := Nat.div_add_mod j W
      have hjl := Nat.mod_lt j hW
      have hc := mul_cmp W (j / W) (index / W)
      have hmul : W * (index / W + 1) = W * (index / W) + W := Nat.mul_succ _ _
      have hoo : offset W index % W = index % W := by unfold offset; exact Nat.mod_mod _ _
      rw [hmul, hoo]
      by_cases hin : index ≤ j ∧ j < index + count
      · by_cases h1 : W * (index / W) + W ≤ j
        · have : W * (index / W) + W ≤ j ∧
              j < W * (index / W) + W + (count - (W - index % W)) := by omega
          simp [hin, this]
        · have h2 : j / W = index / W := by omega
          have h3 : ¬ j % W < index % W := by omega
          simp [hin, h2, h3]
      · have h1 : ¬ (W * (index / W) + W ≤ j ∧
            j < W * (index / W) + W + (count - (W - index % W))) := by omega
        have h2 : ¬ (j / W = index / W ∧ index % W ≤ j % W) := by
          intro ⟨h2, h3⟩
          rw [h2] at hj
          omega
        by_cases h3 : j / W = index / W
        · have h4 : j % W < index % W := by
            by_contra h4; exact h2 ⟨h3, by omega⟩
          simp [hin, h1, h4]
        · simp [hin, h1, h3]

theorem get_length_of_set_eq (W : Nat) (b : bitmap) (index count : Nat) :
    get_length_of_set W b index count = get_length_of W true b index count := rfl

theorem get_length_of_clear_eq (W : Nat) (b : bitmap) (index count : Nat) :
    get_length_of_clear W b index count = get_length_of W false b index count := rfl

theorem bsf_scan_spec : ∀ (fuel v i : Nat), v ≠ 0 → v < 2 ^ fuel →
    ∃ k, bsf_scan fuel v i = i + k ∧ v.testBit k = true ∧ ∀ t, t < k → v.testBit t = false
  | 0, v, i, hv, hlt => by
    simp at hlt; exact absurd hlt hv
  | fuel + 1, v, i, hv, hlt => by
    unfold bsf_scan
    by_cases h : v % 2 = 1
    · rw [if_pos h]
      exact ⟨0, rfl, by simp [h], fun t ht => absurd ht (Nat.not_lt_zero t)⟩
    · rw [if_neg h]
      have hv2 : v / 2 ≠ 0 := by omega
      have hlt2 : v / 2 < 2 ^ fuel := by
        rw [Nat.pow_succ] at hlt; omega
      obtain ⟨k, hk, hbit, hlow⟩ := bsf_scan_spec fuel (v / 2) (i + 1) hv2 hlt2
      refine ⟨k + 1, by rw [hk]; omega, by rw [Nat.testBit_succ]; exact hbit, fun t ht => ?_⟩
      cases t with
      | zero => simp [h]
      | succ s => rw [Nat.testBit_succ]; exact hlow s (by omega)

theorem bsf_spec {W v : Nat} (hW : W ≤ 64) (hv : v ≠ 0) (hlt : v < 2 ^ W) :
    v.testBit (ia32_asm_bsf v) = true ∧ ia32_asm_bsf v < W ∧
      ∀ t, t < ia32_asm_bsf v → v.testBit t = false := by
  have h64 : v < 2 ^ 64 := lt_of_lt_of_le hlt (Nat.pow_le_pow_right (by decide) hW)
  obtain ⟨k, hk, hbit, hlow⟩ := bsf_scan_spec 64 v 0 hv h64
  have hk' : ia32_asm_bsf v = k := by unfold ia32_asm_bsf; rw [hk]; omega
  rw [hk']
  refine ⟨hbit, ?_, hlow⟩
  by_contra hc
  rw [testBit_of_lt hlt (by omega)] at hbit
  exact Bool.noConfusion hbit

/-- The word read by a run scan, inverted for a scan of set bits: its set
bits are the bits that end a run. -/
theorem testBit_conv {W w : Nat} (inv : Bool) (hw : w < 2 ^ W) (t : Nat) :
    (if inv then w_not W w else w).testBit t = (decide (t < W) && (w.testBit t != inv)) := by
  cases inv
  · by_cases ht : t < W
    · simp [ht]
    · simp [ht, testBit_of_lt hw (by omega : W ≤ t)]
  · simp [testBit_w_not hw]

theorem conv_lt {W w : Nat} (inv : Bool) (hw : w < 2 ^ W) :
    (if inv then w_not W w else w) < 2 ^ W := by
  cases inv
  · simpa using hw
  · simpa using w_not_lt w

theorem naive_run_le (W : Nat) (b : bitmap) (val : Bool) :
    ∀ k i, naive_run W b val k i ≤ k
  | 0, _ => Nat.le_refl 0
  | k + 1, i => by
    unfold naive_run
    split
    · exact Nat.succ_le_succ (naive_run_le W b val k (i + 1))
    · exact Nat.zero_le _

theorem naive_run_like (W : Nat) (b : bitmap) (val : Bool) :
    ∀ k i j, i ≤ j → j < i + naive_run W b val k i → test W b j = some val
  | 0, i, j, h1, h2 => by simp [naive_run] at h2; omega
  | k + 1, i, j, h1, h2 => by
    unfold naive_run at h2
    split at h2
    · rename_i hb
      by_cases hj : j = i
      · rw [hj]; exact hb
      · exact naive_run_like W b val k (i + 1) j (by omega) (by omega)
    · omega

theorem naive_run_stop (W : Nat) (b : bitmap) (val : Bool) :
    ∀ k i, naive_run W b val k i < k → test W b (i + naive_run W b val k i) ≠ some val
  | 0, i, h => absurd h (Nat.not_lt_zero _)
  | k + 1, i, h => by
    unfold naive_run at h ⊢
    split
    · rename_i hb
      rw [if_pos hb] at h
      have := naive_run_stop W b val k (i + 1) (by omega)
      rwa [show i + (naive_run W b val k (i + 1) + 1) = i + 1 + naive_run W b val k (i + 1)
        by omega]
    · rename_i hb
      simpa using hb

theorem naive_run_ge (W : Nat) (b : bitmap) (val : Bool) :
    ∀ k i m, m ≤ k → (∀ j, i ≤ j → j < i + m → test W b j = some val) →
      m ≤ naive_run W b val k i
  | 0, i, m, hm, _ => by omega
  | k + 1, i, m, hm, hall => by
    cases m with
    | zero => exact Nat.zero_le _
    | succ m =>
      unfold naive_run
      rw [if_pos (hall i (Nat.le_refl i) (by omega))]
      exact Nat.succ_le_succ
        (naive_run_ge W b val k (i + 1) m (by omega) (fun j h1 h2 => hall j (by omega) (by omega)))

theorem naive_run_eq (W : Nat) (b : bitmap) (val : Bool) (k i m : Nat) (hm : m < k)
    (hall : ∀ j, i ≤ j → j < i + m → test W b j = some val)
    (hstop : test W b (i + m) ≠ some val) : naive_run W b val k i = m := by
  have h1 := naive_run_ge W b val k i m (by omega) hall
  by_contra hne
  have h2 : m < naive_run W b val k i := by omega
  exact hstop (naive_run_like W b val k i (i + m) (by omega) (by omega))

theorem eq_of_bne_false {x y : Bool} (h : false = (x != y)) : x = y := by
  revert h; cases x <;> cases y <;> decide

theorem bit_at_mul_add {W : Nat} (b : bitmap) (q : Nat) {t : Nat} (ht : t < W) :
    bit_at W b (W * q + t) = (word_at b q).testBit t := by
  unfold bit_at
  have hW : 0 < W := by omega
  rw [Nat.mul_add_div hW, Nat.mul_add_mod, Nat.div_eq_of_lt ht, Nat.mod_eq_of_lt ht,
    Nat.add_zero]

theorem scan_words_spec {W : Nat} {b : bitmap} (h : valid W b) (inv : Bool) (index : Nat) :
    ∀ d v q, q + 1 + d ≤ b.buffer_.length → scan_inv W inv b index v q →
      ∃ v' q', scan_words W b.buffer_ inv d v (q + 1) = some (v', q' + 1) ∧
        scan_inv W inv b index v' q' ∧ q' ≤ q + d ∧ (v' = 0 → q' = q + d)
  | 0, v, q, _, hinv => ⟨v, q, rfl, hinv, Nat.le_refl _, fun _ => rfl⟩
  | d + 1, v, q, hlen, hinv => by
    unfold scan_words
    by_cases hv : v = 0
    · rw [if_pos hv]
      have hq : q + 1 < b.buffer_.length := by omega
      rw [List.getElem?_eq_getElem hq]
      simp only
      have hw : b.buffer_[q + 1] = word_at b (q + 1) := by
        unfold word_at; rw [List.getElem?_eq_getElem hq]; rfl
      rw [hw]
      have hinv' : scan_inv W inv b index
          (if inv then w_not W (word_at b (q + 1)) else word_at b (q + 1)) (q + 1) := by
        obtain ⟨_, hq0, hbits, hlike⟩ := hinv
        have hidx := Nat.div_add_mod index W
        have hoff := Nat.mod_lt index h.1
        have hc := mul_cmp W (index / W) (q + 1)
        refine ⟨conv_lt inv (h.word_lt _), by omega, fun t ht => ?_, fun j h1 h2 => ?_⟩
        · rw [testBit_conv inv (h.word_lt _), bit_at_mul_add b (q + 1) ht]
          have : index ≤ W * (q + 1) + t := by omega
          simp [ht, this]
        · by_cases hj : j < W * q
          · exact hlike j h1 hj
          · have hjd := Nat.div_add_mod j W
            have hjl := Nat.mod_lt j h.1
            have hc1 := mul_cmp W (j / W) q
            have hc2 := mul_cmp W (j / W) (q + 1)
            have hjq : j / W = q := by omega
            have hb := hbits (j % W) hjl
            rw [← hjq, hjd, hv] at hb
            simp only [Nat.zero_testBit, decide_eq_true h1, Bool.true_and] at hb
            exact eq_of_bne_false hb
      obtain ⟨v', q', hs, hi', hle, hz⟩ :=
        scan_words_spec h inv index d _ (q + 1) (by omega) hinv'
      exact ⟨v', q', hs, hi', by omega, fun h0 => by have := hz h0; omega⟩
    · rw [if_neg hv]
      exact ⟨v, q, rfl, hinv, by omega, fun h0 => absurd h0 hv⟩

theorem ceil_words {W : Nat} (hW : 0 < W) (x : Nat) :
    x ≤ W * ((x + W - 1) / W) ∧ W * ((x + W - 1) / W) < x + W := by
  have h1 := Nat.div_add_mod (x + W - 1) W
  have h2 := Nat.mod_lt (x + W - 1) hW
  omega

theorem get_length_of_spec {W : Nat} {b : bitmap} (h : valid W b) (inv : Bool)
    (index count : Nat) (hi : index < b.size_in_bits_) :
    ∃ r, get_length_of W inv b index count = some r ∧ index + r ≤ b.size_in_bits_ ∧
      (∀ j, index ≤ j → j < index + r → bit_at W b j = inv) ∧
      ((index + r < scan_end W b index count ∧ index + r < b.size_in_bits_ ∧
          bit_at W b (index + r) ≠ inv) ∨
        (r = min count (b.size_in_bits_ - index) ∧
          scan_end W b index count ≤ b.size_in_bits_ ∧
          ∀ j, index ≤ j → j < scan_end W b index count → bit_at W b j = inv)) := by
  have hW := h.1
  have hlen := h.2.2.2.1
  have hq0 := word_index_lt h hi
  have hidx := Nat.div_add_mod index W
  have hoff := Nat.mod_lt index hW
  unfold get_length_of
  rw [if_neg (by omega)]
  simp only [word, offset]
  rw [List.getElem?_eq_getElem hq0]
  simp only
  have hw : b.buffer_[index / W] = word_at b (index / W) := by
    unfold word_at; rw [List.getElem?_eq_getElem hq0]; rfl
  rw [hw]
  generalize hc : min count (b.size_in_bits_ - index) = c
  have hcle : index + c ≤ b.size_in_bits_ := by omega
  obtain ⟨hK1, hK2⟩ := ceil_words hW (index % W + c)
  generalize hKdef : (index % W + c + W - 1) / W = K at *
  -- the distance to `buffer_max` and the end of the scan
  have hd : index / W + K - (index / W + 1) = K - 1 := by omega
  rw [hd]
  have hend : scan_end W b index count = W * (index / W + (K - 1) + 1) := by
    unfold scan_end
    rw [hc, hKdef]
    congr 1
    omega
  have hmulK : W * (index / W + (K - 1) + 1) = W * (index / W) + W * (K - 1) + W := by
    rw [Nat.mul_add, Nat.mul_add, Nat.mul_one]
  have hK3 : index + c ≤ W * (index / W) + W * (K - 1) + W := by
    by_cases hK0 : K = 0
    · subst hK0; simp at hK1 ⊢; omega
    · have : W * K = W * (K - 1) + W := by
        conv_lhs => rw [show K = (K - 1) + 1 by omega]
        rw [Nat.mul_add, Nat.mul_one]
      omega
  have hfit : index / W + 1 + (K - 1) ≤ b.buffer_.length := by
    have hc1 := mul_cmp W b.buffer_.length (index / W + (K - 1) + 1)
    by_cases hK0 : K = 0
    · subst hK0; simp; omega
    · have : W * K = W * (K - 1) + W := by
        conv_lhs => rw [show K = (K - 1) + 1 by omega]
        rw [Nat.mul_add, Nat.mul_one]
      omega
  -- the invariant holds for the masked first word
  have hinv0 : scan_inv W inv b index
      (w_shl W (w_shr (if inv then w_not W (word_at b (index / W))
        else word_at b (index / W)) (index % W)) (index % W)) (index / W) := by
    refine ⟨Nat.mod_lt _ (Nat.two_pow_pos _), Nat.le_refl _, fun t ht => ?_, fun j h1 h2 => ?_⟩
    · rw [testBit_shr_shl, testBit_conv inv (h.word_lt _), bit_at_mul_add b _ ht]
      by_cases hot : index % W ≤ t
      · have : index ≤ W * (index / W) + t := by omega
        simp [ht, hot, this]
      · have : ¬ index ≤ W * (index / W) + t := by omega
        simp [hot, this]
    · omega
  obtain ⟨v', q', hs, ⟨hv'lt, hq'0, hbits, hlike⟩, hq'le, hz⟩ :=
    scan_words_spec h inv index (K - 1) _ (index / W) hfit hinv0
  rw [hs]
  simp only
  have hcq := mul_cmp W q' (index / W + (K - 1) + 1)
  have hcq0 := mul_cmp W (index / W) q'
  have hcl := mul_cmp W q' b.buffer_.length
  by_cases hv' : v' = 0
  · rw [if_pos hv']
    have hq' := hz hv'
    subst hq'
    have hall : ∀ j, index ≤ j → j < scan_end W b index count → bit_at W b j = inv := by
      intro j h1 h2
      rw [hend, hmulK] at h2
      by_cases hj : j < W * (index / W + (K - 1))
      · exact hlike j h1 hj
      · have hjd := Nat.div_add_mod j W
        have hjl := Nat.mod_lt j hW
        have hc1 := mul_cmp W (j / W) (index / W + (K - 1))
        rw [Nat.mul_add] at hj hc1
        have hjq : j / W = index / W + (K - 1) := by
          rcases Nat.lt_trichotomy (j / W) (index / W + (K - 1)) with h3 | h3 | h3
          · have := hc1.1 h3; omega
          · exact h3
          · have := hc1.2.1 h3; omega
        have hb := hbits (j % W) hjl
        rw [← hjq, hjd, hv'] at hb
        simp only [Nat.zero_testBit, decide_eq_true h1, Bool.true_and] at hb
        exact eq_of_bne_false hb
    refine ⟨c, rfl, hcle, fun j h1 h2 => hall j h1 (by rw [hend, hmulK]; omega),
      Or.inr ⟨rfl, ?_, hall⟩⟩
    rw [hend, hmulK]
    rw [Nat.mul_add] at hcl
    have : index / W + (K - 1) < b.buffer_.length := by omega
    have := hcl.1 this
    omega
  · rw [if_neg hv']
    obtain ⟨hk1, hk2, hk3⟩ := bsf_spec h.2.2.1 hv' hv'lt
    generalize ia32_asm_bsf v' = k at *
    have hbk := hbits k hk2
    rw [hk1] at hbk
    have hge : index ≤ W * q' + k := by
      by_contra hcon
      simp [hcon] at hbk
    have hne : bit_at W b (W * q' + k) ≠ inv := by
      intro heq
      simp [heq] at hbk
    have hq'len : q' < b.buffer_.length := by omega
    have hlt_n : W * q' + k < b.size_in_bits_ := by
      have := hcl.1 hq'len
      omega
    have hlen_eq : (q' + 1) * W - index + k - W = W * q' + k - index := by
      rw [Nat.mul_comm (q' + 1) W, Nat.mul_add, Nat.mul_one]
      omega
    rw [hlen_eq, if_neg (by omega)]
    have hr : index + (W * q' + k - index) = W * q' + k := by omega
    refine ⟨_, rfl, by omega, fun j h1 h2 => ?_, Or.inl ⟨?_, by omega, by rw [hr]; exact hne⟩⟩
    · by_cases hj : j < W * q'
      · exact hlike j h1 hj
      · have hjd := Nat.div_add_mod j W
        have hjl := Nat.mod_lt j hW
        have hc1 := mul_cmp W (j / W) q'
        have hjq : j / W = q' := by
          rcases Nat.lt_trichotomy (j / W) q' with h3 | h3 | h3
          · have := hc1.1 h3; omega
          · exact h3
          · have := hc1.2.1 h3; omega
        have hb := hbits (j % W) hjl
        have hjk : j % W < k := by rw [← hjq] at hr h2; omega
        rw [← hjq, hjd, hk3 _ hjk] at hb
        simp only [decide_eq_true h1, Bool.true_and] at hb
        exact eq_of_bne_false hb
    · rw [hr, hend, hmulK]
      rcases Nat.lt_or_ge q' (index / W + (K - 1)) with h3 | h3
      · have hc2 := mul_cmp W q' (index / W + (K - 1))
        rw [Nat.mul_add] at hc2
        have := hc2.1 h3
        omega
      · have : q' = index / W + (K - 1) := by omega
        rw [this, Nat.mul_add]
        omega

/-! ## Run lengths against the naive scan -/

theorem scan_end_ge {W : Nat} (hW : 0 < W) (b : bitmap) (index count : Nat) :
    index + min count (b.size_in_bits_ - index) ≤ scan_end W b index count ∧
      index < scan_end W b index count := by
  unfold scan_end
  generalize min count (b.size_in_bits_ - index) = c
  obtain ⟨hK1, _⟩ := ceil_words hW (index % W + c)
  have hidx := Nat.div_add_mod index W
  have hoff := Nat.mod_lt index hW
  generalize (index % W + c + W - 1) / W = K at *
  rw [Nat.mul_add]
  have h1 : W * K ≤ W * max 1 K := Nat.mul_le_mul_left W (le_max_right 1 K)
  have h2 : W * 1 ≤ W * max 1 K := Nat.mul_le_mul_left W (le_max_left 1 K)
  omega

theorem naive_run_bits {W : Nat} {b : bitmap} (h : valid W b) (val : Bool) (index : Nat) :
    index + naive_run W b val (b.size_in_bits_ - index) index ≤ max index b.size_in_bits_ ∧
      (∀ j, index ≤ j → j < index + naive_run W b val (b.size_in_bits_ - index) index →
        bit_at W b j = val) ∧
      (index + naive_run W b val (b.size_in_bits_ - index) index < b.size_in_bits_ →
        bit_at W b (index + naive_run W b val (b.size_in_bits_ - index) index) ≠ val) := by
  have hle := naive_run_le W b val (b.size_in_bits_ - index) index
  refine ⟨by omega, fun j h1 h2 => ?_, fun h1 => ?_⟩
  · have := naive_run_like W b val _ index j h1 h2
    rw [test_eq h (by omega)] at this
    exact Option.some.inj this
  · have := naive_run_stop W b val (b.size_in_bits_ - index) index (by omega)
    rw [test_eq h h1] at this
    exact fun heq => this (by rw [heq])

/-- The result of a run scan, exactly: the naive run length when the run
ends inside the words looked at, the clamped `count` otherwise. -/
theorem get_length_of_exact {W : Nat} {b : bitmap} (h : valid W b) (inv : Bool)
    (index count : Nat) (hi : index < b.size_in_bits_) :
    get_length_of W inv b index count = some
      (if index + naive_run W b inv (b.size_in_bits_ - index) index
          < scan_end W b index count
        then naive_run W b inv (b.size_in_bits_ - index) index
        else min count (b.size_in_bits_ - index)) := by
  obtain ⟨r, hr, hle, hlike, hcase⟩ := get_length_of_spec h inv index count hi
  rw [hr]
  have htest : ∀ j, index ≤ j → j < b.size_in_bits_ → bit_at W b j = inv →
      test W b j = some inv := fun j _ h2 h3 => by rw [test_eq h h2, h3]
  rcases hcase with ⟨h1, h2, h3⟩ | ⟨h1, h2, h3⟩
  · have hL : naive_run W b inv (b.size_in_bits_ - index) index = r := by
      apply naive_run_eq W b inv _ index r (by omega)
      · exact fun j h4 h5 => htest j h4 (by omega) (hlike j h4 h5)
      · rw [test_eq h h2]
        exact fun heq => h3 (Option.some.inj heq)
    rw [hL, if_pos h1]
  · have hge := (scan_end_ge h.1 b index count).2
    have hL : scan_end W b index count - index ≤
        naive_run W b inv (b.size_in_bits_ - index) index := by
      apply naive_run_ge W b inv _ index _ (by omega)
      exact fun j h4 h5 => htest j h4 (by omega) (h3 j h4 (by omega))
    rw [if_neg (by omega), h1]

theorem get_length_of_ge {W : Nat} (inv : Bool) (b : bitmap) (index count : Nat)
    (hi : b.size_in_bits_ ≤ index) : get_length_of W inv b index count = some 0 := by
  unfold get_length_of
  rw [if_pos hi]

/-- With no effective cap the scan returns the naive run length. -/
theorem get_length_of_uncapped {W : Nat} {b : bitmap} (h : valid W b) (inv : Bool)
    (index count : Nat) (hi : index < b.size_in_bits_)
    (hcount : b.size_in_bits_ - index ≤ count) :
    get_length_of W inv b index count
      = some (naive_run W b inv (b.size_in_bits_ - index) index) := by
  rw [get_length_of_exact h inv index count hi]
  have hle := naive_run_le W b inv (b.size_in_bits_ - index) index
  have hge := (scan_end_ge h.1 b index count).1
  split
  · rfl
  · congr 1; omega

/-- A run of `count` bits of value `val` starts at bit `i` and fits in the
vector. -/
theorem run_iff_length {W : Nat} {b : bitmap} (h : valid W b) (inv : Bool)
    (index count : Nat) (hi : index < b.size_in_bits_) :
    ∃ r, get_length_of W inv b index count = some r ∧
      index + r ≤ b.size_in_bits_ ∧
      (∀ j, index ≤ j → j < index + r → bit_at W b j = inv) ∧
      (count ≤ r ↔ (index + count ≤ b.size_in_bits_ ∧
        ∀ j, index ≤ j → j < index + count → bit_at W b j = inv)) ∧
      (r < count → (r = 0 → bit_at W b index ≠ inv) ∧
        ∀ i, index ≤ i → i ≤ index + r → i < b.size_in_bits_ → i + count ≤ b.size_in_bits_ →
          ∃ j, i ≤ j ∧ j < i + count ∧ bit_at W b j ≠ inv) := by
  obtain ⟨r, hr, hle, hlike, hcase⟩ := get_length_of_spec h inv index count hi
  refine ⟨r, hr, hle, hlike, ⟨fun hc => ⟨by omega, fun j h1 h2 => hlike j h1 (by omega)⟩,
    fun ⟨hc1, hc2⟩ => ?_⟩, fun hlt => ?_⟩
  · rcases hcase with ⟨_, h2, h3⟩ | ⟨h1, _, _⟩
    · by_contra hcon
      exact h3 (hc2 _ (by omega) (by omega))
    · omega
  · rcases hcase with ⟨_, h2, h3⟩ | ⟨h1, _, _⟩
    · refine ⟨fun h0 => by rw [h0] at h3; exact h3, fun i h4 h5 _ _ => ?_⟩
      exact ⟨index + r, h5, by omega, h3⟩
    · refine ⟨fun h0 => by omega, fun i h4 h5 h6 h7 => ?_⟩
      omega

/-! ## The search for a run of set bits -/

/-- The `int` sum of a loop test is exact on a position inside a vector
whose size plus `count` is an `int`. -/
theorem loop_guard_le {cb count n : Nat} (hcb : cb ≤ n) (hsum : n + count < 2 ^ 31) :
    int_wrap ((cb : Int) + (count : Int)) ≤ (n : Int) ↔ cb + count ≤ n := by
  unfold int_wrap; omega

theorem loop_guard_lt {cb count n : Nat} (hcb : cb ≤ n) (hsum : n + count < 2 ^ 31) :
    int_wrap ((cb : Int) + (count : Int)) < (n : Int) ↔ cb + count < n := by
  unfold int_wrap; omega

theorem find_first_set_loop_spec {W : Nat} {b : bitmap} (h : valid W b)
    (hn : b.size_in_bits_ ≤ max_count) {count : Nat} (hc1 : 1 ≤ count)
    (hsum : b.size_in_bits_ + count < 2 ^ 31) :
    ∀ fuel cb, cb ≤ b.size_in_bits_ → b.size_in_bits_ < cb + fuel →
      ∃ r : Int, find_first_set_loop W b count fuel cb = some r ∧
        ((r = -1 ∧ ∀ i, cb ≤ i → ¬ run_at W b true i count) ∨
          (∃ i : Nat, r = (i : Int) ∧ cb ≤ i ∧ run_at W b true i count ∧
            ∀ i', cb ≤ i' → i' < i → ¬ run_at W b true i' count))
  | 0, cb, h1, h2 => by omega
  | fuel + 1, cb, hcb, hfuel => by
    rw [find_first_set_loop]
    by_cases hfit : cb + count ≤ b.size_in_bits_
    · rw [if_pos ((loop_guard_le hcb hsum).2 hfit)]
      have hcbn : cb < b.size_in_bits_ := by omega
      -- the clear bits skipped
      rw [get_length_of_clear_eq, get_length_of_uncapped h false cb max_count hcbn (by omega)]
      simp only
      obtain ⟨hsk1, hsk2, hsk3⟩ := naive_run_bits h false cb
      generalize naive_run W b false (b.size_in_bits_ - cb) cb = skipped at *
      have hsk1' : cb + skipped ≤ b.size_in_bits_ := by
        rw [max_eq_right (by omega)] at hsk1; exact hsk1
      have hnoclr : ∀ i, cb ≤ i → i < cb + skipped → ¬ run_at W b true i count := by
        intro i h1 h2 ⟨_, hrun⟩
        have h3 := hrun i (Nat.le_refl i) (by omega)
        rw [hsk2 i h1 h2] at h3
        exact Bool.noConfusion h3
      rw [get_length_of_set_eq]
      by_cases hend : cb + skipped < b.size_in_bits_
      · obtain ⟨r0, hr0, hle0, hlike0, hiff0, hshort0⟩ :=
          run_iff_length h true (cb + skipped) count hend
        rw [hr0]
        simp only
        by_cases hfound : count ≤ r0
        · rw [if_pos hfound]
          refine ⟨_, rfl, Or.inr ⟨cb + skipped, rfl, by omega, hiff0.1 hfound,
            fun i' h1 h2 => hnoclr i' h1 h2⟩⟩
        · rw [if_neg hfound]
          obtain ⟨hzero, hcut⟩ := hshort0 (by omega)
          have hprog : 1 ≤ skipped + r0 := by
            by_contra hcon
            have hs0 : skipped = 0 := by omega
            have hr00 : r0 = 0 := by omega
            have h3 := hsk3 hend
            have h4 := hzero hr00
            rw [hs0] at h3 h4
            cases hb : bit_at W b (cb + 0) <;> simp_all
          have hnoset : ∀ i, cb + skipped ≤ i → i < cb + skipped + r0 →
              ¬ run_at W b true i count := by
            intro i h1 h2 ⟨hrun1, hrun2⟩
            obtain ⟨j, hj1, hj2, hj3⟩ := hcut i h1 (by omega) (by omega) hrun1
            exact hj3 (hrun2 j hj1 hj2)
          obtain ⟨r, hr, hres⟩ := find_first_set_loop_spec h hn hc1 hsum fuel
            (cb + skipped + r0) (by omega) (by omega)
          refine ⟨r, hr, ?_⟩
          have hno : ∀ i, cb ≤ i → i < cb + skipped + r0 → ¬ run_at W b true i count := by
            intro i h1 h2
            by_cases h3 : i < cb + skipped
            · exact hnoclr i h1 h3
            · exact hnoset i (by omega) h2
          rcases hres with ⟨hr1, hnone⟩ | ⟨i, hri, hi1, hi2, hi3⟩
          · refine Or.inl ⟨hr1, fun i h1 => ?_⟩
            by_cases h3 : i < cb + skipped + r0
            · exact hno i h1 h3
            · exact hnone i (by omega)
          · refine Or.inr ⟨i, hri, by omega, hi2, fun i' h1 h2 => ?_⟩
            by_cases h3 : i' < cb + skipped + r0
            · exact hno i' h1 h3
            · exact hi3 i' (by omega) h2
      · rw [get_length_of_ge true b (cb + skipped) count (by omega)]
        simp only
        rw [if_neg (by omega)]
        obtain ⟨r, hr, hres⟩ := find_first_set_loop_spec h hn hc1 hsum fuel
          (cb + skipped + 0) (by omega) (by omega)
        refine ⟨r, hr, ?_⟩
        rcases hres with ⟨hr1, hnone⟩ | ⟨i, hri, hi1, hi2, hi3⟩
        · refine Or.inl ⟨hr1, fun i h1 => ?_⟩
          by_cases h3 : i < cb + skipped
          · exact hnoclr i h1 h3
          · exact hnone i (by omega)
        · refine Or.inr ⟨i, hri, by omega, hi2, fun i' h1 h2 => ?_⟩
          by_cases h3 : i' < cb + skipped
          · exact hnoclr i' h1 h3
          · exact hi3 i' (by omega) h2
    · rw [if_neg (fun hg => hfit ((loop_guard_le hcb hsum).1 hg))]
      exact ⟨-1, rfl, Or.inl ⟨rfl, fun i h1 ⟨h2, _⟩ => by omega⟩⟩

theorem int_wrap_small {x : Nat} (h : x < 2 ^ 31) : int_wrap (x : Int) = x := by
  unfold int_wrap; omega

theorem int_wrap_big {x : Nat} (h1 : 2 ^ 31 ≤ x) (h2 : x < 2 ^ 32) :
    int_wrap (x : Int) < 0 := by
  unfold int_wrap; omega

/-- What `are_bits_set` (`val = true`) and `are_bits_clear` (`val = false`)
decide, with the run scan as their common body. -/
theorem are_bits_spec {W : Nat} {b : bitmap} (h : valid W b) (inv : Bool)
    (index count : Nat) (hn : b.size_in_bits_ < 2 ^ 31) (hi : index < 2 ^ 31)
    (hc : count < 2 ^ 31) :
    ∃ r : Bool,
      (if int_wrap ((index : Int) + (count : Int)) > (b.size_in_bits_ : Int) ∨
          int_wrap ((index : Int) + (count : Int)) ≤ (index : Int) then some false
        else
          match get_length_of W inv b index count with
          | none => none
          | some length => some (decide (length ≥ count))) = some r ∧
      (r = true ↔ (1 ≤ count ∧ run_at W b inv index count)) := by
  have hcast : (index : Int) + (count : Int) = ((index + count : Nat) : Int) := by
    push_cast; rfl
  rw [hcast]
  by_cases hbig : 2 ^ 31 ≤ index + count
  · have := int_wrap_big hbig (by omega)
    rw [if_pos (Or.inr (by omega))]
    exact ⟨false, rfl, by simp; intro _ ⟨h1, _⟩; omega⟩
  · rw [int_wrap_small (by omega)]
    by_cases hguard : ((index + count : Nat) : Int) > (b.size_in_bits_ : Int) ∨
        ((index + count : Nat) : Int) ≤ (index : Int)
    · rw [if_pos hguard]
      refine ⟨false, rfl, by simp; intro h1 ⟨h2, _⟩; omega⟩
    · rw [if_neg hguard]
      have hin : index < b.size_in_bits_ := by omega
      obtain ⟨r0, hr0, _, _, hiff, _⟩ := run_iff_length h inv index count hin
      rw [hr0]
      refine ⟨decide (r0 ≥ count), rfl, ?_⟩
      rw [decide_eq_true_iff]
      unfold run_at
      constructor
      · intro h1; exact ⟨by omega, hiff.1 h1⟩
      · intro h1; exact hiff.2 h1.2

/-! ## Bits and vectors -/

theorem test_congr {W : Nat} {b b' : bitmap} (h : valid W b) (h' : valid W b')
    (hs : b'.size_in_bits_ = b.size_in_bits_) {j : Nat}
    (hbit : bit_at W b' j = bit_at W b j) : test W b' j = test W b j := by
  by_cases hj : j < b.size_in_bits_
  · rw [test_eq h hj, test_eq h' (by omega), hbit]
  · have hlen : b'.buffer_.length = b.buffer_.length := by
      have h1 := h.2.2.2.1
      have h2 := h'.2.2.2.1
      rw [hs, ← h1] at h2
      exact Nat.eq_of_mul_eq_mul_left h.1 h2
    have hq : b.buffer_.length ≤ j / W := by
      rw [Nat.le_div_iff_mul_le h.1, Nat.mul_comm, h.2.2.2.1]; omega
    unfold test word
    rw [List.getElem?_eq_none hq, List.getElem?_eq_none (by omega)]

theorem eq_of_bits {W : Nat} {b b' : bitmap} (h : valid W b) (h' : valid W b')
    (hs : b'.size_in_bits_ = b.size_in_bits_)
    (hbit : ∀ j, bit_at W b' j = bit_at W b j) : b' = b := by
  have hlen : b'.buffer_.length = b.buffer_.length := by
    have h1 := h.2.2.2.1
    have h2 := h'.2.2.2.1
    rw [hs, ← h1] at h2
    exact Nat.eq_of_mul_eq_mul_left h.1 h2
  have hword : ∀ q, word_at b' q = word_at b q := by
    intro q
    apply Nat.eq_of_testBit_eq
    intro t
    by_cases ht : t < W
    · rw [← bit_at_mul_add b' q ht, ← bit_at_mul_add b q ht]
      exact hbit _
    · rw [testBit_of_lt (h'.word_lt q) (by omega), testBit_of_lt (h.word_lt q) (by omega)]
  have hbuf : b'.buffer_ = b.buffer_ := by
    apply List.ext_getElem hlen
    intro q h1 h2
    have := hword q
    unfold word_at at this
    rw [List.getElem?_eq_getElem h1, List.getElem?_eq_getElem h2] at this
    exact this
  cases b; cases b'
  simp only at hbuf hs
  rw [hbuf, hs]

theorem and_mask8 {x : Nat} (h : x < 2 ^ 32) : x &&& 0xfffffff8 = x / 8 * 8 := by
  apply Nat.eq_of_testBit_eq
  intro i
  have h1 : (0xfffffff8 : Nat) = (2 ^ 29 - 1) <<< 3 := by decide
  have h2 : x / 8 * 8 = (x >>> 3) <<< 3 := by
    rw [Nat.shiftLeft_eq, Nat.shiftRight_eq_div_pow]
  rw [h2, Nat.testBit_and, h1, Nat.testBit_shiftLeft, Nat.testBit_shiftLeft,
    Nat.testBit_two_pow_sub_one, Nat.testBit_shiftRight]
  by_cases hi : 3 ≤ i
  · rw [Nat.add_sub_cancel' hi]
    by_cases hi2 : i - 3 < 29
    · simp [hi, hi2]
    · simp [hi, hi2, testBit_of_lt h (by omega : 32 ≤ i)]
  · simp [hi]

/-! ## Vectors near the largest `int` -/

theorem filled_valid {w : Nat} (hw : w < 2 ^ 64) (words : Nat) :
    valid 64 (filled w words) := by
  refine ⟨by decide, by decide, by decide, ?_, fun x hx => ?_⟩
  · show 64 * (List.replicate words w).length = 64 * words
    rw [List.length_replicate]
  · rw [List.eq_of_mem_replicate hx]
    exact hw

theorem filled_bit_at (w words : Nat) {j : Nat} (hj : j < 64 * words) :
    bit_at 64 (filled w words) j = w.testBit (j % 64) := by
  have hq : j / 64 < words := by omega
  unfold bit_at word_at filled
  simp only [List.getElem?_replicate, if_pos hq, Option.getD_some]

/-- On a vector whose bits all have the value `val`, the run scan for `val`
from bit 0 with no cap returns the size. -/
theorem get_length_of_whole {W : Nat} {b : bitmap} (h : valid W b) (val : Bool)
    (hall : ∀ j, j < b.size_in_bits_ → bit_at W b j = val) (hpos : 0 < b.size_in_bits_)
    (hn : b.size_in_bits_ ≤ max_count) :
    get_length_of W val b 0 max_count = some b.size_in_bits_ := by
  rw [get_length_of_uncapped h val 0 max_count hpos (by omega)]
  have hle := naive_run_le W b val (b.size_in_bits_ - 0) 0
  have hge := naive_run_ge W b val (b.size_in_bits_ - 0) 0 (b.size_in_bits_ - 0)
    (Nat.le_refl _) (fun j _ hj => by rw [test_eq h (by omega), hall j (by omega)])
  congr 1
  omega

/-- At the end of the vector, when the `int` sum of the loop test wraps
around, the loop of `find_first_set` never returns: the test holds and both
run scans return 0. -/
theorem find_first_set_loop_stuck (W : Nat) (b : bitmap) {count : Nat} (hc : 0 < count)
    (hwrap : 2 ^ 31 ≤ b.size_in_bits_ + count) (hlt : b.size_in_bits_ + count < 2 ^ 32) :
    ∀ fuel, find_first_set_loop W b count fuel b.size_in_bits_ = none
  | 0 => rfl
  | fuel + 1 => by
    have hg : int_wrap ((b.size_in_bits_ : Int) + (count : Int)) ≤ (b.size_in_bits_ : Int) := by
      unfold int_wrap; omega
    rw [find_first_set_loop]
    rw [if_pos hg, get_length_of_clear_eq,
      get_length_of_ge false b b.size_in_bits_ max_count (Nat.le_refl _)]
    simp only
    rw [get_length_of_set_eq, get_length_of_ge true b (b.size_in_bits_ + 0) count (by omega)]
    simp only
    rw [if_neg (by omega)]
    exact find_first_set_loop_stuck W b hc hwrap hlt fuel

theorem find_first_clear_loop_stuck (W : Nat) (b : bitmap) {count : Nat} (hc : 0 < count)
    (hwrap : 2 ^ 31 ≤ b.size_in_bits_ + count) (hlt : b.size_in_bits_ + count < 2 ^ 32) :
    ∀ fuel, find_first_clear_loop W b count fuel b.size_in_bits_ = none
  | 0 => rfl
  | fuel + 1 => by
    have hg : int_wrap ((b.size_in_bits_ : Int) + (count : Int)) < (b.size_in_bits_ : Int) := by
      unfold int_wrap; omega
    rw [find_first_clear_loop]
    rw [if_pos hg, get_length_of_set_eq,
      get_length_of_ge true b b.size_in_bits_ max_count (Nat.le_refl _)]
    simp only
    rw [get_length_of_clear_eq, get_length_of_ge false b (b.size_in_bits_ + 0) count (by omega)]
    simp only
    rw [if_neg (by omega)]
    exact find_first_clear_loop_stuck W b hc hwrap hlt fuel

/-- On an all-clear vector whose size plus `count` is past the largest `int`,
the loop of `find_first_set` from bit 0 never returns. -/
theorem find_first_set_loop_diverges {W : Nat} {b : bitmap} (h : valid W b)
    (hall : ∀ j, j < b.size_in_bits_ → bit_at W b j = false)
    (hn : b.size_in_bits_ ≤ max_count) {count : Nat} (hc : 0 < count)
    (hcs : count ≤ b.size_in_bits_) (hwrap : 2 ^ 31 ≤ b.size_in_bits_ + count) :
    ∀ fuel, find_first_set_loop W b count fuel 0 = none
  | 0 => rfl
  | fuel + 1 => by
    have hmax : max_count = 2 ^ 31 - 1 := rfl
    have hg : int_wrap (((0 : Nat) : Int) + (count : Int)) ≤ (b.size_in_bits_ : Int) := by
      unfold int_wrap; omega
    rw [find_first_set_loop]
    rw [if_pos hg, get_length_of_clear_eq, get_length_of_whole h false hall (by omega) hn]
    simp only
    rw [get_length_of_set_eq, get_length_of_ge true b (0 + b.size_in_bits_) count (by omega)]
    simp only
    rw [if_neg (by omega), Nat.zero_add]
    exact find_first_set_loop_stuck W b hc hwrap (by omega) fuel

/-- On an all-set vector whose size plus `count` is past the largest `int`,
the loop of `find_first_clear` from bit 0 never returns. -/
theorem find_first_clear_loop_diverges {W : Nat} {b : bitmap} (h : valid W b)
    (hall : ∀ j, j < b.size_in_bits_ → bit_at W b j = true)
    (hn : b.size_in_bits_ ≤ max_count) {count : Nat} (hc : 0 < count)
    (hcs : count < b.size_in_bits_) (hwrap : 2 ^ 31 ≤ b.size_in_bits_ + count) :
    ∀ fuel, find_first_clear_loop W b count fuel 0 = none
  | 0 => rfl
  | fuel + 1 => by
    have hmax : max_count = 2 ^ 31 - 1 := rfl
    have hg : int_wrap (((0 : Nat) : Int) + (count : Int)) < (b.size_in_bits_ : Int) := by
      unfold int_wrap; omega
    rw [find_first_clear_loop]
    rw [if_pos hg, get_length_of_set_eq, get_length_of_whole h true hall (by omega) hn]
    simp only
    rw [get_length_of_clear_eq, get_length_of_ge false b (0 + b.size_in_bits_) count (by omega)]
    simp only
    rw [if_neg (by omega), Nat.zero_add]
    exact find_first_clear_loop_stuck W b hc hwrap (by omega) fuel

/-! ## The properties of the bit vector -/

/-- C1, as stated, fails: on the all-clear vector of `2 ^ 30` bits (a
multiple of the word width, and an `int`), `find_first_set(0, 2 ^ 30)`
does not return `-1`, although no bit is set: it does not return.  The first
iteration moves the position to `2 ^ 30`; there the `int` sum
`current_bit + count` of the loop test is `2 ^ 31`, which wraps to
`-2 ^ 31`, so the test holds, both run scans return 0, and the position
stays: the loop returns for no amount of fuel. -/
theorem find_first_set_never_returns :
    valid 64 (filled 0 (2 ^ 24)) ∧ (filled 0 (2 ^ 24)).size_in_bits_ = 2 ^ 30 ∧
      (∀ j, j < 2 ^ 30 → test 64 (filled 0 (2 ^ 24)) j = some false) ∧
      (∀ fuel, find_first_set_loop 64 (filled 0 (2 ^ 24)) (2 ^ 30) fuel 0 = none) ∧
      find_first_set 64 (filled 0 (2 ^ 24)) 0 (2 ^ 30) = none := by
  have hv : valid 64 (filled 0 (2 ^ 24)) := filled_valid (by decide) _
  have hsize : (filled 0 (2 ^ 24)).size_in_bits_ = 2 ^ 30 := by decide
  have hall : ∀ j, j < (filled 0 (2 ^ 24)).size_in_bits_ →
      bit_at 64 (filled 0 (2 ^ 24)) j = false := by
    intro j hj
    rw [filled_bit_at 0 (2 ^ 24) hj]
    exact Nat.zero_testBit _
  have hloop := find_first_set_loop_diverges hv hall (by rw [hsize]; decide)
    (show 0 < 2 ^ 30 by decide) (by rw [hsize]) (by rw [hsize]; decide)
  refine ⟨hv, hsize, fun j hj => ?_, hloop, ?_⟩
  · rw [test_eq hv (by rw [hsize]; exact hj), hall j (by rw [hsize]; exact hj)]
  · unfold find_first_set
    rw [if_neg (by rw [hsize]; decide)]
    simp only [ite_self]
    rw [if_neg (by decide)]
    exact hloop _

/-- C1 amended: on a well-formed vector of size `n > 0`, for
`0 ≤ index < n` and `1 ≤ count ≤ n` with `n + count` an `int` (below
`2 ^ 31`), `find_first_set(index, count)` returns a value `r` that is either
`-1` or a bit `i ≥ index` with `are_bits_set(i, count)` true (so
`i + count ≤ n` and every bit of `[i, i + count)` tests true); every
`i ≥ index` with `are_bits_set(i, count)` true satisfies `0 ≤ r ≤ i`, so `r`
is the lowest such bit and `r = -1` exactly when there is none; and
`find_first_set(count)` is the search from bit `0`. -/
theorem find_first_set_lowest_run (W : Nat) (b : bitmap) (index count : Nat)
    (h : valid W b) (hn : b.size_in_bits_ < 2 ^ 31) (hidx : index < b.size_in_bits_)
    (hc1 : 1 ≤ count) (hc2 : count ≤ b.size_in_bits_)
    (hsum : b.size_in_bits_ + count < 2 ^ 31) :
    ∃ r : Int, find_first_set W b index count = some r ∧
      (r = -1 ∨ ∃ i : Nat, r = (i : Int) ∧ index ≤ i ∧
        are_bits_set W b i count = some true ∧ i + count ≤ b.size_in_bits_ ∧
        ∀ j, i ≤ j → j < i + count → test W b j = some true) ∧
      (∀ i : Nat, index ≤ i → i < 2 ^ 31 → are_bits_set W b i count = some true →
        0 ≤ r ∧ r ≤ (i : Int)) ∧
      find_first_set_count W b count = find_first_set W b 0 count := by
  have hset : ∀ i : Nat, i < 2 ^ 31 →
      (are_bits_set W b i count = some true ↔ run_at W b true i count) := by
    intro i hi
    obtain ⟨r, hr, hiff⟩ := are_bits_spec h true i count hn hi (by omega)
    unfold are_bits_set
    rw [get_length_of_set_eq, hr]
    constructor
    · intro h1; exact (hiff.1 (Option.some.inj h1)).2
    · intro h1; rw [hiff.2 ⟨hc1, h1⟩]
  obtain ⟨r, hr, hres⟩ := find_first_set_loop_spec h (by unfold max_count; omega) hc1 hsum
    (b.size_in_bits_ + 1) index (by omega) (by omega)
  have hfind : find_first_set W b index count = some r := by
    unfold find_first_set
    rw [if_neg (by omega), if_neg (by omega), if_neg (by omega)]
    exact hr
  refine ⟨r, hfind, ?_, ?_, rfl⟩
  · rcases hres with ⟨h1, _⟩ | ⟨i, hri, hi1, hi2, _⟩
    · exact Or.inl h1
    · have hi3 : i < 2 ^ 31 := by have := hi2.1; omega
      refine Or.inr ⟨i, hri, hi1, (hset i hi3).2 hi2, hi2.1, fun j h1 h2 => ?_⟩
      rw [test_eq h (by have := hi2.1; omega), hi2.2 j h1 h2]
  · intro i h1 h2 h3
    have hrun := (hset i h2).1 h3
    rcases hres with ⟨_, hnone⟩ | ⟨i0, hri, _, _, hmin⟩
    · exact absurd hrun (hnone i h1)
    · rw [hri]
      refine ⟨Int.ofNat_nonneg _, ?_⟩
      by_contra hcon
      exact hmin i h1 (by omega) hrun

/-- C1 amended, at a 64-bit vector with bits 10..29 set, searched from bit 3
for a run of 5. -/
theorem find_first_set_lowest_run_witness :
    valid 64 ⟨[1073740800], 64⟩ ∧ (64 : Nat) < 2 ^ 31 ∧ (3 : Nat) < 64 ∧
      (64 : Nat) + 5 < 2 ^ 31 ∧
      ∃ r : Int, find_first_set 64 ⟨[1073740800], 64⟩ 3 5 = some r ∧
      (r = -1 ∨ ∃ i : Nat, r = (i : Int) ∧ 3 ≤ i ∧
        are_bits_set 64 ⟨[1073740800], 64⟩ i 5 = some true ∧ i + 5 ≤ 64 ∧
        ∀ j, i ≤ j → j < i + 5 → test 64 ⟨[1073740800], 64⟩ j = some true) ∧
      (∀ i : Nat, 3 ≤ i → i < 2 ^ 31 →
        are_bits_set 64 ⟨[1073740800], 64⟩ i 5 = some true → 0 ≤ r ∧ r ≤ (i : Int)) ∧
      find_first_set_count 64 ⟨[1073740800], 64⟩ 5
        = find_first_set 64 ⟨[1073740800], 64⟩ 0 5 :=
  ⟨by decide, by decide, by decide, by decide,
    find_first_set_lowest_run 64 ⟨[1073740800], 64⟩ 3 5 (by decide) (by decide) (by decide)
      (by decide) (by decide) (by decide)⟩

/-- C2: the code at two inputs where a run of clear bits ends at the last
bit.  On the all-clear 64-bit vector `find_first_clear(0, 64)` returns `-1`
although `are_bits_clear(0, 64)` is true, and on the vector whose bits 0..59
are set `find_first_clear(60, 4)` returns `-1` although
`are_bits_clear(60, 4)` is true; the sibling `find_first_set(0, 64)` on the
all-set vector returns `0`. -/
theorem find_first_clear_misses_last_run :
    valid 64 ⟨[0], 64⟩ ∧
      find_first_clear 64 ⟨[0], 64⟩ 0 64 = some (-1) ∧
      are_bits_clear 64 ⟨[0], 64⟩ 0 64 = some true ∧
      valid 64 ⟨[2 ^ 60 - 1], 64⟩ ∧
      find_first_clear 64 ⟨[2 ^ 60 - 1], 64⟩ 60 4 = some (-1) ∧
      are_bits_clear 64 ⟨[2 ^ 60 - 1], 64⟩ 60 4 = some true ∧
      find_first_set 64 ⟨[2 ^ 64 - 1], 64⟩ 0 64 = some 0 := by
  decide

/-- C3: on a well-formed vector, for `index + count ≤ n`, `set(index, count)`
returns and afterwards `test(i)` is true for every `i` of
`[index, index + count)`, whatever the previous contents and wherever the
range lies relative to the word boundaries. -/
theorem set_range_then_test (W : Nat) (b : bitmap) (index count : Nat)
    (h : valid W b) (hfit : index + count ≤ b.size_in_bits_) :
    ∃ b', set W b index count = some b' ∧
      ∀ i, index ≤ i → i < index + count → test W b' i = some true := by
  obtain ⟨b', hb', hv, hs, hbit⟩ := set_spec h index count hfit
  refine ⟨b', hb', fun i h1 h2 => ?_⟩
  rw [test_eq hv (by omega), hbit]
  simp [h1, h2]

/-- C3, at a two-word vector of 32-bit words and a range that spans the
word boundary. -/
theorem set_range_then_test_witness :
    valid 32 ⟨[5, 0], 64⟩ ∧ 20 + 30 ≤ 64 ∧
      ∃ b', set 32 ⟨[5, 0], 64⟩ 20 30 = some b' ∧
        ∀ i, 20 ≤ i → i < 20 + 30 → test 32 b' i = some true :=
  ⟨by decide, by decide, set_range_then_test 32 ⟨[5, 0], 64⟩ 20 30 (by decide) (by decide)⟩

/-- C4: on a well-formed vector, for `index + count ≤ n`, `set(index, count)`
and `clear(index, count)` return vectors in which `test(j)` is what it was
before, for every `j` outside `[index, index + count)`, the bits of the
partially covered first and last words included; with `count = 0` the vector
is unchanged. -/
theorem set_clear_frame (W : Nat) (b : bitmap) (index count : Nat)
    (h : valid W b) (hfit : index + count ≤ b.size_in_bits_) :
    ∃ bs bc, set W b index count = some bs ∧ clear W b index count = some bc ∧
      (∀ j, ¬ (index ≤ j ∧ j < index + count) →
        test W bs j = test W b j ∧ test W bc j = test W b j) ∧
      (count = 0 → bs = b ∧ bc = b) := by
  obtain ⟨bs, hbs, hvs, hss, hbits⟩ := set_spec h index count hfit
  obtain ⟨bc, hbc, hvc, hsc, hbitc⟩ := clear_spec h index count hfit
  refine ⟨bs, bc, hbs, hbc, fun j hj => ⟨?_, ?_⟩, fun h0 => ⟨?_, ?_⟩⟩
  · exact test_congr h hvs hss (by rw [hbits]; simp [hj])
  · exact test_congr h hvc hsc (by rw [hbitc]; simp [hj])
  · refine eq_of_bits h hvs hss (fun j => ?_)
    have : ¬ (index ≤ j ∧ j < index + count) := by omega
    rw [hbits]; simp [this]
  · refine eq_of_bits h hvc hsc (fun j => ?_)
    have : ¬ (index ≤ j ∧ j < index + count) := by omega
    rw [hbitc]; simp [this]

/-- C4, at a two-word vector of 32-bit words and a range that starts and
ends inside a word. -/
theorem set_clear_frame_witness :
    valid 32 ⟨[2863311530, 1431655765], 64⟩ ∧ 20 + 30 ≤ 64 ∧
      ∃ bs bc, set 32 ⟨[2863311530, 1431655765], 64⟩ 20 30 = some bs ∧
        clear 32 ⟨[2863311530, 1431655765], 64⟩ 20 30 = some bc ∧
        (∀ j, ¬ (20 ≤ j ∧ j < 20 + 30) →
          test 32 bs j = test 32 ⟨[2863311530, 1431655765], 64⟩ j ∧
          test 32 bc j = test 32 ⟨[2863311530, 1431655765], 64⟩ j) ∧
        (30 = 0 → bs = ⟨[2863311530, 1431655765], 64⟩ ∧
          bc = ⟨[2863311530, 1431655765], 64⟩) :=
  ⟨by decide, by decide,
    set_clear_frame 32 ⟨[2863311530, 1431655765], 64⟩ 20 30 (by decide) (by decide)⟩

/-- C5: on a well-formed vector of size `n > 0` (an `int`) in which every
bit is clear, for `index + count ≤ n`, `set(index, count)` followed by
`clear(index, count)` returns a vector in which every bit tests false and
for which `all_clear()` returns true. -/
theorem set_then_clear_all_clear (W : Nat) (b : bitmap) (index count : Nat)
    (h : valid W b) (hpos : 0 < b.size_in_bits_) (hn : b.size_in_bits_ < 2 ^ 31)
    (hclr : ∀ i, i < b.size_in_bits_ → test W b i = some false)
    (hfit : index + count ≤ b.size_in_bits_) :
    ∃ b1 b2, set W b index count = some b1 ∧ clear W b1 index count = some b2 ∧
      (∀ i, i < b.size_in_bits_ → test W b2 i = some false) ∧
      all_clear W b2 = some true := by
  obtain ⟨b1, hb1, hv1, hs1, hbit1⟩ := set_spec h index count hfit
  obtain ⟨b2, hb2, hv2, hs2, hbit2⟩ := clear_spec hv1 index count (by omega)
  have hzero : ∀ j, j < b.size_in_bits_ → bit_at W b2 j = false := by
    intro j hj
    have h0 : bit_at W b j = false := by
      have := hclr j hj
      rw [test_eq h hj] at this
      exact Option.some.inj this
    rw [hbit2, hbit1, h0]
    by_cases hin : index ≤ j ∧ j < index + count <;> simp [hin]
  refine ⟨b1, b2, hb1, hb2, fun i hi => ?_, ?_⟩
  · rw [test_eq hv2 (by omega), hzero i hi]
  · obtain ⟨r, hr, hiff⟩ := are_bits_spec hv2 false 0 b2.size_in_bits_ (by omega)
      (by decide) (by omega)
    unfold all_clear are_bits_clear
    rw [get_length_of_clear_eq]
    rw [hiff.2 ⟨by omega, by omega, fun j _ h2 => hzero j (by omega)⟩] at hr
    exact hr

/-- C5, at an all-clear vector of three 32-bit words and a range that spans
all three. -/
theorem set_then_clear_all_clear_witness :
    valid 32 ⟨[0, 0, 0], 96⟩ ∧ 0 < 96 ∧ 96 < 2 ^ 31 ∧
      (∀ i, i < 96 → test 32 ⟨[0, 0, 0], 96⟩ i = some false) ∧ 7 + 70 ≤ 96 ∧
      ∃ b1 b2, set 32 ⟨[0, 0, 0], 96⟩ 7 70 = some b1 ∧ clear 32 b1 7 70 = some b2 ∧
        (∀ i, i < 96 → test 32 b2 i = some false) ∧ all_clear 32 b2 = some true :=
  ⟨by decide, by decide, by decide, by decide, by decide,
    set_then_clear_all_clear 32 ⟨[0, 0, 0], 96⟩ 7 70 (by decide) (by decide) (by decide)
      (by decide) (by decide)⟩

/-- C6, as stated, fails: on the 64-bit vector whose bits 0..2 are set,
`get_length_of_set(0, 1)` returns 3, the naive run length, which exceeds
`count = 1`, and on the vector whose only set bit is bit 3
`get_length_of_clear(0, 1)` returns 3; neither is `min(count, n - index, L)`. -/
theorem get_length_exceeds_count :
    valid 64 ⟨[7], 64⟩ ∧
      get_length_of_set 64 ⟨[7], 64⟩ 0 1 = some 3 ∧
      naive_length_of_set 64 ⟨[7], 64⟩ 0 = 3 ∧
      get_length_of_set 64 ⟨[7], 64⟩ 0 1
        ≠ some (min 1 (min (64 - 0) (naive_length_of_set 64 ⟨[7], 64⟩ 0))) ∧
      get_length_of_clear 64 ⟨[8], 64⟩ 0 1 = some 3 ∧
      naive_length_of_clear 64 ⟨[8], 64⟩ 0 = 3 ∧
      get_length_of_clear 64 ⟨[8], 64⟩ 0 1
        ≠ some (min 1 (min (64 - 0) (naive_length_of_clear 64 ⟨[8], 64⟩ 0))) := by
  decide

/-- C6, amended: on a well-formed vector, for `index < n`,
`get_length_of_set(index, count)` is the number `L` of consecutive set bits
from `index` when that run ends before `scan_end`, the end of the last word
the scan reads, and `min(count, n - index)` otherwise; `scan_end` is at
least `index + min(count, n - index)`, so the result is at most `L` and at
least `min(count, n - index, L)`.  The same holds for `get_length_of_clear`
with clear bits. -/
theorem get_length_of_run_exact (W : Nat) (b : bitmap) (index count : Nat)
    (h : valid W b) (hi : index < b.size_in_bits_) :
    get_length_of_set W b index count = some
        (if index + naive_length_of_set W b index < scan_end W b index count
          then naive_length_of_set W b index
          else min count (b.size_in_bits_ - index)) ∧
      get_length_of_clear W b index count = some
        (if index + naive_length_of_clear W b index < scan_end W b index count
          then naive_length_of_clear W b index
          else min count (b.size_in_bits_ - index)) ∧
      index + min count (b.size_in_bits_ - index) ≤ scan_end W b index count :=
  ⟨get_length_of_exact h true index count hi, get_length_of_exact h false index count hi,
    (scan_end_ge h.1 b index count).1⟩

/-- C6 amended, at the vector of the counterexample. -/
theorem get_length_of_run_exact_witness :
    valid 64 ⟨[7], 64⟩ ∧ 0 < 64 ∧
      (get_length_of_set 64 ⟨[7], 64⟩ 0 1 = some
          (if 0 + naive_length_of_set 64 ⟨[7], 64⟩ 0 < scan_end 64 ⟨[7], 64⟩ 0 1
            then naive_length_of_set 64 ⟨[7], 64⟩ 0
            else min 1 (64 - 0)) ∧
        get_length_of_clear 64 ⟨[7], 64⟩ 0 1 = some
          (if 0 + naive_length_of_clear 64 ⟨[7], 64⟩ 0 < scan_end 64 ⟨[7], 64⟩ 0 1
            then naive_length_of_clear 64 ⟨[7], 64⟩ 0
            else min 1 (64 - 0)) ∧
        0 + min 1 (64 - 0) ≤ scan_end 64 ⟨[7], 64⟩ 0 1) :=
  ⟨by decide, by decide, get_length_of_run_exact 64 ⟨[7], 64⟩ 0 1 (by decide) (by decide)⟩

/-- C7: on a well-formed vector, for every `index < n` (so also for 0,
`W - 1`, `W` and `n - 1`) and every `count ≥ n - index`,
`get_length_of_set(index, count)` is the result of the naive bit-by-bit scan
for set bits and `get_length_of_clear(index, count)` that of the naive scan
for clear bits. -/
theorem get_length_agrees_with_naive_scan (W : Nat) (b : bitmap) (index count : Nat)
    (h : valid W b) (hi : index < b.size_in_bits_)
    (hcount : b.size_in_bits_ - index ≤ count) :
    get_length_of_set W b index count = some (naive_length_of_set W b index) ∧
      get_length_of_clear W b index count = some (naive_length_of_clear W b index) :=
  ⟨get_length_of_uncapped h true index count hi hcount,
    get_length_of_uncapped h false index count hi hcount⟩

/-- C7, at a two-word vector of 32-bit words, from the last bit of the first
word. -/
theorem get_length_agrees_with_naive_scan_witness :
    valid 32 ⟨[2147483648, 7], 64⟩ ∧ 31 < 64 ∧ 64 - 31 ≤ 40 ∧
      (get_length_of_set 32 ⟨[2147483648, 7], 64⟩ 31 40
          = some (naive_length_of_set 32 ⟨[2147483648, 7], 64⟩ 31) ∧
        get_length_of_clear 32 ⟨[2147483648, 7], 64⟩ 31 40
          = some (naive_length_of_clear 32 ⟨[2147483648, 7], 64⟩ 31)) :=
  ⟨by decide, by decide, by decide,
    get_length_agrees_with_naive_scan 32 ⟨[2147483648, 7], 64⟩ 31 40 (by decide) (by decide)
      (by decide)⟩

/-- C8: on a well-formed vector whose size `n` is an `int`, for `int`s
`index ≥ 0` and `count ≥ 0`, `are_bits_set(index, count)` returns true
exactly when `count ≥ 1`, `index + count ≤ n` and every bit of
`[index, index + count)` tests true, and it returns false whenever
`index + count` exceeds `n`, which includes every sum that leaves the `int`
range; `are_bits_clear` satisfies the same with bits that test false; and
`all_set()`, `all_clear()` are the instances `index = 0`, `count = n`. -/
theorem are_bits_exact (W : Nat) (b : bitmap) (index count : Nat)
    (h : valid W b) (hn : b.size_in_bits_ < 2 ^ 31) (hi : index < 2 ^ 31)
    (hc : count < 2 ^ 31) :
    (∃ r, are_bits_set W b index count = some r ∧
      (r = true ↔ (1 ≤ count ∧ index + count ≤ b.size_in_bits_ ∧
        ∀ i, index ≤ i → i < index + count → test W b i = some true)) ∧
      (b.size_in_bits_ < index + count → r = false)) ∧
    (∃ r, are_bits_clear W b index count = some r ∧
      (r = true ↔ (1 ≤ count ∧ index + count ≤ b.size_in_bits_ ∧
        ∀ i, index ≤ i → i < index + count → test W b i = some false)) ∧
      (b.size_in_bits_ < index + count → r = false)) ∧
    all_set W b = are_bits_set W b 0 b.size_in_bits_ ∧
    all_clear W b = are_bits_clear W b 0 b.size_in_bits_ := by
  have key : ∀ inv : Bool, ∀ r : Bool,
      (r = true ↔ (1 ≤ count ∧ run_at W b inv index count)) →
      (r = true ↔ (1 ≤ count ∧ index + count ≤ b.size_in_bits_ ∧
        ∀ i, index ≤ i → i < index + count → test W b i = some inv)) ∧
      (b.size_in_bits_ < index + count → r = false) := by
    intro inv r hiff
    have hiff' : r = true ↔ (1 ≤ count ∧ index + count ≤ b.size_in_bits_ ∧
        ∀ i, index ≤ i → i < index + count → test W b i = some inv) := by
      rw [hiff]
      unfold run_at
      constructor
      · intro ⟨h1, h2, h3⟩
        exact ⟨h1, h2, fun i h4 h5 => by rw [test_eq h (by omega), h3 i h4 h5]⟩
      · intro ⟨h1, h2, h3⟩
        refine ⟨h1, h2, fun i h4 h5 => ?_⟩
        have := h3 i h4 h5
        rw [test_eq h (by omega)] at this
        exact Option.some.inj this
    refine ⟨hiff', fun hbig => ?_⟩
    cases r
    · rfl
    · have := (hiff'.1 rfl).2.1
      omega
  obtain ⟨rs, hrs, hiffs⟩ := are_bits_spec h true index count hn hi hc
  obtain ⟨rc, hrc, hiffc⟩ := are_bits_spec h false index count hn hi hc
  exact ⟨⟨rs, hrs, key true rs hiffs⟩, ⟨rc, hrc, key false rc hiffc⟩, rfl, rfl⟩

/-- C8, at a 64-bit vector with bits 0..2 set, asked for a run whose end
leaves the `int` range. -/
theorem are_bits_exact_witness :
    valid 64 ⟨[7], 64⟩ ∧ (64 : Nat) < 2 ^ 31 ∧ (1 : Nat) < 2 ^ 31 ∧
      (2147483647 : Nat) < 2 ^ 31 ∧
      ((∃ r, are_bits_set 64 ⟨[7], 64⟩ 1 2147483647 = some r ∧
        (r = true ↔ (1 ≤ 2147483647 ∧ 1 + 2147483647 ≤ 64 ∧
          ∀ i, 1 ≤ i → i < 1 + 2147483647 → test 64 ⟨[7], 64⟩ i = some true)) ∧
        (64 < 1 + 2147483647 → r = false)) ∧
      (∃ r, are_bits_clear 64 ⟨[7], 64⟩ 1 2147483647 = some r ∧
        (r = true ↔ (1 ≤ 2147483647 ∧ 1 + 2147483647 ≤ 64 ∧
          ∀ i, 1 ≤ i → i < 1 + 2147483647 → test 64 ⟨[7], 64⟩ i = some false)) ∧
        (64 < 1 + 2147483647 → r = false)) ∧
      all_set 64 ⟨[7], 64⟩ = are_bits_set 64 ⟨[7], 64⟩ 0 64 ∧
      all_clear 64 ⟨[7], 64⟩ = are_bits_clear 64 ⟨[7], 64⟩ 0 64) :=
  ⟨by decide, by decide, by decide, by decide,
    are_bits_exact 64 ⟨[7], 64⟩ 1 2147483647 (by decide) (by decide) (by decide)
      (by decide)⟩

/-- C9: the code at inputs where the first bit looked for lies in the second
word.  With 64-bit words, on the vector whose only set bit is bit 64,
`find_first_set()` returns 8; on the vector whose only clear bits are 64..127
`find_first_clear()` returns 8; and on the all-clear vector
`find_first_set()` reads `buffer_[2]`, past the two words of the buffer.
With 32-bit words, on the vector whose only set bit is bit 32,
`find_first_set()` returns 8. -/
theorem find_first_any_wrong_word :
    valid 64 ⟨[0, 1], 128⟩ ∧
      find_first_set_any ⟨[0, 1], 128⟩ = some 8 ∧
      test 64 ⟨[0, 1], 128⟩ 64 = some true ∧
      (∀ i, i < 64 → test 64 ⟨[0, 1], 128⟩ i = some false) ∧
      valid 64 ⟨[2 ^ 64 - 1, 0], 128⟩ ∧
      find_first_clear_any 64 ⟨[2 ^ 64 - 1, 0], 128⟩ = some 8 ∧
      test 64 ⟨[2 ^ 64 - 1, 0], 128⟩ 64 = some false ∧
      (∀ i, i < 64 → test 64 ⟨[2 ^ 64 - 1, 0], 128⟩ i = some true) ∧
      valid 64 ⟨[0, 0], 128⟩ ∧
      find_first_set_any ⟨[0, 0], 128⟩ = none ∧
      valid 32 ⟨[0, 1], 64⟩ ∧
      find_first_set_any ⟨[0, 1], 64⟩ = some 8 ∧
      test 32 ⟨[0, 1], 64⟩ 32 = some true ∧
      (∀ i, i < 32 → test 32 ⟨[0, 1], 64⟩ i = some false) := by
  decide

/-- C10: for every vector and every `int` `index ≥ 0`,
`find_first_set(index, 0)` and `find_first_clear(index, 0)` return `index`
rounded down to a multiple of 8 when `index < n` and 0 when `index ≥ n`,
whatever the buffer holds; and for `count ≥ 1` an `index ≥ n` gives the
result of `index = 0`. -/
theorem find_first_zero_count (W : Nat) (b : bitmap) (index : Nat)
    (hi : index < 2 ^ 31) :
    find_first_set W b index 0
        = some (((if index < b.size_in_bits_ then index / 8 * 8 else 0 : Nat)) : Int) ∧
      find_first_clear W b index 0
        = some (((if index < b.size_in_bits_ then index / 8 * 8 else 0 : Nat)) : Int) ∧
      ∀ count, 1 ≤ count → b.size_in_bits_ ≤ index →
        find_first_set W b index count = find_first_set W b 0 count ∧
        find_first_clear W b index count = find_first_clear W b 0 count := by
  have hval : ((if index ≥ b.size_in_bits_ then 0 else index) &&& 0xfffffff8 : Nat) =
      (if index < b.size_in_bits_ then index / 8 * 8 else 0) := by
    by_cases hlt : index < b.size_in_bits_
    · rw [if_neg (by omega), if_pos hlt]
      exact and_mask8 (by omega)
    · rw [if_pos (by omega), if_neg hlt]
      rfl
  refine ⟨?_, ?_, fun count hc hge => ⟨?_, ?_⟩⟩
  · unfold find_first_set
    rw [if_neg (by omega)]
    simp only [if_true]
    rw [hval]
  · unfold find_first_clear
    rw [if_neg (by omega)]
    simp only [if_true]
    rw [hval]
  · unfold find_first_set
    by_cases hcnt : count > b.size_in_bits_
    · rw [if_pos hcnt, if_pos hcnt]
    · rw [if_neg hcnt, if_neg hcnt]
      simp only [if_pos hge]
      by_cases h0 : (0 : Nat) ≥ b.size_in_bits_
      · simp only [if_pos h0]
      · simp only [if_neg h0]
  · unfold find_first_clear
    by_cases hcnt : count > b.size_in_bits_
    · rw [if_pos hcnt, if_pos hcnt]
    · rw [if_neg hcnt, if_neg hcnt]
      simp only [if_pos hge]
      by_cases h0 : (0 : Nat) ≥ b.size_in_bits_
      · simp only [if_pos h0]
      · simp only [if_neg h0]

/-- C10, at a 64-bit vector with `index = 13` inside it. -/
theorem find_first_zero_count_witness :
    (13 : Nat) < 2 ^ 31 ∧
      (find_first_set 64 ⟨[7], 64⟩ 13 0
          = some (((if 13 < 64 then 13 / 8 * 8 else 0 : Nat)) : Int) ∧
        find_first_clear 64 ⟨[7], 64⟩ 13 0
          = some (((if 13 < 64 then 13 / 8 * 8 else 0 : Nat)) : Int) ∧
        ∀ count, 1 ≤ count → 64 ≤ 13 →
          find_first_set 64 ⟨[7], 64⟩ 13 count = find_first_set 64 ⟨[7], 64⟩ 0 count ∧
          find_first_clear 64 ⟨[7], 64⟩ 13 count
            = find_first_clear 64 ⟨[7], 64⟩ 0 count) :=
  ⟨by decide, find_first_zero_count 64 ⟨[7], 64⟩ 13 (by decide)⟩

/-! ## The search for a run of clear bits, and the scenario of the specification -/

theorem find_first_clear_loop_spec {W : Nat} {b : bitmap} (h : valid W b)
    (hn : b.size_in_bits_ ≤ max_count) {count : Nat} (hc1 : 1 ≤ count)
    (hsum : b.size_in_bits_ + count < 2 ^ 31) :
    ∀ fuel cb, cb ≤ b.size_in_bits_ → b.size_in_bits_ < cb + fuel →
      ∃ r : Int, find_first_clear_loop W b count fuel cb = some r ∧
        (r = -1 ∨ ∃ i : Nat, r = (i : Int) ∧ cb ≤ i ∧ run_at W b false i count)
  | 0, cb, h1, h2 => by omega
  | fuel + 1, cb, hcb, hfuel => by
    rw [find_first_clear_loop]
    by_cases hfit : cb + count < b.size_in_bits_
    · rw [if_pos ((loop_guard_lt hcb hsum).2 hfit)]
      have hcbn : cb < b.size_in_bits_ := by omega
      rw [get_length_of_set_eq, get_length_of_uncapped h true cb max_count hcbn (by omega)]
      simp only
      obtain ⟨hsk1, _, hsk3⟩ := naive_run_bits h true cb
      generalize naive_run W b true (b.size_in_bits_ - cb) cb = skipped at *
      have hsk1' : cb + skipped ≤ b.size_in_bits_ := by
        rw [max_eq_right (by omega)] at hsk1; exact hsk1
      rw [get_length_of_clear_eq]
      by_cases hend : cb + skipped < b.size_in_bits_
      · obtain ⟨r0, hr0, hle0, _, hiff0, hshort0⟩ :=
          run_iff_length h false (cb + skipped) count hend
        rw [hr0]
        simp only
        by_cases hfound : count ≤ r0
        · rw [if_pos hfound]
          exact ⟨_, rfl, Or.inr ⟨cb + skipped, rfl, by omega, hiff0.1 hfound⟩⟩
        · rw [if_neg hfound]
          obtain ⟨hzero, _⟩ := hshort0 (by omega)
          have hprog : 1 ≤ skipped + r0 := by
            by_contra hcon
            have hs0 : skipped = 0 := by omega
            have hr00 : r0 = 0 := by omega
            have h3 := hsk3 hend
            have h4 := hzero hr00
            rw [hs0] at h3 h4
            cases hb : bit_at W b (cb + 0) <;> simp_all
          obtain ⟨r, hr, hres⟩ := find_first_clear_loop_spec h hn hc1 hsum fuel
            (cb + skipped + r0) (by omega) (by omega)
          refine ⟨r, hr, ?_⟩
          rcases hres with hr1 | ⟨i, hri, hi1, hi2⟩
          · exact Or.inl hr1
          · exact Or.inr ⟨i, hri, by omega, hi2⟩
      · rw [get_length_of_ge false b (cb + skipped) count (by omega)]
        simp only
        rw [if_neg (by omega)]
        obtain ⟨r, hr, hres⟩ := find_first_clear_loop_spec h hn hc1 hsum fuel
          (cb + skipped + 0) (by omega) (by omega)
        refine ⟨r, hr, ?_⟩
        rcases hres with hr1 | ⟨i, hri, hi1, hi2⟩
        · exact Or.inl hr1
        · exact Or.inr ⟨i, hri, by omega, hi2⟩
    · rw [if_neg (fun hg => hfit ((loop_guard_lt hcb hsum).1 hg))]
      exact ⟨-1, rfl, Or.inl rfl⟩

theorem get_length_of_some {W : Nat} {b : bitmap} (h : valid W b) (inv : Bool)
    (index count : Nat) : ∃ r, get_length_of W inv b index count = some r := by
  by_cases hi : index < b.size_in_bits_
  · obtain ⟨r, hr, _⟩ := get_length_of_spec h inv index count hi
    exact ⟨r, hr⟩
  · exact ⟨0, get_length_of_ge inv b index count (by omega)⟩

theorem are_bits_some {W : Nat} {b : bitmap} (h : valid W b) (inv : Bool)
    (index count : Nat) :
    ∃ r : Bool,
      (if int_wrap ((index : Int) + (count : Int)) > (b.size_in_bits_ : Int) ∨
          int_wrap ((index : Int) + (count : Int)) ≤ (index : Int) then some false
        else
          match get_length_of W inv b index count with
          | none => none
          | some length => some (decide (length ≥ count))) = some r := by
  split
  · exact ⟨false, rfl⟩
  · obtain ⟨r, hr⟩ := get_length_of_some h inv index count
    rw [hr]
    exact ⟨_, rfl⟩

/-- C11: on a 64-bit (8-byte) vector that is all clear, `set(10, 20)`
returns the vector with bits 10..29 set, on which `find_first_clear(0, 5)`
returns 0 and `find_first_set(5)` returns 10; this holds for words of 64,
32, 16 and 8 bits. -/
theorem scenario_set_10_20 :
    (set 64 ⟨[0], 64⟩ 10 20 = some ⟨[1073740800], 64⟩ ∧
      find_first_clear 64 ⟨[1073740800], 64⟩ 0 5 = some 0 ∧
      find_first_set_count 64 ⟨[1073740800], 64⟩ 5 = some 10) ∧
    (set 32 ⟨[0, 0], 64⟩ 10 20 = some ⟨[1073740800, 0], 64⟩ ∧
      find_first_clear 32 ⟨[1073740800, 0], 64⟩ 0 5 = some 0 ∧
      find_first_set_count 32 ⟨[1073740800, 0], 64⟩ 5 = some 10) ∧
    (set 16 ⟨[0, 0, 0, 0], 64⟩ 10 20 = some ⟨[64512, 16383, 0, 0], 64⟩ ∧
      find_first_clear 16 ⟨[64512, 16383, 0, 0], 64⟩ 0 5 = some 0 ∧
      find_first_set_count 16 ⟨[64512, 16383, 0, 0], 64⟩ 5 = some 10) ∧
    (set 8 ⟨[0, 0, 0, 0, 0, 0, 0, 0], 64⟩ 10 20
        = some ⟨[0, 252, 255, 63, 0, 0, 0, 0], 64⟩ ∧
      find_first_clear 8 ⟨[0, 252, 255, 63, 0, 0, 0, 0], 64⟩ 0 5 = some 0 ∧
      find_first_set_count 8 ⟨[0, 252, 255, 63, 0, 0, 0, 0], 64⟩ 5 = some 10) := by
  decide

/-- C12, as stated, fails: on the all-set vector of `2 ^ 30 + 64` bits (a
multiple of the word width, an `int`, over a buffer of exactly that many
bits), `find_first_clear(0, 2 ^ 30)` returns no value.  No read leaves the
buffer, but the loop does not end: the first iteration moves the position to
the end of the vector, where the `int` sum `current_bit + count` of the loop
test is `2 ^ 31 + 64`, which wraps to `-2 ^ 31 + 64`, so the test holds,
both run scans return 0 and the position stays. -/
theorem find_first_clear_never_returns :
    valid 64 (filled (2 ^ 64 - 1) (2 ^ 24 + 1)) ∧
      (filled (2 ^ 64 - 1) (2 ^ 24 + 1)).size_in_bits_ = 2 ^ 30 + 64 ∧
      (filled (2 ^ 64 - 1) (2 ^ 24 + 1)).buffer_.length = (2 ^ 30 + 64) / 64 ∧
      (∀ fuel,
        find_first_clear_loop 64 (filled (2 ^ 64 - 1) (2 ^ 24 + 1)) (2 ^ 30) fuel 0 = none) ∧
      find_first_clear 64 (filled (2 ^ 64 - 1) (2 ^ 24 + 1)) 0 (2 ^ 30) = none := by
  have hv : valid 64 (filled (2 ^ 64 - 1) (2 ^ 24 + 1)) := filled_valid (by decide) _
  have hsize : (filled (2 ^ 64 - 1) (2 ^ 24 + 1)).size_in_bits_ = 2 ^ 30 + 64 := by decide
  have hall : ∀ j, j < (filled (2 ^ 64 - 1) (2 ^ 24 + 1)).size_in_bits_ →
      bit_at 64 (filled (2 ^ 64 - 1) (2 ^ 24 + 1)) j = true := by
    intro j hj
    rw [filled_bit_at _ (2 ^ 24 + 1) hj, Nat.testBit_two_pow_sub_one]
    exact decide_eq_true (Nat.mod_lt _ (by decide))
  have hloop := find_first_clear_loop_diverges hv hall (by rw [hsize]; decide)
    (show 0 < 2 ^ 30 by decide) (by rw [hsize]; decide) (by rw [hsize]; decide)
  refine ⟨hv, hsize, ?_, hloop, ?_⟩
  · show (List.replicate (2 ^ 24 + 1) (2 ^ 64 - 1)).length = (2 ^ 30 + 64) / 64
    rw [List.length_replicate]
    decide
  · unfold find_first_clear
    rw [if_neg (by rw [hsize]; decide)]
    simp only [ite_self]
    rw [if_neg (by decide)]
    exact hloop _

/-- C12 amended: on a well-formed vector (a buffer of exactly `n / W` words)
whose size is an `int`, `get_length_of_set`, `get_length_of_clear`,
`are_bits_set` and `are_bits_clear` return a value for every index and
count, also for an index `≥ n` and a count `> n`: no read leaves the buffer
(an access outside it would make the call return `none`).  These are the
only reads of `find_first_set(index, count)` and `find_first_clear(index,
count)`, which return a value for every `index` when `count > n` or
`n + count` is an `int` (below `2 ^ 31`). -/
theorem reads_stay_inside (W : Nat) (b : bitmap) (index count : Nat)
    (h : valid W b) (hn : b.size_in_bits_ < 2 ^ 31)
    (hsum : count ≤ b.size_in_bits_ → b.size_in_bits_ + count < 2 ^ 31) :
    (∀ i c, ∃ r, get_length_of_set W b i c = some r) ∧
      (∀ i c, ∃ r, get_length_of_clear W b i c = some r) ∧
      (∀ i c, ∃ r, are_bits_set W b i c = some r) ∧
      (∀ i c, ∃ r, are_bits_clear W b i c = some r) ∧
      (∃ r, find_first_set W b index count = some r) ∧
      (∃ r, find_first_clear W b index count = some r) := by
  have hmax : b.size_in_bits_ ≤ max_count := by unfold max_count; omega
  refine ⟨fun i c => get_length_of_some h true i c, fun i c => get_length_of_some h false i c,
    fun i c => are_bits_some h true i c, fun i c => are_bits_some h false i c, ?_, ?_⟩
  · unfold find_first_set
    by_cases hcnt : count > b.size_in_bits_
    · rw [if_pos hcnt]; exact ⟨_, rfl⟩
    · rw [if_neg hcnt]
      simp only
      by_cases h0 : count = 0
      · rw [if_pos h0]; exact ⟨_, rfl⟩
      · rw [if_neg h0]
        obtain ⟨r, hr, _⟩ := find_first_set_loop_spec h hmax (by omega : 1 ≤ count)
          (hsum (by omega)) (b.size_in_bits_ + 1)
          (if index ≥ b.size_in_bits_ then 0 else index) (by split <;> omega) (by omega)
        exact ⟨r, hr⟩
  · unfold find_first_clear
    by_cases hcnt : count > b.size_in_bits_
    · rw [if_pos hcnt]; exact ⟨_, rfl⟩
    · rw [if_neg hcnt]
      simp only
      by_cases h0 : count = 0
      · rw [if_pos h0]; exact ⟨_, rfl⟩
      · rw [if_neg h0]
        obtain ⟨r, hr, _⟩ := find_first_clear_loop_spec h hmax (by omega : 1 ≤ count)
          (hsum (by omega)) (b.size_in_bits_ + 1)
          (if index ≥ b.size_in_bits_ then 0 else index) (by split <;> omega) (by omega)
        exact ⟨r, hr⟩

/-- C12 amended, at a vector of two 64-bit words, for a search from bit 60
for a run of 10 bits, which reads both words. -/
theorem reads_stay_inside_witness :
    valid 64 ⟨[7, 0], 128⟩ ∧ (128 : Nat) < 2 ^ 31 ∧
      ((10 : Nat) ≤ 128 → (128 : Nat) + 10 < 2 ^ 31) ∧
      ((∀ i c, ∃ r, get_length_of_set 64 ⟨[7, 0], 128⟩ i c = some r) ∧
        (∀ i c, ∃ r, get_length_of_clear 64 ⟨[7, 0], 128⟩ i c = some r) ∧
        (∀ i c, ∃ r, are_bits_set 64 ⟨[7, 0], 128⟩ i c = some r) ∧
        (∀ i c, ∃ r, are_bits_clear 64 ⟨[7, 0], 128⟩ i c = some r) ∧
        (∃ r, find_first_set 64 ⟨[7, 0], 128⟩ 60 10 = some r) ∧
        (∃ r, find_first_clear 64 ⟨[7, 0], 128⟩ 60 10 = some r)) :=
  ⟨by decide, by decide, by decide,
    reads_stay_inside 64 ⟨[7, 0], 128⟩ 60 10 (by decide) (by decide) (by decide)⟩

/-! ## Single bits -/

theorem same_bit_iff (W j bit : Nat) :
    (j / W = bit / W ∧ bit % W = j % W) ↔ j = bit := by
  constructor
  · rintro ⟨h1, h2⟩
    have hj := Nat.div_add_mod j W
    have hb := Nat.div_add_mod bit W
    rw [h1, ← h2] at hj
    omega
  · intro h
    subst h
    exact ⟨rfl, rfl⟩

theorem set_bit_spec {W : Nat} {b : bitmap} (h : valid W b) {bit : Nat}
    (hbit : bit < b.size_in_bits_) :
    ∃ b', set_bit W b bit = some b' ∧ valid W b' ∧ b'.size_in_bits_ = b.size_in_bits_ ∧
      ∀ j, bit_at W b' j = (decide (j = bit) || bit_at W b j) := by
  have hW := h.1
  have hm : mask W bit < 2 ^ W := by
    rw [mask_eq hW]
    exact Nat.pow_lt_pow_right (by decide) (Nat.mod_lt _ hW)
  obtain ⟨b', hb', hv, hs, hb⟩ := update_or_spec h (mask W bit) (word_index_lt h hbit) hm
  refine ⟨b', hb', hv, hs, fun j => ?_⟩
  rw [hb, mask_eq hW, Nat.testBit_two_pow, Bool.or_comm]
  congr 1
  have := same_bit_iff W j bit
  by_cases hj : j = bit
  · subst hj; simp
  · have hn : ¬ (j / W = bit / W ∧ bit % W = j % W) := fun hc => hj (this.1 hc)
    simp only [hj, decide_False]
    by_cases h1 : j / W = bit / W
    · have h2 : ¬ bit % W = j % W := fun hc => hn ⟨h1, hc⟩
      simp [h1, h2]
    · simp [h1]

theorem clear_bit_spec {W : Nat} {b : bitmap} (h : valid W b) {bit : Nat}
    (hbit : bit < b.size_in_bits_) :
    ∃ b', clear_bit W b bit = some b' ∧ valid W b' ∧ b'.size_in_bits_ = b.size_in_bits_ ∧
      ∀ j, bit_at W b' j = (!decide (j = bit) && bit_at W b j) := by
  have hW := h.1
  have hm : mask W bit < 2 ^ W := by
    rw [mask_eq hW]
    exact Nat.pow_lt_pow_right (by decide) (Nat.mod_lt _ hW)
  obtain ⟨b', hb', hv, hs, hb⟩ :=
    update_and_spec h (w_not W (mask W bit)) (word_index_lt h hbit)
  refine ⟨b', hb', hv, hs, fun j => ?_⟩
  rw [hb, testBit_w_not hm, mask_eq hW, Nat.testBit_two_pow, Bool.and_comm]
  congr 1
  have := same_bit_iff W j bit
  have hlt : j % W < W := Nat.mod_lt _ hW
  by_cases hj : j = bit
  · subst hj; simp
  · have hn : ¬ (j / W = bit / W ∧ bit % W = j % W) := fun hc => hj (this.1 hc)
    simp only [hj, decide_False, Bool.not_false]
    by_cases h1 : j / W = bit / W
    · have h2 : ¬ bit % W = j % W := fun hc => hn ⟨h1, hc⟩
      simp [h1, h2, hlt]
    · simp [h1]

theorem set_each_spec {W : Nat} {b : bitmap} (h : valid W b) (index : Nat) :
    ∀ count, index + count ≤ b.size_in_bits_ →
      ∃ b', set_each W b index count = some b' ∧ valid W b' ∧
        b'.size_in_bits_ = b.size_in_bits_ ∧
        ∀ j, bit_at W b' j = (decide (index ≤ j ∧ j < index + count) || bit_at W b j)
  | 0, _ => by
    refine ⟨b, rfl, h, rfl, fun j => ?_⟩
    have hn : ¬ (index ≤ j ∧ j < index + 0) := by omega
    rw [decide_eq_false hn]
    rfl
  | count + 1, hfit => by
    obtain ⟨b1, hb1, hv1, hs1, hbit1⟩ := set_each_spec h index count (by omega)
    obtain ⟨b2, hb2, hv2, hs2, hbit2⟩ :=
      set_bit_spec hv1 (show index + count < b1.size_in_bits_ by omega)
    refine ⟨b2, ?_, hv2, by omega, fun j => ?_⟩
    · show (set_each W b index count).bind _ = some b2
      rw [hb1]
      exact hb2
    · rw [hbit2, hbit1]
      by_cases h1 : j = index + count
      · simp [h1]
      · by_cases h2 : index ≤ j ∧ j < index + count
        · have h3 : index ≤ j ∧ j < index + (count + 1) := by omega
          simp [h1, h2, h3]
        · have h3 : ¬ (index ≤ j ∧ j < index + (count + 1)) := by omega
          simp [h1, h2, h3]

theorem clear_each_spec {W : Nat} {b : bitmap} (h : valid W b) (index : Nat) :
    ∀ count, index + count ≤ b.size_in_bits_ →
      ∃ b', clear_each W b index count = some b' ∧ valid W b' ∧
        b'.size_in_bits_ = b.size_in_bits_ ∧
        ∀ j, bit_at W b' j = (!decide (index ≤ j ∧ j < index + count) && bit_at W b j)
  | 0, _ => by
    refine ⟨b, rfl, h, rfl, fun j => ?_⟩
    have hn : ¬ (index ≤ j ∧ j < index + 0) := by omega
    rw [decide_eq_false hn]
    rfl
  | count + 1, hfit => by
    obtain ⟨b1, hb1, hv1, hs1, hbit1⟩ := clear_each_spec h index count (by omega)
    obtain ⟨b2, hb2, hv2, hs2, hbit2⟩ :=
      clear_bit_spec hv1 (show index + count < b1.size_in_bits_ by omega)
    refine ⟨b2, ?_, hv2, by omega, fun j => ?_⟩
    · show (clear_each W b index count).bind _ = some b2
      rw [hb1]
      exact hb2
    · rw [hbit2, hbit1]
      by_cases h1 : j = index + count
      · simp [h1]
      · by_cases h2 : index ≤ j ∧ j < index + count
        · have h3 : index ≤ j ∧ j < index + (count + 1) := by omega
          simp [h1, h2, h3]
        · have h3 : ¬ (index ≤ j ∧ j < index + (count + 1)) := by omega
          simp [h1, h2, h3]

/-- C21: on a well-formed vector of size `n` and for `bit < n`: `set(bit)`
returns a vector on which `test(bit)` is true, `clear(bit)` one on which
`test(bit)` is false, and in both `test(j)` is as before for every
`j ≠ bit`; and for a range inside the vector `set(index, count)` returns
the vector that `set(i)` for each `i` of `[index, index + count)` returns,
and `clear(index, count)` the vector that `clear(i)` for each such `i`
returns. -/
theorem single_bit_refines (W : Nat) (b : bitmap) (bit index count : Nat)
    (h : valid W b) (hbit : bit < b.size_in_bits_)
    (hfit : index + count ≤ b.size_in_bits_) :
    (∃ b', set_bit W b bit = some b' ∧ test W b' bit = some true ∧
      ∀ j, j ≠ bit → test W b' j = test W b j) ∧
    (∃ b', clear_bit W b bit = some b' ∧ test W b' bit = some false ∧
      ∀ j, j ≠ bit → test W b' j = test W b j) ∧
    (∃ b', set W b index count = some b' ∧ set_each W b index count = some b') ∧
    (∃ b', clear W b index count = some b' ∧ clear_each W b index count = some b') := by
  refine ⟨?_, ?_, ?_, ?_⟩
  · obtain ⟨b', hb', hv, hs, hb⟩ := set_bit_spec h hbit
    refine ⟨b', hb', ?_, fun j hj => test_congr h hv hs ?_⟩
    · rw [test_eq hv (by omega), hb]
      simp
    · rw [hb, decide_eq_false hj]
      rfl
  · obtain ⟨b', hb', hv, hs, hb⟩ := clear_bit_spec h hbit
    refine ⟨b', hb', ?_, fun j hj => test_congr h hv hs ?_⟩
    · rw [test_eq hv (by omega), hb]
      simp
    · rw [hb, decide_eq_false hj]
      rfl
  · obtain ⟨b1, hb1, hv1, hs1, hbit1⟩ := set_spec h index count hfit
    obtain ⟨b2, hb2, hv2, hs2, hbit2⟩ := set_each_spec h index count hfit
    refine ⟨b1, hb1, ?_⟩
    rw [hb2, eq_of_bits hv1 hv2 (by omega) (fun j => by rw [hbit1, hbit2])]
  · obtain ⟨b1, hb1, hv1, hs1, hbit1⟩ := clear_spec h index count hfit
    obtain ⟨b2, hb2, hv2, hs2, hbit2⟩ := clear_each_spec h index count hfit
    refine ⟨b1, hb1, ?_⟩
    rw [hb2, eq_of_bits hv1 hv2 (by omega) (fun j => by rw [hbit1, hbit2])]

/-- C21, at a vector of two 8-bit words, bit 9 and the range `[6, 11)` that
crosses the word boundary. -/
theorem single_bit_refines_witness :
    valid 8 ⟨[5, 2], 16⟩ ∧ 9 < (⟨[5, 2], 16⟩ : bitmap).size_in_bits_ ∧
      6 + 5 ≤ (⟨[5, 2], 16⟩ : bitmap).size_in_bits_ ∧
      ((∃ b', set_bit 8 ⟨[5, 2], 16⟩ 9 = some b' ∧ test 8 b' 9 = some true ∧
        ∀ j, j ≠ 9 → test 8 b' j = test 8 ⟨[5, 2], 16⟩ j) ∧
      (∃ b', clear_bit 8 ⟨[5, 2], 16⟩ 9 = some b' ∧ test 8 b' 9 = some false ∧
        ∀ j, j ≠ 9 → test 8 b' j = test 8 ⟨[5, 2], 16⟩ j) ∧
      (∃ b', set 8 ⟨[5, 2], 16⟩ 6 5 = some b' ∧ set_each 8 ⟨[5, 2], 16⟩ 6 5 = some b') ∧
      (∃ b', clear 8 ⟨[5, 2], 16⟩ 6 5 = some b' ∧
        clear_each 8 ⟨[5, 2], 16⟩ 6 5 = some b')) :=
  ⟨by decide, by decide, by decide,
    single_bit_refines 8 ⟨[5, 2], 16⟩ 9 6 5 (by decide) (by decide) (by decide)⟩

/-! ## What the callers of the run scans rely on -/

theorem get_length_of_vs_run {W : Nat} {b : bitmap} (h : valid W b) (inv : Bool)
    (index count : Nat) (hi : index < b.size_in_bits_) :
    ∃ r, get_length_of W inv b index count = some r ∧
      r ≤ naive_run W b inv (b.size_in_bits_ - index) index ∧
      min r count = min (naive_run W b inv (b.size_in_bits_ - index) index) count ∧
      (count ≤ r ↔ count ≤ naive_run W b inv (b.size_in_bits_ - index) index) ∧
      (r < count → r = naive_run W b inv (b.size_in_bits_ - index) index) := by
  have hex := get_length_of_exact h inv index count hi
  have hle := naive_run_le W b inv (b.size_in_bits_ - index) index
  have hge := (scan_end_ge h.1 b index count).1
  generalize naive_run W b inv (b.size_in_bits_ - index) index = L at *
  generalize scan_end W b index count = e at *
  by_cases hL : index + L < e
  · rw [if_pos hL] at hex
    exact ⟨L, hex, Nat.le_refl L, rfl, Iff.rfl, fun _ => rfl⟩
  · rw [if_neg hL] at hex
    refine ⟨_, hex, ?_, ?_, ?_, ?_⟩
    · omega
    · omega
    · omega
    · omega

/-- C24: on a well-formed vector of size `n`, for `index < n` and every
`count`, with `L` the number of consecutive set bits from `index` up to the
end of the vector (the naive scan), `get_length_of_set(index, count)` returns
`r` with `r ≤ L` and `min(r, count) = min(L, count)`, so `r ≥ count` exactly
when `L ≥ count`, and `r < count` implies `r = L`.  The same holds for
`get_length_of_clear` with clear bits. -/
theorem get_length_in_terms_of_run (W : Nat) (b : bitmap) (index count : Nat)
    (h : valid W b) (hi : index < b.size_in_bits_) :
    (∃ r, get_length_of_set W b index count = some r ∧
      r ≤ naive_length_of_set W b index ∧
      min r count = min (naive_length_of_set W b index) count ∧
      (count ≤ r ↔ count ≤ naive_length_of_set W b index) ∧
      (r < count → r = naive_length_of_set W b index)) ∧
    (∃ r, get_length_of_clear W b index count = some r ∧
      r ≤ naive_length_of_clear W b index ∧
      min r count = min (naive_length_of_clear W b index) count ∧
      (count ≤ r ↔ count ≤ naive_length_of_clear W b index) ∧
      (r < count → r = naive_length_of_clear W b index)) :=
  ⟨get_length_of_vs_run h true index count hi, get_length_of_vs_run h false index count hi⟩

/-- C24, at the 64-bit vector with bits 0..2 set, where the scan for one set
bit from bit 0 returns 3. -/
theorem get_length_in_terms_of_run_witness :
    valid 64 ⟨[7], 64⟩ ∧ 0 < (⟨[7], 64⟩ : bitmap).size_in_bits_ ∧
      ((∃ r, get_length_of_set 64 ⟨[7], 64⟩ 0 1 = some r ∧
        r ≤ naive_length_of_set 64 ⟨[7], 64⟩ 0 ∧
        min r 1 = min (naive_length_of_set 64 ⟨[7], 64⟩ 0) 1 ∧
        (1 ≤ r ↔ 1 ≤ naive_length_of_set 64 ⟨[7], 64⟩ 0) ∧
        (r < 1 → r = naive_length_of_set 64 ⟨[7], 64⟩ 0)) ∧
      (∃ r, get_length_of_clear 64 ⟨[7], 64⟩ 0 1 = some r ∧
        r ≤ naive_length_of_clear 64 ⟨[7], 64⟩ 0 ∧
        min r 1 = min (naive_length_of_clear 64 ⟨[7], 64⟩ 0) 1 ∧
        (1 ≤ r ↔ 1 ≤ naive_length_of_clear 64 ⟨[7], 64⟩ 0) ∧
        (r < 1 → r = naive_length_of_clear 64 ⟨[7], 64⟩ 0))) :=
  ⟨by decide, by decide, get_length_in_terms_of_run 64 ⟨[7], 64⟩ 0 1 (by decide) (by decide)⟩

/-! ## Termination of the search loops -/

theorem find_first_set_loop_mono (W : Nat) (b : bitmap) (count : Nat) :
    ∀ (fuel fuel' cb : Nat) (r : Int), fuel ≤ fuel' →
      find_first_set_loop W b count fuel cb = some r →
      find_first_set_loop W b count fuel' cb = some r
  | 0, _, _, _, _, h => by
    rw [find_first_set_loop] at h
    exact Option.noConfusion h
  | fuel + 1, 0, _, _, hle, _ => by omega
  | fuel + 1, fuel' + 1, cb, r, hle, h => by
    rw [find_first_set_loop] at h ⊢
    by_cases hfit : int_wrap ((cb : Int) + (count : Int)) ≤ (b.size_in_bits_ : Int)
    · rw [if_pos hfit] at h ⊢
      cases h1 : get_length_of_clear W b cb max_count with
      | none => rw [h1] at h; exact Option.noConfusion h
      | some skipped =>
        rw [h1] at h
        simp only at h ⊢
        cases h2 : get_length_of_set W b (cb + skipped) count with
        | none => rw [h2] at h; exact Option.noConfusion h
        | some len =>
          rw [h2] at h
          simp only at h ⊢
          by_cases hfound : len ≥ count
          · rw [if_pos hfound] at h ⊢
            exact h
          · rw [if_neg hfound] at h ⊢
            exact find_first_set_loop_mono W b count fuel fuel' _ r (by omega) h
    · rw [if_neg hfit] at h ⊢
      exact h

theorem find_first_clear_loop_mono (W : Nat) (b : bitmap) (count : Nat) :
    ∀ (fuel fuel' cb : Nat) (r : Int), fuel ≤ fuel' →
      find_first_clear_loop W b count fuel cb = some r →
      find_first_clear_loop W b count fuel' cb = some r
  | 0, _, _, _, _, h => by
    rw [find_first_clear_loop] at h
    exact Option.noConfusion h
  | fuel + 1, 0, _, _, hle, _ => by omega
  | fuel + 1, fuel' + 1, cb, r, hle, h => by
    rw [find_first_clear_loop] at h ⊢
    by_cases hfit : int_wrap ((cb : Int) + (count : Int)) < (b.size_in_bits_ : Int)
    · rw [if_pos hfit] at h ⊢
      cases h1 : get_length_of_set W b cb max_count with
      | none => rw [h1] at h; exact Option.noConfusion h
      | some skipped =>
        rw [h1] at h
        simp only at h ⊢
        cases h2 : get_length_of_clear W b (cb + skipped) count with
        | none => rw [h2] at h; exact Option.noConfusion h
        | some len =>
          rw [h2] at h
          simp only at h ⊢
          by_cases hfound : len ≥ count
          · rw [if_pos hfound] at h ⊢
            exact h
          · rw [if_neg hfound] at h ⊢
            exact find_first_clear_loop_mono W b count fuel fuel' _ r (by omega) h
    · rw [if_neg hfit] at h ⊢
      exact h

/-- One iteration of a search loop for bits of value `val` at a position
inside the vector: both run scans return, the position after them is inside
the vector or at its end, and it is past the position before them when the
run found is shorter than `count`. -/
theorem search_step_progress {W : Nat} {b : bitmap} (h : valid W b)
    (hn : b.size_in_bits_ ≤ max_count) (val : Bool) (count : Nat) {cb : Nat}
    (hcb : cb < b.size_in_bits_) :
    ∃ skipped len, get_length_of W (!val) b cb max_count = some skipped ∧
      get_length_of W val b (cb + skipped) count = some len ∧
      cb + skipped + len ≤ b.size_in_bits_ ∧ (len < count → cb < cb + skipped + len) := by
  rw [get_length_of_uncapped h (!val) cb max_count hcb (by omega)]
  obtain ⟨hsk1, _, hsk3⟩ := naive_run_bits h (!val) cb
  generalize naive_run W b (!val) (b.size_in_bits_ - cb) cb = skipped at *
  have hsk1' : cb + skipped ≤ b.size_in_bits_ := by
    rw [max_eq_right (by omega)] at hsk1; exact hsk1
  by_cases hend : cb + skipped < b.size_in_bits_
  · obtain ⟨r0, hr0, hle0, _, _, hshort0⟩ := run_iff_length h val (cb + skipped) count hend
    refine ⟨skipped, r0, rfl, hr0, hle0, fun hlt => ?_⟩
    obtain ⟨hzero, _⟩ := hshort0 hlt
    by_contra hcon
    have hs0 : skipped = 0 := by omega
    have hr00 : r0 = 0 := by omega
    have h3 := hsk3 hend
    have h4 := hzero hr00
    rw [hs0] at h3 h4
    cases hb : bit_at W b (cb + 0) <;> cases val <;> simp_all
  · refine ⟨skipped, 0, rfl, get_length_of_ge val b (cb + skipped) count (by omega),
      by omega, fun _ => by omega⟩

/-- C26, as stated, fails: on the all-clear vector of `2 ^ 30` bits,
searched by `find_first_set(0, 2 ^ 30)`, the first iteration skips the whole
vector (the clear run from bit 0 has length `2 ^ 30`) and leaves the
position at `2 ^ 30`.  There the loop test still holds, because the `int`
sum `2 ^ 30 + 2 ^ 30` wraps to `-2 ^ 31`; the skipped run and the run found
both have length 0, so the iteration does not return and the position does
not increase; and the loop from that position returns for no amount of
fuel. -/
theorem search_loop_stalls :
    valid 64 (filled 0 (2 ^ 24)) ∧ (filled 0 (2 ^ 24)).size_in_bits_ = 2 ^ 30 ∧
      get_length_of_clear 64 (filled 0 (2 ^ 24)) 0 max_count = some (2 ^ 30) ∧
      int_wrap (((2 ^ 30 : Nat) : Int) + ((2 ^ 30 : Nat) : Int))
        ≤ ((filled 0 (2 ^ 24)).size_in_bits_ : Int) ∧
      get_length_of_clear 64 (filled 0 (2 ^ 24)) (2 ^ 30) max_count = some 0 ∧
      get_length_of_set 64 (filled 0 (2 ^ 24)) (2 ^ 30 + 0) (2 ^ 30) = some 0 ∧
      (0 : Nat) < 2 ^ 30 ∧ 2 ^ 30 + 0 + 0 = 2 ^ 30 ∧
      ∀ fuel, find_first_set_loop 64 (filled 0 (2 ^ 24)) (2 ^ 30) fuel (2 ^ 30) = none := by
  have hv : valid 64 (filled 0 (2 ^ 24)) := filled_valid (by decide) _
  have hsize : (filled 0 (2 ^ 24)).size_in_bits_ = 2 ^ 30 := by decide
  have hall : ∀ j, j < (filled 0 (2 ^ 24)).size_in_bits_ →
      bit_at 64 (filled 0 (2 ^ 24)) j = false := by
    intro j hj
    rw [filled_bit_at 0 (2 ^ 24) hj]
    exact Nat.zero_testBit _
  have hwhole := get_length_of_whole hv false hall (by rw [hsize]; decide)
    (by rw [hsize]; decide)
  rw [hsize] at hwhole
  have hstuck := find_first_set_loop_stuck 64 (filled 0 (2 ^ 24))
    (show 0 < 2 ^ 30 by decide) (by rw [hsize]; decide) (by rw [hsize]; decide)
  rw [hsize] at hstuck
  refine ⟨hv, hsize, ?_, ?_, ?_, ?_, by decide, by decide, hstuck⟩
  · rw [get_length_of_clear_eq]
    exact hwhole
  · rw [hsize]
    decide
  · rw [get_length_of_clear_eq]
    exact get_length_of_ge false _ _ _ (by rw [hsize])
  · rw [get_length_of_set_eq]
    exact get_length_of_ge true _ _ _ (by rw [hsize]; decide)

/-- C26 amended: on a well-formed vector of size `n` (an `int`), for every
`index` and every `count` that is above `n` or has `n + count` an `int`
(below `2 ^ 31`), `find_first_set(index, count)` and
`find_first_clear(index, count)` return.  For `0 < count ≤ n` their loops,
started at any position `cb ≤ n`, return within `n - cb + 1` loop tests, so
within `n + 1` from any position: with that much fuel or more the result is
the one with fuel `n + 1`.  The loop test at a position `cb ≤ n` holds
exactly when `cb + count ≤ n` (`<` for `find_first_clear`); in an iteration
both run scans return, the position after them is at most `n`, and when the
iteration does not return (the run found is shorter than `count`) that
position is past `cb`. -/
theorem search_loops_terminate (W : Nat) (b : bitmap) (index count : Nat)
    (h : valid W b) (hn : b.size_in_bits_ < 2 ^ 31)
    (hsum : count ≤ b.size_in_bits_ → b.size_in_bits_ + count < 2 ^ 31) :
    (∃ r, find_first_set W b index count = some r) ∧
    (∃ r, find_first_clear W b index count = some r) ∧
    (0 < count → count ≤ b.size_in_bits_ → ∀ cb fuel, cb ≤ b.size_in_bits_ →
      b.size_in_bits_ - cb < fuel →
      (∃ r, find_first_set_loop W b count fuel cb = some r) ∧
      find_first_set_loop W b count fuel cb
        = find_first_set_loop W b count (b.size_in_bits_ + 1) cb ∧
      (∃ r, find_first_clear_loop W b count fuel cb = some r) ∧
      find_first_clear_loop W b count fuel cb
        = find_first_clear_loop W b count (b.size_in_bits_ + 1) cb) ∧
    (0 < count → count ≤ b.size_in_bits_ → ∀ cb, cb ≤ b.size_in_bits_ →
      (int_wrap ((cb : Int) + (count : Int)) ≤ (b.size_in_bits_ : Int)
        ↔ cb + count ≤ b.size_in_bits_) ∧
      (int_wrap ((cb : Int) + (count : Int)) < (b.size_in_bits_ : Int)
        ↔ cb + count < b.size_in_bits_)) ∧
    (0 < count → ∀ cb, cb + count ≤ b.size_in_bits_ →
      ∃ skipped len, get_length_of_clear W b cb max_count = some skipped ∧
        get_length_of_set W b (cb + skipped) count = some len ∧
        cb + skipped + len ≤ b.size_in_bits_ ∧ (len < count → cb < cb + skipped + len)) ∧
    (0 < count → ∀ cb, cb + count < b.size_in_bits_ →
      ∃ skipped len, get_length_of_set W b cb max_count = some skipped ∧
        get_length_of_clear W b (cb + skipped) count = some len ∧
        cb + skipped + len ≤ b.size_in_bits_ ∧ (len < count → cb < cb + skipped + len)) := by
  have hmax : b.size_in_bits_ ≤ max_count := by unfold max_count; omega
  refine ⟨?_, ?_, fun hc hcs cb fuel hcb hfuel => ?_, fun hc hcs cb hcb => ?_,
    fun hc cb hfit => ?_, fun hc cb hfit => ?_⟩
  · unfold find_first_set
    split
    · exact ⟨_, rfl⟩
    · simp only
      split
      · exact ⟨_, rfl⟩
      · obtain ⟨r, hr, _⟩ := find_first_set_loop_spec h hmax (show 1 ≤ count by omega)
          (hsum (by omega)) (b.size_in_bits_ + 1)
          (if index ≥ b.size_in_bits_ then 0 else index) (by split <;> omega) (by omega)
        exact ⟨r, hr⟩
  · unfold find_first_clear
    split
    · exact ⟨_, rfl⟩
    · simp only
      split
      · exact ⟨_, rfl⟩
      · obtain ⟨r, hr, _⟩ := find_first_clear_loop_spec h hmax (show 1 ≤ count by omega)
          (hsum (by omega)) (b.size_in_bits_ + 1)
          (if index ≥ b.size_in_bits_ then 0 else index) (by split <;> omega) (by omega)
        exact ⟨r, hr⟩
  · have hA : b.size_in_bits_ - cb + 1 ≤ fuel := by omega
    have hB : b.size_in_bits_ - cb + 1 ≤ b.size_in_bits_ + 1 := by omega
    have hC : b.size_in_bits_ < cb + (b.size_in_bits_ - cb + 1) := by omega
    obtain ⟨r, hr, _⟩ := find_first_set_loop_spec h hmax hc (hsum hcs)
      (b.size_in_bits_ - cb + 1) cb hcb hC
    obtain ⟨r', hr', _⟩ := find_first_clear_loop_spec h hmax hc (hsum hcs)
      (b.size_in_bits_ - cb + 1) cb hcb hC
    have e1 := find_first_set_loop_mono W b count (b.size_in_bits_ - cb + 1) fuel cb r hA hr
    have e2 := find_first_set_loop_mono W b count (b.size_in_bits_ - cb + 1)
      (b.size_in_bits_ + 1) cb r hB hr
    have e3 := find_first_clear_loop_mono W b count (b.size_in_bits_ - cb + 1) fuel cb r'
      hA hr'
    have e4 := find_first_clear_loop_mono W b count (b.size_in_bits_ - cb + 1)
      (b.size_in_bits_ + 1) cb r' hB hr'
    exact ⟨⟨r, e1⟩, by rw [e1, e2], ⟨r', e3⟩, by rw [e3, e4]⟩
  · exact ⟨loop_guard_le hcb (hsum hcs), loop_guard_lt hcb (hsum hcs)⟩
  · exact search_step_progress h hmax true count (by omega)
  · exact search_step_progress h hmax false count (by omega)

/-- C26 amended, at a vector of two 8-bit words, searching from bit 1 for a
run of 3 bits. -/
theorem search_loops_terminate_witness :
    valid 8 ⟨[5, 2], 16⟩ ∧ (⟨[5, 2], 16⟩ : bitmap).size_in_bits_ < 2 ^ 31 ∧
      (3 ≤ (⟨[5, 2], 16⟩ : bitmap).size_in_bits_ →
        (⟨[5, 2], 16⟩ : bitmap).size_in_bits_ + 3 < 2 ^ 31) ∧
      ((∃ r, find_first_set 8 ⟨[5, 2], 16⟩ 1 3 = some r) ∧
      (∃ r, find_first_clear 8 ⟨[5, 2], 16⟩ 1 3 = some r) ∧
      (0 < 3 → 3 ≤ (⟨[5, 2], 16⟩ : bitmap).size_in_bits_ → ∀ cb fuel,
        cb ≤ (⟨[5, 2], 16⟩ : bitmap).size_in_bits_ →
        (⟨[5, 2], 16⟩ : bitmap).size_in_bits_ - cb < fuel →
        (∃ r, find_first_set_loop 8 ⟨[5, 2], 16⟩ 3 fuel cb = some r) ∧
        find_first_set_loop 8 ⟨[5, 2], 16⟩ 3 fuel cb
          = find_first_set_loop 8 ⟨[5, 2], 16⟩ 3
            ((⟨[5, 2], 16⟩ : bitmap).size_in_bits_ + 1) cb ∧
        (∃ r, find_first_clear_loop 8 ⟨[5, 2], 16⟩ 3 fuel cb = some r) ∧
        find_first_clear_loop 8 ⟨[5, 2], 16⟩ 3 fuel cb
          = find_first_clear_loop 8 ⟨[5, 2], 16⟩ 3
            ((⟨[5, 2], 16⟩ : bitmap).size_in_bits_ + 1) cb) ∧
      (0 < 3 → 3 ≤ (⟨[5, 2], 16⟩ : bitmap).size_in_bits_ → ∀ cb,
        cb ≤ (⟨[5, 2], 16⟩ : bitmap).size_in_bits_ →
        (int_wrap ((cb : Int) + ((3 : Nat) : Int))
            ≤ ((⟨[5, 2], 16⟩ : bitmap).size_in_bits_ : Int)
          ↔ cb + 3 ≤ (⟨[5, 2], 16⟩ : bitmap).size_in_bits_) ∧
        (int_wrap ((cb : Int) + ((3 : Nat) : Int))
            < ((⟨[5, 2], 16⟩ : bitmap).size_in_bits_ : Int)
          ↔ cb + 3 < (⟨[5, 2], 16⟩ : bitmap).size_in_bits_)) ∧
      (0 < 3 → ∀ cb, cb + 3 ≤ (⟨[5, 2], 16⟩ : bitmap).size_in_bits_ →
        ∃ skipped len, get_length_of_clear 8 ⟨[5, 2], 16⟩ cb max_count = some skipped ∧
          get_length_of_set 8 ⟨[5, 2], 16⟩ (cb + skipped) 3 = some len ∧
          cb + skipped + len ≤ (⟨[5, 2], 16⟩ : bitmap).size_in_bits_ ∧
          (len < 3 → cb < cb + skipped + len)) ∧
      (0 < 3 → ∀ cb, cb + 3 < (⟨[5, 2], 16⟩ : bitmap).size_in_bits_ →
        ∃ skipped len, get_length_of_set 8 ⟨[5, 2], 16⟩ cb max_count = some skipped ∧
          get_length_of_clear 8 ⟨[5, 2], 16⟩ (cb + skipped) 3 = some len ∧
          cb + skipped + len ≤ (⟨[5, 2], 16⟩ : bitmap).size_in_bits_ ∧
          (len < 3 → cb < cb + skipped + len))) :=
  ⟨by decide, by decide, by decide,
    search_loops_terminate 8 ⟨[5, 2], 16⟩ 1 3 (by decide) (by decide) (by decide)⟩

end bitmap

/-! ## What `handle` does to the counters -/

theorem incr_eq {d : stats_dims} {name : stats_field} {index : Nat}
    (stats : vmexit_stats_storage_t) (h : index < d.size name) :
    incr d stats name index = some (bumped stats name index) := by
  unfold incr bumped
  rw [if_pos h]

theorem map_fst_counted {α β : Type} (o : Option α) (l : β) :
    Option.map Prod.fst (o.bind fun s => some (s, l)) = o := by
  cases o <;> rfl

/-- The `switch` of `handle` increments the secondary counter selected and
nothing else. -/
theorem handle_switch_counts {W : Nat} {d : stats_dims} {h : vmexit_stats_handler}
    (hok : trace_ok W d h) (vp : vcpu_t) (hr : vp.exit_reason < d.vmexit)
    (stats : vmexit_stats_storage_t) (log : List trace_line) :
    (handle_switch W d h vp stats log).map Prod.fst =
      match secondary_counter d vp with
      | none => some stats
      | some c => incr d stats c.1 c.2 := by
  have hen : bitmap.test W h.vmexit_trace_bitmap_ vp.exit_reason
      = some (bitmap.bit_at W h.vmexit_trace_bitmap_ vp.exit_reason) :=
    bitmap.test_eq hok.1 (by have := hok.2; omega)
  generalize bitmap.bit_at W h.vmexit_trace_bitmap_ vp.exit_reason = en at hen
  unfold handle_switch secondary_counter
  by_cases h_exception_or_nmi : vp.exit_reason = exit_reason.exception_or_nmi
  · rw [h_exception_or_nmi] at hen
    simp +decide only [h_exception_or_nmi, count_and_trace, trace_only, hvpp_trace_if_enabled, hen,
      if_true, if_false, Option.map_some']
    split_ifs <;> simp only [map_fst_counted, Option.map_some']
  simp only [if_neg h_exception_or_nmi]
  by_cases h_execute_cpuid : vp.exit_reason = exit_reason.execute_cpuid
  · rw [h_execute_cpuid] at hen
    simp +decide only [h_execute_cpuid, count_and_trace, trace_only, hvpp_trace_if_enabled, hen,
      if_true, if_false, Option.map_some']
    split_ifs <;> simp only [map_fst_counted, Option.map_some']
  simp only [if_neg h_execute_cpuid]
  by_cases h_execute_invd : vp.exit_reason = exit_reason.execute_invd
  · rw [h_execute_invd] at hen
    simp +decide only [h_execute_invd, count_and_trace, trace_only, hvpp_trace_if_enabled, hen,
      if_true, if_false, Option.map_some']
  simp only [if_neg h_execute_invd]
  by_cases h_execute_invlpg : vp.exit_reason = exit_reason.execute_invlpg
  · rw [h_execute_invlpg] at hen
    simp +decide only [h_execute_invlpg, count_and_trace, trace_only, hvpp_trace_if_enabled, hen,
      if_true, if_false, Option.map_some']
  simp only [if_neg h_execute_invlpg]
  by_cases h_execute_rdtsc : vp.exit_reason = exit_reason.execute_rdtsc
  · rw [h_execute_rdtsc] at hen
    simp +decide only [h_execute_rdtsc, count_and_trace, trace_only, hvpp_trace_if_enabled, hen,
      if_true, if_false, Option.map_some']
  simp only [if_neg h_execute_rdtsc]
  by_cases h_mov_cr : vp.exit_reason = exit_reason.mov_cr
  · rw [h_mov_cr] at hen
    simp +decide only [h_mov_cr, count_and_trace, trace_only, hvpp_trace_if_enabled, hen,
      if_true, if_false, Option.map_some']
    split_ifs <;> simp only [map_fst_counted, Option.map_some']
  simp only [if_neg h_mov_cr]
  by_cases h_mov_dr : vp.exit_reason = exit_reason.mov_dr
  · rw [h_mov_dr] at hen
    simp +decide only [h_mov_dr, count_and_trace, trace_only, hvpp_trace_if_enabled, hen,
      if_true, if_false, Option.map_some']
    split_ifs <;> simp only [map_fst_counted, Option.map_some']
  simp only [if_neg h_mov_dr]
  by_cases h_execute_io_instruction : vp.exit_reason = exit_reason.execute_io_instruction
  · rw [h_execute_io_instruction] at hen
    simp +decide only [h_execute_io_instruction, count_and_trace, trace_only, hvpp_trace_if_enabled, hen,
      if_true, if_false, Option.map_some']
    split_ifs <;> simp only [map_fst_counted, Option.map_some']
  simp only [if_neg h_execute_io_instruction]
  by_cases h_execute_rdmsr : vp.exit_reason = exit_reason.execute_rdmsr
  · rw [h_execute_rdmsr] at hen
    simp +decide only [h_execute_rdmsr, count_and_trace, trace_only, hvpp_trace_if_enabled, hen,
      if_true, if_false, Option.map_some']
    split_ifs <;> simp only [map_fst_counted, Option.map_some']
  simp only [if_neg h_execute_rdmsr]
  by_cases h_execute_wrmsr : vp.exit_reason = exit_reason.execute_wrmsr
  · rw [h_execute_wrmsr] at hen
    simp +decide only [h_execute_wrmsr, count_and_trace, trace_only, hvpp_trace_if_enabled, hen,
      if_true, if_false, Option.map_some']
    split_ifs <;> simp only [map_fst_counted, Option.map_some']
  simp only [if_neg h_execute_wrmsr]
  by_cases h_gdtr_idtr_access : vp.exit_reason = exit_reason.gdtr_idtr_access
  · rw [h_gdtr_idtr_access] at hen
    simp +decide only [h_gdtr_idtr_access, count_and_trace, trace_only, hvpp_trace_if_enabled, hen,
      if_true, if_false, Option.map_some']
    split_ifs <;> simp only [map_fst_counted, Option.map_some']
  simp only [if_neg h_gdtr_idtr_access]
  by_cases h_ldtr_tr_access : vp.exit_reason = exit_reason.ldtr_tr_access
  · rw [h_ldtr_tr_access] at hen
    simp +decide only [h_ldtr_tr_access, count_and_trace, trace_only, hvpp_trace_if_enabled, hen,
      if_true, if_false, Option.map_some']
    split_ifs <;> simp only [map_fst_counted, Option.map_some']
  simp only [if_neg h_ldtr_tr_access]
  by_cases h_ept_violation : vp.exit_reason = exit_reason.ept_violation
  · rw [h_ept_violation] at hen
    simp +decide only [h_ept_violation, count_and_trace, trace_only, hvpp_trace_if_enabled, hen,
      if_true, if_false, Option.map_some']
  simp only [if_neg h_ept_violation]
  by_cases h_execute_rdtscp : vp.exit_reason = exit_reason.execute_rdtscp
  · rw [h_execute_rdtscp] at hen
    simp +decide only [h_execute_rdtscp, count_and_trace, trace_only, hvpp_trace_if_enabled, hen,
      if_true, if_false, Option.map_some']
  simp only [if_neg h_execute_rdtscp]
  by_cases h_execute_wbinvd : vp.exit_reason = exit_reason.execute_wbinvd
  · rw [h_execute_wbinvd] at hen
    simp +decide only [h_execute_wbinvd, count_and_trace, trace_only, hvpp_trace_if_enabled, hen,
      if_true, if_false, Option.map_some']
  simp only [if_neg h_execute_wbinvd]
  by_cases h_execute_xsetbv : vp.exit_reason = exit_reason.execute_xsetbv
  · rw [h_execute_xsetbv] at hen
    simp +decide only [h_execute_xsetbv, count_and_trace, trace_only, hvpp_trace_if_enabled, hen,
      if_true, if_false, Option.map_some']
  simp only [if_neg h_execute_xsetbv]
  by_cases h_execute_invpcid : vp.exit_reason = exit_reason.execute_invpcid
  · rw [h_execute_invpcid] at hen
    simp +decide only [h_execute_invpcid, count_and_trace, trace_only, hvpp_trace_if_enabled, hen,
      if_true, if_false, Option.map_some']
  simp only [if_neg h_execute_invpcid]
  rfl

theorem secondary_ne_vmexit (d : stats_dims) (vp : vcpu_t) (c : stats_field × Nat)
    (h : secondary_counter d vp = some c) : c.1 ≠ .vmexit := by
  have key : (secondary_counter d vp).map Prod.fst ≠ some .vmexit := by
    unfold secondary_counter
    by_cases h_exception_or_nmi : vp.exit_reason = exit_reason.exception_or_nmi
    · simp only [if_pos h_exception_or_nmi]
      split_ifs <;> simp only [Option.map_some', Option.map_none', ne_eq,
        Option.some.injEq, reduceCtorEq, not_false_eq_true]
    simp only [if_neg h_exception_or_nmi]
    by_cases h_execute_cpuid : vp.exit_reason = exit_reason.execute_cpuid
    · simp only [if_pos h_execute_cpuid]
      split_ifs <;> simp only [Option.map_some', Option.map_none', ne_eq,
        Option.some.injEq, reduceCtorEq, not_false_eq_true]
    simp only [if_neg h_execute_cpuid]
    by_cases h_mov_cr : vp.exit_reason = exit_reason.mov_cr
    · simp only [if_pos h_mov_cr]
      split_ifs <;> simp only [Option.map_some', Option.map_none', ne_eq,
        Option.some.injEq, reduceCtorEq, not_false_eq_true]
    simp only [if_neg h_mov_cr]
    by_cases h_mov_dr : vp.exit_reason = exit_reason.mov_dr
    · simp only [if_pos h_mov_dr]
      split_ifs <;> simp only [Option.map_some', Option.map_none', ne_eq,
        Option.some.injEq, reduceCtorEq, not_false_eq_true]
    simp only [if_neg h_mov_dr]
    by_cases h_execute_io_instruction : vp.exit_reason = exit_reason.execute_io_instruction
    · simp only [if_pos h_execute_io_instruction]
      split_ifs <;> simp only [Option.map_some', Option.map_none', ne_eq,
        Option.some.injEq, reduceCtorEq, not_false_eq_true]
    simp only [if_neg h_execute_io_instruction]
    by_cases h_execute_rdmsr : vp.exit_reason = exit_reason.execute_rdmsr
    · simp only [if_pos h_execute_rdmsr]
      split_ifs <;> simp only [Option.map_some', Option.map_none', ne_eq,
        Option.some.injEq, reduceCtorEq, not_false_eq_true]
    simp only [if_neg h_execute_rdmsr]
    by_cases h_execute_wrmsr : vp.exit_reason = exit_reason.execute_wrmsr
    · simp only [if_pos h_execute_wrmsr]
      split_ifs <;> simp only [Option.map_some', Option.map_none', ne_eq,
        Option.some.injEq, reduceCtorEq, not_false_eq_true]
    simp only [if_neg h_execute_wrmsr]
    by_cases h_gdtr_idtr_access : vp.exit_reason = exit_reason.gdtr_idtr_access
    · simp only [if_pos h_gdtr_idtr_access]
      simp only [Option.map_some', ne_eq, Option.some.injEq, reduceCtorEq,
        not_false_eq_true]
    simp only [if_neg h_gdtr_idtr_access]
    by_cases h_ldtr_tr_access : vp.exit_reason = exit_reason.ldtr_tr_access
    · simp only [if_pos h_ldtr_tr_access]
      simp only [Option.map_some', ne_eq, Option.some.injEq, reduceCtorEq,
        not_false_eq_true]
    simp only [if_neg h_ldtr_tr_access]
    simp only [Option.map_none', ne_eq, reduceCtorEq, not_false_eq_true]
  intro hc
  apply key
  rw [h, Option.map_some', hc]

theorem count_trap_eq {d : stats_dims} {vp : vcpu_t} (hfit : trap_fits d vp)
    (stats : vmexit_stats_storage_t) :
    count_trap d stats vp = some
      (match secondary_counter d vp with
        | none => bumped stats .vmexit vp.exit_reason
        | some c => bumped (bumped stats .vmexit vp.exit_reason) c.1 c.2) := by
  unfold count_trap
  rw [incr_eq stats (show vp.exit_reason < d.size .vmexit from hfit.1)]
  simp only
  cases hsec : secondary_counter d vp with
  | none => rfl
  | some c => exact incr_eq _ (hfit.2 c hsec)

theorem option_of_map_fst {α β : Type} {x : Option (α × β)} {a : α}
    (h : x.map Prod.fst = some a) : ∃ b, x = some (a, b) := by
  cases x with
  | none => exact Option.noConfusion h
  | some p =>
    obtain ⟨a', b⟩ := p
    simp only [Option.map_some', Option.some.injEq] at h
    exact ⟨b, by rw [h]⟩

/-- The whole effect of `handle` on a trap that fits: the block of the
processor is counted in, everything else is as before. -/
theorem handle_spec {W : Nat} {d : stats_dims} {cpu_count cpu_index : Nat}
    {h : vmexit_stats_handler} (hok : trace_ok W d h) (hp : cpu_index < cpu_count)
    {vp : vcpu_t} (hfit : trap_fits d vp) (log : List trace_line) :
    ∃ res, handle W d cpu_count cpu_index h vp log = some res ∧ res.vp = vp ∧
      res.handler.vmexit_trace_bitmap_ = h.vmexit_trace_bitmap_ ∧
      res.handler.storage_merged_ = h.storage_merged_ ∧
      (∀ q, q ≠ cpu_index → res.handler.storage_ q = h.storage_ q) ∧
      count_trap d (h.storage_ cpu_index) vp = some (res.handler.storage_ cpu_index) := by
  have hct := count_trap_eq hfit (h.storage_ cpu_index)
  have hinc := incr_eq (h.storage_ cpu_index) (show vp.exit_reason < d.size .vmexit from hfit.1)
  have hsw := handle_switch_counts hok vp hfit.1
    (bumped (h.storage_ cpu_index) .vmexit vp.exit_reason) log
  have hmatch : (match secondary_counter d vp with
      | none => some (bumped (h.storage_ cpu_index) .vmexit vp.exit_reason)
      | some c => incr d (bumped (h.storage_ cpu_index) .vmexit vp.exit_reason) c.1 c.2)
      = count_trap d (h.storage_ cpu_index) vp := by
    unfold count_trap
    rw [hinc]
  rw [hmatch, hct] at hsw
  obtain ⟨log', hlog'⟩ := option_of_map_fst hsw
  unfold handle
  rw [if_pos hp]
  simp only [hinc, hlog']
  refine ⟨_, rfl, rfl, rfl, rfl, fun q hq => ?_, ?_⟩
  · simp only [if_neg hq]
  · simp only [if_true]
    exact hct

theorem handle_vp {W : Nat} {d : stats_dims} {cpu_count cpu_index : Nat}
    {h : vmexit_stats_handler} {vp : vcpu_t} {log : List trace_line} {res : handle_result}
    (hres : handle W d cpu_count cpu_index h vp log = some res) : res.vp = vp := by
  unfold handle at hres
  by_cases hp : cpu_index < cpu_count
  · rw [if_pos hp] at hres
    cases h1 : incr d (h.storage_ cpu_index) .vmexit vp.exit_reason with
    | none => simp only [h1] at hres; exact Option.noConfusion hres
    | some s =>
      simp only [h1] at hres
      cases h2 : handle_switch W d h vp s log with
      | none => simp only [h2] at hres; exact Option.noConfusion hres
      | some r =>
        simp only [h2] at hres
        rw [← Option.some.inj hres]
  · rw [if_neg hp] at hres
    exact Option.noConfusion hres

theorem u32_add_lt (a b : Nat) : u32_add a b < 2 ^ 32 :=
  Nat.mod_lt _ (by decide)

theorem bumped_apply (stats : vmexit_stats_storage_t) (name : stats_field) (index : Nat)
    (f : stats_field) (i : Nat) :
    bumped stats name index f i
      = if f = name ∧ i = index then u32_add (stats f i) 1 else stats f i := rfl

theorem bumped_valid {d : stats_dims} {stats : vmexit_stats_storage_t}
    (hv : storage_valid d stats) {name : stats_field} {index : Nat}
    (hi : index < d.size name) : storage_valid d (bumped stats name index) := by
  intro f i
  rw [bumped_apply]
  by_cases hc : f = name ∧ i = index
  · rw [if_pos hc]
    refine ⟨u32_add_lt _ _, fun hge => ?_⟩
    rw [hc.1, hc.2] at hge
    omega
  · rw [if_neg hc]
    exact hv f i

/-- Counting one trap adds its hits to every counter, modulo `2 ^ 32`. -/
theorem count_trap_hits {d : stats_dims} {vp : vcpu_t} (hfit : trap_fits d vp)
    {stats stats' : vmexit_stats_storage_t} (hv : storage_valid d stats)
    (hc : count_trap d stats vp = some stats') :
    storage_valid d stats' ∧
      ∀ f i, stats' f i = (stats f i + hits d vp f i) % 2 ^ 32 := by
  rw [count_trap_eq hfit] at hc
  have hc := Option.some.inj hc
  have hv1 := bumped_valid hv (show vp.exit_reason < d.size .vmexit from hfit.1)
  cases hsec : secondary_counter d vp with
  | none =>
    rw [hsec] at hc
    simp only at hc
    rw [← hc]
    refine ⟨hv1, fun f i => ?_⟩
    unfold hits
    rw [hsec, bumped_apply]
    have := (hv f i).1
    by_cases h1 : f = .vmexit ∧ i = vp.exit_reason
    · simp [h1, u32_add]
    · simp only [if_neg h1, reduceCtorEq, if_false, Nat.add_zero]
      rw [Nat.mod_eq_of_lt this]
  | some c =>
    rw [hsec] at hc
    simp only at hc
    rw [← hc]
    refine ⟨bumped_valid hv1 (hfit.2 c hsec), fun f i => ?_⟩
    have hne := secondary_ne_vmexit d vp c hsec
    unfold hits
    rw [hsec, bumped_apply, bumped_apply]
    have := (hv f i).1
    by_cases h1 : f = .vmexit ∧ i = vp.exit_reason
    · obtain ⟨hf, hi⟩ := h1
      subst hf hi
      have h2 : ¬ (stats_field.vmexit = c.1 ∧ vp.exit_reason = c.2) :=
        fun h2 => hne h2.1.symm
      have h3 : ¬ (some c = some (stats_field.vmexit, vp.exit_reason)) := by
        intro h3
        apply h2
        rw [Option.some.inj h3]
        exact ⟨rfl, rfl⟩
      simp only [if_neg h2, if_neg h3, and_self, if_true, u32_add, Nat.add_zero]
    · by_cases h2 : f = c.1 ∧ i = c.2
      · have h3 : some c = some (f, i) := by rw [h2.1, h2.2]
        simp only [if_pos h2, if_neg h1, if_pos h3, u32_add]
      · have h3 : ¬ (some c = some (f, i)) := by
          intro h3
          apply h2
          rw [Option.some.inj h3]
          exact ⟨rfl, rfl⟩
        simp only [if_neg h2, if_neg h1, if_neg h3, Nat.add_zero]
        rw [Nat.mod_eq_of_lt this]

/-! ## Merging blocks -/

theorem storage_merge_apply (d : stats_dims) (lhs rhs : vmexit_stats_storage_t)
    (f : stats_field) (i : Nat) :
    storage_merge d lhs rhs f i
      = if i < d.size f then u32_add (lhs f i) (rhs f i) else lhs f i := by
  unfold storage_merge merge_field
  cases f <;> simp only [reduceCtorEq, false_and, true_and, if_false]

theorem sum_below_congr {g g' : Nat → Nat} :
    ∀ n, (∀ i, i < n → g i = g' i) → sum_below g n = sum_below g' n
  | 0, _ => rfl
  | n + 1, h => by
    unfold sum_below
    rw [sum_below_congr n (fun i hi => h i (by omega)), h n (by omega)]

theorem sum_below_zero : ∀ n, sum_below (fun _ => 0) n = 0
  | 0 => rfl
  | n + 1 => by unfold sum_below; rw [sum_below_zero n]

theorem sum_below_add (g g' : Nat → Nat) :
    ∀ n, sum_below (fun i => g i + g' i) n = sum_below g n + sum_below g' n
  | 0 => rfl
  | n + 1 => by
    unfold sum_below
    rw [sum_below_add g g' n]
    omega

theorem sum_below_single (p x : Nat) :
    ∀ n, sum_below (fun q => if p = q then x else 0) n = if p < n then x else 0
  | 0 => by simp [sum_below]
  | n + 1 => by
    unfold sum_below
    rw [sum_below_single p x n]
    by_cases h1 : p < n
    · have h2 : p ≠ n := by omega
      have h3 : p < n + 1 := by omega
      simp only [if_pos h1, if_neg h2, if_pos h3, Nat.add_zero]
    · by_cases h2 : p = n
      · have h3 : p < n + 1 := by omega
        simp only [if_neg h1, if_pos h2, if_pos h3, Nat.zero_add]
      · have h3 : ¬ p < n + 1 := by omega
        simp only [if_neg h1, if_neg h2, if_neg h3]

theorem sum_below_mod (g : Nat → Nat) (m : Nat) :
    ∀ n, sum_below (fun q => g q % m) n % m = sum_below g n % m
  | 0 => rfl
  | n + 1 => by
    unfold sum_below
    rw [Nat.add_mod, sum_below_mod g m n, Nat.mod_mod, ← Nat.add_mod]

/-- The aggregate that `dump` computes: every counter is the sum, modulo
`2 ^ 32`, of that counter over the blocks of the processors. -/
theorem merged_apply (d : stats_dims) (storage_ : Nat → vmexit_stats_storage_t)
    (f : stats_field) (i : Nat) :
    ∀ n, (List.range n).foldl (fun merged q => storage_merge d merged (storage_ q))
        storage_zero f i
      = if i < d.size f then sum_below (fun q => storage_ q f i) n % 2 ^ 32 else 0
  | 0 => by
    simp only [List.range_zero, List.foldl_nil, storage_zero, sum_below, Nat.zero_mod,
      ite_self]
  | n + 1 => by
    rw [List.range_succ, List.foldl_append, List.foldl_cons, List.foldl_nil,
      storage_merge_apply, merged_apply d storage_ f i n]
    by_cases hi : i < d.size f
    · simp only [if_pos hi, u32_add, sum_below]
      rw [Nat.mod_add_mod]
    · simp only [if_neg hi]

theorem storage_zero_valid (d : stats_dims) : storage_valid d storage_zero :=
  fun _ _ => ⟨by unfold storage_zero; decide, fun _ => rfl⟩

theorem storage_merge_valid {d : stats_dims} {lhs rhs : vmexit_stats_storage_t}
    (hl : storage_valid d lhs) : storage_valid d (storage_merge d lhs rhs) := by
  intro f i
  rw [storage_merge_apply]
  by_cases hi : i < d.size f
  · rw [if_pos hi]
    exact ⟨u32_add_lt _ _, fun h => by omega⟩
  · rw [if_neg hi]
    exact hl f i

theorem storage_ext {d : stats_dims} {a b : vmexit_stats_storage_t}
    (ha : storage_valid d a) (hb : storage_valid d b)
    (h : ∀ f i, i < d.size f → a f i = b f i) : a = b := by
  funext f i
  by_cases hi : i < d.size f
  · exact h f i hi
  · rw [(ha f i).2 (by omega), (hb f i).2 (by omega)]

/-! ## Sequences of traps -/

theorem tally_nil (d : stats_dims) (q : Nat) (f : stats_field) (i : Nat) :
    tally d [] q f i = 0 := rfl

theorem tally_cons (d : stats_dims) (e : event) (rest : List event) (q : Nat)
    (f : stats_field) (i : Nat) :
    tally d (e :: rest) q f i
      = (if e.1 = q then hits d e.2 f i else 0) + tally d rest q f i := rfl

/-- Handling a sequence of traps that fit adds, in every block, the tally of
the traps of its processor, modulo `2 ^ 32`. -/
theorem handle_all_spec {W : Nat} {d : stats_dims} {cpu_count : Nat} :
    ∀ (events : List event) (h : vmexit_stats_handler) (log : List trace_line),
      trace_ok W d h → blocks_valid d h → events_fit d cpu_count events →
      ∃ h' log', handle_all W d cpu_count events h log = some (h', log') ∧
        h'.vmexit_trace_bitmap_ = h.vmexit_trace_bitmap_ ∧
        h'.storage_merged_ = h.storage_merged_ ∧ blocks_valid d h' ∧
        ∀ q f i, h'.storage_ q f i
          = (h.storage_ q f i + tally d events q f i) % 2 ^ 32
  | [], h, log, _, hv, _ => by
    refine ⟨h, log, rfl, rfl, rfl, hv, fun q f i => ?_⟩
    rw [tally_nil, Nat.add_zero, Nat.mod_eq_of_lt (hv q f i).1]
  | e :: rest, h, log, hok, hv, hfit => by
    have he := hfit e (List.mem_cons_self _ _)
    obtain ⟨res, hres, _, hbm, hmg, hframe, hcount⟩ := handle_spec hok he.1 he.2 log
    obtain ⟨hv1, hhits⟩ := count_trap_hits he.2 (hv e.1) hcount
    have hok' : trace_ok W d res.handler := by
      unfold trace_ok
      rw [hbm]
      exact hok
    have hv' : blocks_valid d res.handler := by
      intro q
      by_cases hq : q = e.1
      · rw [hq]; exact hv1
      · rw [hframe q hq]; exact hv q
    obtain ⟨h', log', hall, hbm', hmg', hv'', hform⟩ :=
      handle_all_spec rest res.handler res.log hok' hv'
        (fun x hx => hfit x (List.mem_cons_of_mem _ hx))
    refine ⟨h', log', ?_, hbm'.trans hbm, hmg'.trans hmg, hv'', fun q f i => ?_⟩
    · unfold handle_all
      rw [hres]
      exact hall
    · rw [hform, tally_cons]
      by_cases hq : e.1 = q
      · rw [if_pos hq, ← hq, hhits]
        rw [Nat.mod_add_mod, Nat.add_assoc]
      · rw [if_neg hq, hframe q (fun hc => hq hc.symm), Nat.zero_add]

theorem tally_on_one (d : stats_dims) (p : Nat) (f : stats_field) (i : Nat) :
    ∀ events : List event,
      tally d (events.map fun e => (p, e.2)) p f i = tally_all d events f i
  | [] => rfl
  | e :: rest => by
    simp only [List.map_cons, tally, tally_all, if_true]
    rw [tally_on_one d p f i rest]

theorem tally_sum (d : stats_dims) (cpu_count : Nat) (f : stats_field) (i : Nat) :
    ∀ events : List event, (∀ e ∈ events, e.1 < cpu_count) →
      sum_below (fun q => tally d events q f i) cpu_count = tally_all d events f i
  | [], _ => by
    simp only [tally, tally_all]
    exact sum_below_zero _
  | e :: rest, h => by
    simp only [tally, tally_all]
    rw [sum_below_add, sum_below_single, if_pos (h e (List.mem_cons_self _ _)),
      tally_sum d cpu_count f i rest (fun x hx => h x (List.mem_cons_of_mem _ hx))]

theorem hits_vmexit (d : stats_dims) (vp : vcpu_t) (i : Nat) :
    hits d vp .vmexit i = if i = vp.exit_reason then 1 else 0 := by
  unfold hits
  have h2 : ¬ (secondary_counter d vp = some (stats_field.vmexit, i)) :=
    fun h => secondary_ne_vmexit d vp _ h rfl
  rw [if_neg h2]
  simp only [true_and, Nat.add_zero]

theorem tally_all_coarse (d : stats_dims) (n : Nat) :
    ∀ events : List event, (∀ e ∈ events, e.2.exit_reason < n) →
      sum_below (fun i => tally_all d events .vmexit i) n = events.length
  | [], _ => by
    simp only [tally_all, List.length_nil]
    exact sum_below_zero _
  | e :: rest, h => by
    simp only [tally_all, List.length_cons]
    rw [sum_below_add, tally_all_coarse d n rest (fun x hx => h x (List.mem_cons_of_mem _ hx))]
    have hone : sum_below (fun i => hits d e.2 .vmexit i) n = 1 := by
      have hpt : ∀ i, i < n →
          hits d e.2 .vmexit i = if e.2.exit_reason = i then 1 else 0 := by
        intro i _
        rw [hits_vmexit]
        by_cases hc : i = e.2.exit_reason
        · rw [if_pos hc, if_pos hc.symm]
        · rw [if_neg hc, if_neg (fun hc' => hc hc'.symm)]
      rw [sum_below_congr n hpt, sum_below_single, if_pos (h e (List.mem_cons_self _ _))]
    rw [hone]
    omega

theorem sum_below_le_of_term (g : Nat → Nat) :
    ∀ n i, i < n → g i ≤ sum_below g n
  | 0, i, h => by omega
  | n + 1, i, h => by
    unfold sum_below
    by_cases hi : i = n
    · rw [hi]; omega
    · have := sum_below_le_of_term g n i (by omega)
      omega

/-- The aggregate of `dump` after a sequence of traps from zeroed blocks, and
the block of one processor that handled them all. -/
theorem aggregate_spec {W : Nat} {d : stats_dims} {cpu_count : Nat}
    {h0 : vmexit_stats_handler} (hok : trace_ok W d h0)
    (hzero : ∀ q, h0.storage_ q = storage_zero) (events : List event)
    (hfit : events_fit d cpu_count events) {p0 : Nat} (hp0 : p0 < cpu_count)
    (log : List trace_line) :
    ∃ h1 log1 h2 log2, handle_all W d cpu_count events h0 log = some (h1, log1) ∧
      handle_all W d cpu_count (events.map fun e => (p0, e.2)) h0 log = some (h2, log2) ∧
      (dump d cpu_count h1).1.storage_merged_ = h2.storage_ p0 ∧
      ∀ f i, i < d.size f →
        (dump d cpu_count h1).1.storage_merged_ f i = tally_all d events f i % 2 ^ 32 := by
  have hv0 : blocks_valid d h0 := fun q => by rw [hzero q]; exact storage_zero_valid d
  have hfit' : events_fit d cpu_count (events.map fun e => (p0, e.2)) := by
    intro e he
    obtain ⟨x, hx, rfl⟩ := List.mem_map.1 he
    exact ⟨hp0, (hfit x hx).2⟩
  obtain ⟨h1, log1, hall1, _, _, hv1, hform1⟩ := handle_all_spec events h0 log hok hv0 hfit
  obtain ⟨h2, log2, hall2, _, _, hv2, hform2⟩ :=
    handle_all_spec (events.map fun e => (p0, e.2)) h0 log hok hv0 hfit'
  have hagg : ∀ f i, i < d.size f →
      (dump d cpu_count h1).1.storage_merged_ f i = tally_all d events f i % 2 ^ 32 := by
    intro f i hi
    unfold dump
    simp only
    rw [merged_apply, if_pos hi]
    have : ∀ q, q < cpu_count → h1.storage_ q f i = tally d events q f i % 2 ^ 32 := by
      intro q _
      rw [hform1, hzero q]
      simp only [storage_zero, Nat.zero_add]
    rw [sum_below_congr cpu_count this, sum_below_mod,
      tally_sum d cpu_count f i events (fun e he => (hfit e he).1)]
  refine ⟨h1, log1, h2, log2, hall1, hall2, ?_, hagg⟩
  have hvm : storage_valid d (dump d cpu_count h1).1.storage_merged_ := by
    intro f i
    unfold dump
    simp only
    rw [merged_apply]
    by_cases hi : i < d.size f
    · rw [if_pos hi]
      exact ⟨Nat.mod_lt _ (by decide), fun h => by omega⟩
    · rw [if_neg hi]
      exact ⟨by decide, fun _ => rfl⟩
  refine storage_ext hvm (hv2 p0) (fun f i hi => ?_)
  rw [hagg f i hi, hform2, hzero p0, tally_on_one]
  simp only [storage_zero, Nat.zero_add]

/-! ## The properties of the statistics handler -/

/-- C13, as stated, fails: the counters are `uint32_t`, and on a block whose
coarse counter of `execute_invd` is 4294967295 a trap with that reason
leaves the counter at 0, which is not the previous value plus 1. -/
theorem coarse_counter_wraps :
    trace_ok 64 sample_dims sample_full_handler ∧
      trap_fits sample_dims (sample_vp exit_reason.execute_invd 0 0 0) ∧
      sample_full_handler.storage_ 0 .vmexit exit_reason.execute_invd = 4294967295 ∧
      (handle 64 sample_dims 1 0 sample_full_handler
          (sample_vp exit_reason.execute_invd 0 0 0) []).map
        (fun res => res.handler.storage_ 0 .vmexit exit_reason.execute_invd) = some 0 := by
  decide

/-- C13, amended: for a handler whose trace bit vector covers the reasons, a
processor `cpu_index < cpu_count` and a trap that fits the arrays, `handle`
returns, the coarse counter `vmexit[r]` of block `cpu_index` is the previous
value plus 1 modulo `2 ^ 32` (so plus 1 unless it was 4294967295), every
other coarse counter of that block is unchanged, and the blocks of all other
processors are unchanged. -/
theorem handle_coarse_counter (W : Nat) (d : stats_dims) (cpu_count cpu_index : Nat)
    (h : vmexit_stats_handler) (vp : vcpu_t) (log : List trace_line)
    (hok : trace_ok W d h) (hp : cpu_index < cpu_count) (hfit : trap_fits d vp) :
    ∃ res, handle W d cpu_count cpu_index h vp log = some res ∧
      res.handler.storage_ cpu_index .vmexit vp.exit_reason
        = (h.storage_ cpu_index .vmexit vp.exit_reason + 1) % 2 ^ 32 ∧
      (h.storage_ cpu_index .vmexit vp.exit_reason < 4294967295 →
        res.handler.storage_ cpu_index .vmexit vp.exit_reason
          = h.storage_ cpu_index .vmexit vp.exit_reason + 1) ∧
      (∀ r, r ≠ vp.exit_reason →
        res.handler.storage_ cpu_index .vmexit r = h.storage_ cpu_index .vmexit r) ∧
      ∀ q, q ≠ cpu_index → res.handler.storage_ q = h.storage_ q := by
  obtain ⟨res, hres, _, _, _, hframe, hcount⟩ := handle_spec hok hp hfit log
  rw [count_trap_eq hfit] at hcount
  have hblock := Option.some.inj hcount
  have hcoarse : ∀ r, res.handler.storage_ cpu_index .vmexit r
      = bumped (h.storage_ cpu_index) .vmexit vp.exit_reason .vmexit r := by
    intro r
    rw [← hblock]
    cases hsec : secondary_counter d vp with
    | none => rfl
    | some c =>
      simp only
      rw [bumped_apply, if_neg (fun hc => secondary_ne_vmexit d vp c hsec hc.1.symm)]
  have hnew : res.handler.storage_ cpu_index .vmexit vp.exit_reason
      = (h.storage_ cpu_index .vmexit vp.exit_reason + 1) % 2 ^ 32 := by
    rw [hcoarse, bumped_apply, if_pos ⟨rfl, rfl⟩]
    rfl
  refine ⟨res, hres, hnew, fun hlt => ?_, fun r hr => ?_, hframe⟩
  · rw [hnew]
    exact Nat.mod_eq_of_lt (by omega)
  · rw [hcoarse, bumped_apply, if_neg (fun hc => hr hc.2)]

/-- C13 amended, at the handler of the counterexample. -/
theorem handle_coarse_counter_witness :
    trace_ok 64 sample_dims sample_full_handler ∧ 0 < 1 ∧
      trap_fits sample_dims (sample_vp exit_reason.execute_invd 0 0 0) ∧
      ∃ res, handle 64 sample_dims 1 0 sample_full_handler
          (sample_vp exit_reason.execute_invd 0 0 0) [] = some res ∧
        res.handler.storage_ 0 .vmexit (sample_vp exit_reason.execute_invd 0 0 0).exit_reason
          = (sample_full_handler.storage_ 0 .vmexit
              (sample_vp exit_reason.execute_invd 0 0 0).exit_reason + 1) % 2 ^ 32 ∧
        (sample_full_handler.storage_ 0 .vmexit
            (sample_vp exit_reason.execute_invd 0 0 0).exit_reason < 4294967295 →
          res.handler.storage_ 0 .vmexit (sample_vp exit_reason.execute_invd 0 0 0).exit_reason
            = sample_full_handler.storage_ 0 .vmexit
              (sample_vp exit_reason.execute_invd 0 0 0).exit_reason + 1) ∧
        (∀ r, r ≠ (sample_vp exit_reason.execute_invd 0 0 0).exit_reason →
          res.handler.storage_ 0 .vmexit r = sample_full_handler.storage_ 0 .vmexit r) ∧
        ∀ q, q ≠ 0 → res.handler.storage_ q = sample_full_handler.storage_ q :=
  ⟨by decide, by decide, by decide,
    handle_coarse_counter 64 sample_dims 1 0 sample_full_handler
      (sample_vp exit_reason.execute_invd 0 0 0) [] (by decide) (by decide) (by decide)⟩

/-- The secondary counters after `handle`: the one selected is incremented,
every other one is as before. -/
theorem handle_secondary {W : Nat} {d : stats_dims} {cpu_count cpu_index : Nat}
    {h : vmexit_stats_handler} {vp : vcpu_t} (log : List trace_line)
    (hok : trace_ok W d h) (hp : cpu_index < cpu_count) (hfit : trap_fits d vp) :
    ∃ res, handle W d cpu_count cpu_index h vp log = some res ∧
      ∀ f i, f ≠ .vmexit → res.handler.storage_ cpu_index f i =
        if secondary_counter d vp = some (f, i) then u32_add (h.storage_ cpu_index f i) 1
        else h.storage_ cpu_index f i := by
  obtain ⟨res, hres, _, _, _, _, hcount⟩ := handle_spec hok hp hfit log
  rw [count_trap_eq hfit] at hcount
  have hblock := Option.some.inj hcount
  refine ⟨res, hres, fun f i hf => ?_⟩
  rw [← hblock]
  cases hsec : secondary_counter d vp with
  | none =>
    simp only [reduceCtorEq, if_false]
    rw [bumped_apply, if_neg (fun hc => hf hc.1)]
  | some c =>
    simp only
    have hin : bumped (h.storage_ cpu_index) .vmexit vp.exit_reason f i
        = h.storage_ cpu_index f i := by
      rw [bumped_apply, if_neg (fun hc => hf hc.1)]
    rw [bumped_apply, hin]
    by_cases hc : f = c.1 ∧ i = c.2
    · rw [if_pos hc, if_pos (by rw [hc.1, hc.2])]
    · rw [if_neg hc, if_neg]
      intro heq
      apply hc
      rw [Option.some.inj heq]
      exact ⟨rfl, rfl⟩

theorem secondary_cpuid {d : stats_dims} {vp : vcpu_t}
    (hr : vp.exit_reason = exit_reason.execute_cpuid) (h0 : d.cpuid_0_max < 2 ^ 32)
    (h8 : d.cpuid_8_max < 0x80000000) :
    secondary_counter d vp = some (cpuid_bucket d vp.exit_context.eax) := by
  unfold secondary_counter cpuid_bucket
  simp +decide only [hr, if_true, if_false]
  have e0 : (0 + d.cpuid_0_max) % 2 ^ 32 = d.cpuid_0_max := by omega
  have e8 : (2147483648 + d.cpuid_8_max) % 2 ^ 32 = 2147483648 + d.cpuid_8_max := by omega
  rw [e0, e8]
  split_ifs <;> rfl

theorem secondary_rdmsr {d : stats_dims} {vp : vcpu_t}
    (hr : vp.exit_reason = exit_reason.execute_rdmsr) :
    secondary_counter d vp
      = some (msr_bucket .rdmsr_0 .rdmsr_c .rdmsr_other vp.exit_context.ecx) := by
  unfold secondary_counter msr_bucket
  simp +decide only [hr, if_true, if_false]
  by_cases h1 : vp.exit_context.ecx ≤ 8191
  · rw [if_pos h1, if_pos (show vp.exit_context.ecx < 8192 by omega)]
  · rw [if_neg h1, if_neg (show ¬ vp.exit_context.ecx < 8192 by omega)]
    by_cases h2 : 3221225472 ≤ vp.exit_context.ecx ∧ vp.exit_context.ecx < 3221233664
    · rw [if_pos h2, if_pos (by omega)]
    · rw [if_neg h2, if_neg (by omega)]

theorem secondary_wrmsr {d : stats_dims} {vp : vcpu_t}
    (hr : vp.exit_reason = exit_reason.execute_wrmsr) :
    secondary_counter d vp
      = some (msr_bucket .wrmsr_0 .wrmsr_c .wrmsr_other vp.exit_context.ecx) := by
  unfold secondary_counter msr_bucket
  simp +decide only [hr, if_true, if_false]
  by_cases h1 : vp.exit_context.ecx ≤ 8191
  · rw [if_pos h1, if_pos (show vp.exit_context.ecx < 8192 by omega)]
  · rw [if_neg h1, if_neg (show ¬ vp.exit_context.ecx < 8192 by omega)]
    by_cases h2 : 3221225472 ≤ vp.exit_context.ecx ∧ vp.exit_context.ecx < 3221233664
    · rw [if_pos h2, if_pos (by omega)]
    · rw [if_neg h2, if_neg (by omega)]

theorem eax_lt (c : context_t) : c.eax < 2 ^ 32 := Nat.mod_lt _ (by decide)

theorem ecx_lt (c : context_t) : c.ecx < 2 ^ 32 := Nat.mod_lt _ (by decide)

theorem selected_counter {W : Nat} {d : stats_dims} {cpu_count cpu_index : Nat}
    {h : vmexit_stats_handler} {vp : vcpu_t} (log : List trace_line)
    (hok : trace_ok W d h) (hp : cpu_index < cpu_count) (hr : vp.exit_reason < d.vmexit)
    {c : stats_field × Nat} (hsec : secondary_counter d vp = some c)
    (hc : c.2 < d.size c.1) :
    ∃ res, handle W d cpu_count cpu_index h vp log = some res ∧
      res.handler.storage_ cpu_index c.1 c.2
        = (h.storage_ cpu_index c.1 c.2 + 1) % 2 ^ 32 ∧
      ∀ f i, f ≠ .vmexit → (f, i) ≠ c →
        res.handler.storage_ cpu_index f i = h.storage_ cpu_index f i := by
  have hfit : trap_fits d vp := by
    refine ⟨hr, fun x hx => ?_⟩
    rw [hsec] at hx
    rw [← Option.some.inj hx]
    exact hc
  obtain ⟨res, hres, hsel⟩ := handle_secondary log hok hp hfit
  refine ⟨res, hres, ?_, fun f i hf hne => ?_⟩
  · rw [hsel c.1 c.2 (secondary_ne_vmexit d vp c hsec), hsec, if_pos rfl]
    rfl
  · rw [hsel f i hf, hsec, if_neg]
    intro heq
    exact hne (Option.some.inj heq).symm

/-- C14: for a CPU-identification trap with 32-bit leaf `eax`, with
`cpuid_0_max` and `cpuid_8_max` small enough that the bounds of the two
ranges do not wrap, `handle` returns and increments exactly one secondary
counter, the bucket of the leaf: `cpuid_0[eax]` when `eax < cpuid_0_max`,
`cpuid_8[eax - 0x80000000]` when
`0x80000000 ≤ eax < 0x80000000 + cpuid_8_max`, and `cpuid_other` otherwise;
no other secondary counter changes.  So leaf 0 counts in `cpuid_0[0]`, leaf
`0x80000000` in `cpuid_8[0]` and leaf `0x12345678` in `cpuid_other`. -/
theorem handle_cpuid_bucket (W : Nat) (d : stats_dims) (cpu_count cpu_index : Nat)
    (h : vmexit_stats_handler) (vp : vcpu_t) (log : List trace_line)
    (hok : trace_ok W d h) (hp : cpu_index < cpu_count)
    (hr : vp.exit_reason = exit_reason.execute_cpuid)
    (hd : exit_reason.execute_cpuid < d.vmexit)
    (h0 : 0 < d.cpuid_0_max ∧ d.cpuid_0_max ≤ 0x12345678)
    (h8 : 0 < d.cpuid_8_max ∧ d.cpuid_8_max < 0x80000000) :
    (∃ res, handle W d cpu_count cpu_index h vp log = some res ∧
      res.handler.storage_ cpu_index (cpuid_bucket d vp.exit_context.eax).1
          (cpuid_bucket d vp.exit_context.eax).2
        = (h.storage_ cpu_index (cpuid_bucket d vp.exit_context.eax).1
          (cpuid_bucket d vp.exit_context.eax).2 + 1) % 2 ^ 32 ∧
      ∀ f i, f ≠ .vmexit → (f, i) ≠ cpuid_bucket d vp.exit_context.eax →
        res.handler.storage_ cpu_index f i = h.storage_ cpu_index f i) ∧
    cpuid_bucket d 0x00000000 = (.cpuid_0, 0) ∧
    cpuid_bucket d 0x80000000 = (.cpuid_8, 0) ∧
    cpuid_bucket d 0x12345678 = (.cpuid_other, 0) := by
  have hsec : secondary_counter d vp = some (cpuid_bucket d vp.exit_context.eax) :=
    secondary_cpuid hr (by omega) h8.2
  have hin : (cpuid_bucket d vp.exit_context.eax).2
      < d.size (cpuid_bucket d vp.exit_context.eax).1 := by
    unfold cpuid_bucket
    split_ifs with h1 h2
    · exact h1
    · show vp.exit_context.eax - 0x80000000 < d.cpuid_8_max
      omega
    · exact Nat.zero_lt_one
  refine ⟨selected_counter log hok hp (by rw [hr]; exact hd) hsec hin, ?_, ?_, ?_⟩
  · unfold cpuid_bucket
    rw [if_pos h0.1]
  · unfold cpuid_bucket
    rw [if_neg (by omega), if_pos ⟨by omega, by omega⟩]
  · unfold cpuid_bucket
    rw [if_neg (by omega), if_neg (by omega)]

/-- C14, at a trap with leaf `0x80000001` on a zeroed handler. -/
theorem handle_cpuid_bucket_witness :
    trace_ok 64 sample_dims sample_handler ∧ 0 < 1 ∧
      (sample_vp exit_reason.execute_cpuid 0x80000001 0 0).exit_reason
        = exit_reason.execute_cpuid ∧
      exit_reason.execute_cpuid < sample_dims.vmexit ∧
      (0 < sample_dims.cpuid_0_max ∧ sample_dims.cpuid_0_max ≤ 0x12345678) ∧
      (0 < sample_dims.cpuid_8_max ∧ sample_dims.cpuid_8_max < 0x80000000) ∧
      ((∃ res, handle 64 sample_dims 1 0 sample_handler
          (sample_vp exit_reason.execute_cpuid 0x80000001 0 0) [] = some res ∧
        res.handler.storage_ 0
            (cpuid_bucket sample_dims
              (sample_vp exit_reason.execute_cpuid 0x80000001 0 0).exit_context.eax).1
            (cpuid_bucket sample_dims
              (sample_vp exit_reason.execute_cpuid 0x80000001 0 0).exit_context.eax).2
          = (sample_handler.storage_ 0
            (cpuid_bucket sample_dims
              (sample_vp exit_reason.execute_cpuid 0x80000001 0 0).exit_context.eax).1
            (cpuid_bucket sample_dims
              (sample_vp exit_reason.execute_cpuid 0x80000001 0 0).exit_context.eax).2
            + 1) % 2 ^ 32 ∧
        ∀ f i, f ≠ .vmexit →
          (f, i) ≠ cpuid_bucket sample_dims
            (sample_vp exit_reason.execute_cpuid 0x80000001 0 0).exit_context.eax →
          res.handler.storage_ 0 f i = sample_handler.storage_ 0 f i) ∧
      cpuid_bucket sample_dims 0x00000000 = (.cpuid_0, 0) ∧
      cpuid_bucket sample_dims 0x80000000 = (.cpuid_8, 0) ∧
      cpuid_bucket sample_dims 0x12345678 = (.cpuid_other, 0)) :=
  ⟨by decide, by decide, by decide, by decide, by decide, by decide,
    handle_cpuid_bucket 64 sample_dims 1 0 sample_handler
      (sample_vp exit_reason.execute_cpuid 0x80000001 0 0) [] (by decide) (by decide)
      (by decide) (by decide) (by decide) (by decide)⟩

/-- C15: for an MSR read trap (`write = false`) and for an MSR write trap
(`write = true`) with 32-bit index `ecx`, with arrays of `0x2000` elements
or more, `handle` returns and increments exactly one secondary counter, the
bucket of `ecx` in the counters of the matching direction: the low bucket at
`ecx` when `ecx < 0x2000`, the high bucket at `ecx - 0xC0000000` when
`0xC0000000 ≤ ecx < 0xC0002000`, the "other" counter otherwise; no other
secondary counter changes, and no counter of the opposite direction changes.
A write to `0xC0000080` counts at offset `0x80` of the high write bucket and
a read of `0x10` at offset `0x10` of the low read bucket. -/
theorem handle_msr_bucket (W : Nat) (d : stats_dims) (cpu_count cpu_index : Nat)
    (h : vmexit_stats_handler) (vp : vcpu_t) (log : List trace_line) (write : Bool)
    (hok : trace_ok W d h) (hp : cpu_index < cpu_count)
    (hr : vp.exit_reason
      = if write then exit_reason.execute_wrmsr else exit_reason.execute_rdmsr)
    (hd : exit_reason.execute_wrmsr < d.vmexit)
    (hsize : 0x2000 ≤ d.rdmsr_0 ∧ 0x2000 ≤ d.rdmsr_c ∧ 0x2000 ≤ d.wrmsr_0 ∧
      0x2000 ≤ d.wrmsr_c) :
    (∃ res, handle W d cpu_count cpu_index h vp log = some res ∧
      res.handler.storage_ cpu_index (msr_counter write vp.exit_context.ecx).1
          (msr_counter write vp.exit_context.ecx).2
        = (h.storage_ cpu_index (msr_counter write vp.exit_context.ecx).1
          (msr_counter write vp.exit_context.ecx).2 + 1) % 2 ^ 32 ∧
      (∀ f i, f ≠ .vmexit → (f, i) ≠ msr_counter write vp.exit_context.ecx →
        res.handler.storage_ cpu_index f i = h.storage_ cpu_index f i) ∧
      ∀ ecx i, res.handler.storage_ cpu_index (msr_counter (!write) ecx).1 i
        = h.storage_ cpu_index (msr_counter (!write) ecx).1 i) ∧
    msr_counter true 0xC0000080 = (.wrmsr_c, 0x80) ∧
    msr_counter false 0x00000010 = (.rdmsr_0, 0x10) := by
  have hin : ∀ (low high other : stats_field) (ecx : Nat), 0x2000 ≤ d.size low →
      0x2000 ≤ d.size high → d.size other = 1 →
      (msr_bucket low high other ecx).2 < d.size (msr_bucket low high other ecx).1 := by
    intro low high other ecx hl hh ho
    unfold msr_bucket
    split_ifs with h1 h2
    · show ecx < d.size low
      omega
    · show ecx - 0xC0000000 < d.size high
      omega
    · show 0 < d.size other
      omega
  have hfield : ∀ (low high other : stats_field) (ecx : Nat),
      (msr_bucket low high other ecx).1 = low ∨ (msr_bucket low high other ecx).1 = high ∨
        (msr_bucket low high other ecx).1 = other := by
    intro low high other ecx
    unfold msr_bucket
    split_ifs
    · exact Or.inl rfl
    · exact Or.inr (Or.inl rfl)
    · exact Or.inr (Or.inr rfl)
  have hopp : ∀ ecx1 ecx2, (msr_counter (!write) ecx1).1 ≠ .vmexit ∧
      (msr_counter (!write) ecx1).1 ≠ (msr_counter write ecx2).1 := by
    intro ecx1 ecx2
    cases write
    · rcases hfield .wrmsr_0 .wrmsr_c .wrmsr_other ecx1 with e1 | e1 | e1 <;>
        rcases hfield .rdmsr_0 .rdmsr_c .rdmsr_other ecx2 with e2 | e2 | e2 <;>
        simp +decide only [msr_counter, Bool.not_false, Bool.not_true, if_true, if_false,
          e1, e2, ne_eq, not_false_eq_true, and_self]
    · rcases hfield .rdmsr_0 .rdmsr_c .rdmsr_other ecx1 with e1 | e1 | e1 <;>
        rcases hfield .wrmsr_0 .wrmsr_c .wrmsr_other ecx2 with e2 | e2 | e2 <;>
        simp +decide only [msr_counter, Bool.not_false, Bool.not_true, if_true, if_false,
          e1, e2, ne_eq, not_false_eq_true, and_self]
  have hsel : ∃ res, handle W d cpu_count cpu_index h vp log = some res ∧
      res.handler.storage_ cpu_index (msr_counter write vp.exit_context.ecx).1
          (msr_counter write vp.exit_context.ecx).2
        = (h.storage_ cpu_index (msr_counter write vp.exit_context.ecx).1
          (msr_counter write vp.exit_context.ecx).2 + 1) % 2 ^ 32 ∧
      ∀ f i, f ≠ .vmexit → (f, i) ≠ msr_counter write vp.exit_context.ecx →
        res.handler.storage_ cpu_index f i = h.storage_ cpu_index f i := by
    cases write
    · have hr1 : vp.exit_reason = exit_reason.execute_rdmsr := hr
      exact selected_counter log hok hp
        (by rw [hr1]; exact Nat.lt_trans (by decide) hd) (secondary_rdmsr hr1)
        (hin _ _ _ _ hsize.1 hsize.2.1 rfl)
    · have hr1 : vp.exit_reason = exit_reason.execute_wrmsr := hr
      exact selected_counter log hok hp (by rw [hr1]; exact hd) (secondary_wrmsr hr1)
        (hin _ _ _ _ hsize.2.2.1 hsize.2.2.2 rfl)
  obtain ⟨res, hres, hinc, hframe⟩ := hsel
  refine ⟨⟨res, hres, hinc, hframe, fun ecx i => ?_⟩, by decide, by decide⟩
  refine hframe _ i (hopp ecx vp.exit_context.ecx).1 fun heq => ?_
  have hfst := congrArg Prod.fst heq
  exact (hopp ecx vp.exit_context.ecx).2 hfst

/-- C15, at a write of MSR `0xC0000080` on a zeroed handler. -/
theorem handle_msr_bucket_witness :
    trace_ok 64 sample_dims sample_handler ∧ 0 < 1 ∧
      (sample_vp exit_reason.execute_wrmsr 0 0xC0000080 0).exit_reason
        = (if true then exit_reason.execute_wrmsr else exit_reason.execute_rdmsr) ∧
      exit_reason.execute_wrmsr < sample_dims.vmexit ∧
      (0x2000 ≤ sample_dims.rdmsr_0 ∧ 0x2000 ≤ sample_dims.rdmsr_c ∧
        0x2000 ≤ sample_dims.wrmsr_0 ∧ 0x2000 ≤ sample_dims.wrmsr_c) ∧
      ((∃ res, handle 64 sample_dims 1 0 sample_handler
          (sample_vp exit_reason.execute_wrmsr 0 0xC0000080 0) [] = some res ∧
        res.handler.storage_ 0
            (msr_counter true
              (sample_vp exit_reason.execute_wrmsr 0 0xC0000080 0).exit_context.ecx).1
            (msr_counter true
              (sample_vp exit_reason.execute_wrmsr 0 0xC0000080 0).exit_context.ecx).2
          = (sample_handler.storage_ 0
            (msr_counter true
              (sample_vp exit_reason.execute_wrmsr 0 0xC0000080 0).exit_context.ecx).1
            (msr_counter true
              (sample_vp exit_reason.execute_wrmsr 0 0xC0000080 0).exit_context.ecx).2
            + 1) % 2 ^ 32 ∧
        (∀ f i, f ≠ .vmexit →
          (f, i) ≠ msr_counter true
            (sample_vp exit_reason.execute_wrmsr 0 0xC0000080 0).exit_context.ecx →
          res.handler.storage_ 0 f i = sample_handler.storage_ 0 f i) ∧
        ∀ ecx i, res.handler.storage_ 0 (msr_counter (!true) ecx).1 i
          = sample_handler.storage_ 0 (msr_counter (!true) ecx).1 i) ∧
      msr_counter true 0xC0000080 = (.wrmsr_c, 0x80) ∧
      msr_counter false 0x00000010 = (.rdmsr_0, 0x10)) :=
  ⟨by decide, by decide, by decide, by decide, by decide,
    handle_msr_bucket 64 sample_dims 1 0 sample_handler
      (sample_vp exit_reason.execute_wrmsr 0 0xC0000080 0) [] true (by decide) (by decide)
      (by decide) (by decide) (by decide)⟩

theorem storage_merge_right_comm (d : stats_dims) (a x y : vmexit_stats_storage_t) :
    storage_merge d (storage_merge d a x) y = storage_merge d (storage_merge d a y) x := by
  funext f i
  simp only [storage_merge_apply, u32_add]
  by_cases hi : i < d.size f
  · simp only [if_pos hi]
    omega
  · simp only [if_neg hi]

theorem foldl_merge_perm (d : stats_dims) {l1 l2 : List vmexit_stats_storage_t}
    (hperm : l1.Perm l2) : ∀ init : vmexit_stats_storage_t,
      l1.foldl (storage_merge d) init = l2.foldl (storage_merge d) init := by
  induction hperm with
  | nil => intro init; rfl
  | cons x _ ih => intro init; exact ih (storage_merge d init x)
  | swap x y l =>
    intro init
    simp only [List.foldl_cons]
    rw [storage_merge_right_comm]
  | trans _ _ ih1 ih2 => intro init; rw [ih1 init, ih2 init]

/-- C16: `storage_merge` as a binary operation on statistics blocks (the
result is `lhs` after the call) is commutative and associative and has the
all-zero block as identity on both sides; every counter of the result, in the
coarse array, in every secondary array and in the scalars, is the sum of the
two counters in `uint32_t` arithmetic, the plain sum when it is below
`2 ^ 32`; and merging the blocks of a list into the zero block gives the same
aggregate for every order of the list. -/
theorem storage_merge_algebra (d : stats_dims) (a b c : vmexit_stats_storage_t)
    (blocks reordered : List vmexit_stats_storage_t)
    (ha : storage_valid d a) (hb : storage_valid d b) (hperm : blocks.Perm reordered) :
    storage_merge d a b = storage_merge d b a ∧
    storage_merge d (storage_merge d a b) c = storage_merge d a (storage_merge d b c) ∧
    storage_merge d a storage_zero = a ∧
    storage_merge d storage_zero a = a ∧
    (∀ f i, i < d.size f → storage_merge d a b f i = (a f i + b f i) % 2 ^ 32 ∧
      (a f i + b f i < 2 ^ 32 → storage_merge d a b f i = a f i + b f i)) ∧
    blocks.foldl (storage_merge d) storage_zero
      = reordered.foldl (storage_merge d) storage_zero := by
  refine ⟨?_, ?_, ?_, ?_, fun f i hi => ?_, foldl_merge_perm d hperm storage_zero⟩
  · funext f i
    simp only [storage_merge_apply, u32_add]
    by_cases hi : i < d.size f
    · simp only [if_pos hi]
      rw [Nat.add_comm]
    · simp only [if_neg hi]
      rw [(ha f i).2 (by omega), (hb f i).2 (by omega)]
  · funext f i
    simp only [storage_merge_apply, u32_add]
    by_cases hi : i < d.size f
    · simp only [if_pos hi]
      omega
    · simp only [if_neg hi]
  · funext f i
    simp only [storage_merge_apply, u32_add, storage_zero, Nat.add_zero]
    by_cases hi : i < d.size f
    · rw [if_pos hi]
      exact Nat.mod_eq_of_lt (ha f i).1
    · rw [if_neg hi]
  · funext f i
    simp only [storage_merge_apply, u32_add, storage_zero, Nat.zero_add]
    by_cases hi : i < d.size f
    · rw [if_pos hi]
      exact Nat.mod_eq_of_lt (ha f i).1
    · rw [if_neg hi]
      exact ((ha f i).2 (by omega)).symm
  · rw [storage_merge_apply, if_pos hi]
    exact ⟨rfl, fun hlt => Nat.mod_eq_of_lt hlt⟩

/-- C16, at two blocks that each hold the counters of one trap. -/
theorem storage_merge_algebra_witness :
    storage_valid sample_dims
        (bumped storage_zero .vmexit exit_reason.execute_cpuid) ∧
      storage_valid sample_dims (bumped storage_zero .cpuid_0 1) ∧
      [bumped storage_zero .vmexit exit_reason.execute_cpuid,
          bumped storage_zero .cpuid_0 1].Perm
        [bumped storage_zero .cpuid_0 1,
          bumped storage_zero .vmexit exit_reason.execute_cpuid] ∧
      (storage_merge sample_dims (bumped storage_zero .vmexit exit_reason.execute_cpuid)
          (bumped storage_zero .cpuid_0 1)
        = storage_merge sample_dims (bumped storage_zero .cpuid_0 1)
          (bumped storage_zero .vmexit exit_reason.execute_cpuid) ∧
      storage_merge sample_dims
          (storage_merge sample_dims (bumped storage_zero .vmexit exit_reason.execute_cpuid)
            (bumped storage_zero .cpuid_0 1)) (bumped storage_zero .clts 0)
        = storage_merge sample_dims (bumped storage_zero .vmexit exit_reason.execute_cpuid)
          (storage_merge sample_dims (bumped storage_zero .cpuid_0 1)
            (bumped storage_zero .clts 0)) ∧
      storage_merge sample_dims (bumped storage_zero .vmexit exit_reason.execute_cpuid)
          storage_zero
        = bumped storage_zero .vmexit exit_reason.execute_cpuid ∧
      storage_merge sample_dims storage_zero
          (bumped storage_zero .vmexit exit_reason.execute_cpuid)
        = bumped storage_zero .vmexit exit_reason.execute_cpuid ∧
      (∀ f i, i < sample_dims.size f →
        storage_merge sample_dims (bumped storage_zero .vmexit exit_reason.execute_cpuid)
            (bumped storage_zero .cpuid_0 1) f i
          = (bumped storage_zero .vmexit exit_reason.execute_cpuid f i
            + bumped storage_zero .cpuid_0 1 f i) % 2 ^ 32 ∧
        (bumped storage_zero .vmexit exit_reason.execute_cpuid f i
            + bumped storage_zero .cpuid_0 1 f i < 2 ^ 32 →
          storage_merge sample_dims (bumped storage_zero .vmexit exit_reason.execute_cpuid)
              (bumped storage_zero .cpuid_0 1) f i
            = bumped storage_zero .vmexit exit_reason.execute_cpuid f i
              + bumped storage_zero .cpuid_0 1 f i)) ∧
      [bumped storage_zero .vmexit exit_reason.execute_cpuid,
          bumped storage_zero .cpuid_0 1].foldl (storage_merge sample_dims) storage_zero
        = [bumped storage_zero .cpuid_0 1,
          bumped storage_zero .vmexit exit_reason.execute_cpuid].foldl
            (storage_merge sample_dims) storage_zero) :=
  ⟨bumped_valid (storage_zero_valid sample_dims) (by decide),
    bumped_valid (storage_zero_valid sample_dims) (by decide),
    List.Perm.swap _ _ [],
    storage_merge_algebra sample_dims (bumped storage_zero .vmexit exit_reason.execute_cpuid)
      (bumped storage_zero .cpuid_0 1) (bumped storage_zero .clts 0) _ _
      (bumped_valid (storage_zero_valid sample_dims) (by decide))
      (bumped_valid (storage_zero_valid sample_dims) (by decide))
      (List.Perm.swap _ _ [])⟩

theorem tally_all_replicate (d : stats_dims) (e : event) (f : stats_field) (i : Nat) :
    ∀ n, tally_all d (List.replicate n e) f i = n * hits d e.2 f i
  | 0 => by rw [List.replicate_zero, Nat.zero_mul]; rfl
  | n + 1 => by
    rw [List.replicate_succ]
    show hits d e.2 f i + tally_all d (List.replicate n e) f i = (n + 1) * hits d e.2 f i
    rw [tally_all_replicate d e f i n, Nat.add_mul, Nat.one_mul, Nat.add_comm]

/-- After `n` copies of one trap, with `n` a multiple of `2 ^ 32`, the coarse
counters of the aggregate add up to zero. -/
theorem replicate_coarse_sum {W : Nat} {d : stats_dims} {cpu_count : Nat}
    {h0 : vmexit_stats_handler} (hok : trace_ok W d h0)
    (hzero : ∀ q, h0.storage_ q = storage_zero) (e : event) (he : e.1 < cpu_count)
    (hfit : trap_fits d e.2) (n : Nat) (hn : n % 2 ^ 32 = 0) :
    ∃ h1 log1, handle_all W d cpu_count (List.replicate n e) h0 [] = some (h1, log1) ∧
      sum_below ((dump d cpu_count h1).1.storage_merged_ .vmexit) d.vmexit = 0 := by
  have hfits : events_fit d cpu_count (List.replicate n e) := by
    intro x hx
    rw [List.eq_of_mem_replicate hx]
    exact ⟨he, hfit⟩
  obtain ⟨h1, log1, _, _, hrun, _, _, hagg⟩ := aggregate_spec hok hzero _ hfits he []
  refine ⟨h1, log1, hrun, ?_⟩
  have hpt : ∀ i, i < d.vmexit →
      (dump d cpu_count h1).1.storage_merged_ .vmexit i = (fun _ => 0) i := by
    intro i hi
    rw [hagg .vmexit i hi, tally_all_replicate, Nat.mul_mod, hn, Nat.zero_mul]
    rfl
  rw [sum_below_congr d.vmexit hpt]
  exact sum_below_zero _

/-- C17, the counterexample: after `2 ^ 32` `invd` traps on one processor,
from zeroed blocks, the coarse counters of the aggregate of `dump` add up to
0, not to the number of traps handled. -/
theorem aggregate_coarse_sum_wraps :
    ∃ h1 log1,
      handle_all 64 sample_dims 1
          (List.replicate (2 ^ 32) (0, sample_vp exit_reason.execute_invd 0 0 0))
          sample_handler [] = some (h1, log1) ∧
        sum_below ((dump sample_dims 1 h1).1.storage_merged_ .vmexit) sample_dims.vmexit
          = 0 ∧
        (List.replicate (2 ^ 32) (0, sample_vp exit_reason.execute_invd 0 0 0)).length
          = 4294967296 := by
  obtain ⟨h1, log1, hrun, hsum⟩ :=
    @replicate_coarse_sum 64 sample_dims 1 sample_handler (by decide) (fun _ => rfl)
      (0, sample_vp exit_reason.execute_invd 0 0 0) (by decide) (by decide) (2 ^ 32)
      (Nat.mod_self _)
  exact ⟨h1, log1, hrun, hsum, List.length_replicate _ _⟩

/-- C17 amended: for every sequence of traps that fit, assigned in any way
to the processors below `cpu_count`, from zeroed blocks: handling them
returns, the aggregate that `dump` computes equals the block of processor
`p0` after the same traps all handled on `p0`, every counter of it is the
number of traps that count in it modulo `2 ^ 32`, and, when fewer than
`2 ^ 32` traps were handled, its coarse counters add up to the number of
traps. -/
theorem dump_aggregate_of_traps (W : Nat) (d : stats_dims) (cpu_count : Nat)
    (h0 : vmexit_stats_handler) (events : List event) (p0 : Nat) (log : List trace_line)
    (hok : trace_ok W d h0) (hzero : ∀ q, h0.storage_ q = storage_zero)
    (hfit : events_fit d cpu_count events) (hp0 : p0 < cpu_count) :
    ∃ h1 log1 h2 log2, handle_all W d cpu_count events h0 log = some (h1, log1) ∧
      handle_all W d cpu_count (events.map fun e => (p0, e.2)) h0 log = some (h2, log2) ∧
      (dump d cpu_count h1).1.storage_merged_ = h2.storage_ p0 ∧
      (∀ f i, i < d.size f →
        (dump d cpu_count h1).1.storage_merged_ f i = tally_all d events f i % 2 ^ 32) ∧
      (events.length < 2 ^ 32 →
        sum_below ((dump d cpu_count h1).1.storage_merged_ .vmexit) d.vmexit
          = events.length) := by
  obtain ⟨h1, log1, h2, log2, hrun1, hrun2, hsame, hagg⟩ :=
    aggregate_spec hok hzero events hfit hp0 log
  refine ⟨h1, log1, h2, log2, hrun1, hrun2, hsame, hagg, fun hlen => ?_⟩
  have hcoarse := tally_all_coarse d d.vmexit events (fun e he => (hfit e he).2.1)
  have hpt : ∀ i, i < d.vmexit →
      (dump d cpu_count h1).1.storage_merged_ .vmexit i
        = (fun i => tally_all d events .vmexit i) i := by
    intro i hi
    rw [hagg .vmexit i hi]
    have hle : tally_all d events .vmexit i
        ≤ sum_below (fun i => tally_all d events .vmexit i) d.vmexit :=
      sum_below_le_of_term (fun i => tally_all d events .vmexit i) d.vmexit i hi
    exact Nat.mod_eq_of_lt (by omega)
  rw [sum_below_congr d.vmexit hpt]
  exact hcoarse

/-- C17 amended, at three traps spread over two processors. -/
theorem dump_aggregate_of_traps_witness :
    trace_ok 64 sample_dims sample_handler ∧
      (∀ q, sample_handler.storage_ q = storage_zero) ∧
      events_fit sample_dims 2
        [(0, sample_vp exit_reason.execute_invd 0 0 0),
          (1, sample_vp exit_reason.execute_cpuid 1 0 0),
          (0, sample_vp exit_reason.execute_cpuid 1 0 0)] ∧
      1 < 2 ∧
      ∃ h1 log1 h2 log2,
        handle_all 64 sample_dims 2
            [(0, sample_vp exit_reason.execute_invd 0 0 0),
              (1, sample_vp exit_reason.execute_cpuid 1 0 0),
              (0, sample_vp exit_reason.execute_cpuid 1 0 0)] sample_handler []
          = some (h1, log1) ∧
        handle_all 64 sample_dims 2
            ([(0, sample_vp exit_reason.execute_invd 0 0 0),
              (1, sample_vp exit_reason.execute_cpuid 1 0 0),
              (0, sample_vp exit_reason.execute_cpuid 1 0 0)].map fun e => (1, e.2))
            sample_handler []
          = some (h2, log2) ∧
        (dump sample_dims 2 h1).1.storage_merged_ = h2.storage_ 1 ∧
        (∀ f i, i < sample_dims.size f →
          (dump sample_dims 2 h1).1.storage_merged_ f i
            = tally_all sample_dims
              [(0, sample_vp exit_reason.execute_invd 0 0 0),
                (1, sample_vp exit_reason.execute_cpuid 1 0 0),
                (0, sample_vp exit_reason.execute_cpuid 1 0 0)] f i % 2 ^ 32) ∧
        ([(0, sample_vp exit_reason.execute_invd 0 0 0),
            (1, sample_vp exit_reason.execute_cpuid 1 0 0),
            (0, sample_vp exit_reason.execute_cpuid 1 0 0)].length < 2 ^ 32 →
          sum_below ((dump sample_dims 2 h1).1.storage_merged_ .vmexit) sample_dims.vmexit
            = [(0, sample_vp exit_reason.execute_invd 0 0 0),
              (1, sample_vp exit_reason.execute_cpuid 1 0 0),
              (0, sample_vp exit_reason.execute_cpuid 1 0 0)].length) :=
  ⟨by decide, fun _ => rfl, by decide, by decide,
    dump_aggregate_of_traps 64 sample_dims 2 sample_handler
      [(0, sample_vp exit_reason.execute_invd 0 0 0),
        (1, sample_vp exit_reason.execute_cpuid 1 0 0),
        (0, sample_vp exit_reason.execute_cpuid 1 0 0)] 1 [] (by decide) (fun _ => rfl)
      (by decide) (by decide)⟩

/-- C18, the failing inputs.  The aggregate with one `clts` trap counted
(`vmexit[mov_cr] = 1`, `clts = 1`, `lmsw = 0`) is reported without a `clts`
line although the counter is 1; the aggregate with one `lmsw` trap counted
(`vmexit[mov_cr] = 1`, `lmsw = 1`, `clts = 0`) is reported with a `clts` line
of value 0.  The first aggregate is the one `dump` computes after `handle`
has run for one `clts` trap, the second after one `lmsw` trap. -/
theorem storage_dump_clts_line :
    storage_dump sample_dims
        (bumped (bumped storage_zero .vmexit exit_reason.mov_cr) .clts 0)
      = [report_line.header, report_line.counter .vmexit exit_reason.mov_cr 1] ∧
    bumped (bumped storage_zero .vmexit exit_reason.mov_cr) .clts 0 .clts 0 = 1 ∧
    storage_dump sample_dims
        (bumped (bumped storage_zero .vmexit exit_reason.mov_cr) .lmsw 0)
      = [report_line.header, report_line.counter .vmexit exit_reason.mov_cr 1,
          report_line.counter .clts 0 0, report_line.counter .lmsw 0 1] ∧
    ((handle 64 sample_dims 1 0 sample_handler
        (sample_vp exit_reason.mov_cr 0 0 access_clts) []).map
          fun res => (dump sample_dims 1 res.handler).2)
      = some [report_line.header, report_line.counter .vmexit exit_reason.mov_cr 1] ∧
    ((handle 64 sample_dims 1 0 sample_handler
        (sample_vp exit_reason.mov_cr 0 0 access_lmsw) []).map
          fun res => (dump sample_dims 1 res.handler).2)
      = some [report_line.header, report_line.counter .vmexit exit_reason.mov_cr 1,
          report_line.counter .clts 0 0, report_line.counter .lmsw 0 1] := by
  refine ⟨by decide, by decide, by decide, by decide, by decide⟩

/-- C19: for every handler state with a well-formed trace bit vector,
whatever reasons it enables, and every trap that fits the counter arrays,
`handle` returns and the context after the call is the context before it:
the same exit reason, qualification, interrupt info, instruction info and
guest registers. -/
theorem handle_keeps_context (W : Nat) (d : stats_dims) (cpu_count cpu_index : Nat)
    (h : vmexit_stats_handler) (vp : vcpu_t) (log : List trace_line)
    (hok : trace_ok W d h) (hp : cpu_index < cpu_count) (hfit : trap_fits d vp) :
    ∃ res, handle W d cpu_count cpu_index h vp log = some res ∧ res.vp = vp ∧
      res.vp.exit_reason = vp.exit_reason ∧
      res.vp.exit_qualification = vp.exit_qualification ∧
      res.vp.exit_interrupt_info = vp.exit_interrupt_info ∧
      res.vp.exit_instruction_info = vp.exit_instruction_info ∧
      ∀ r, res.vp.exit_context.gp_register r = vp.exit_context.gp_register r := by
  obtain ⟨res, hres, hvp, _⟩ := handle_spec hok hp hfit log
  refine ⟨res, hres, hvp, ?_, ?_, ?_, ?_, fun r => ?_⟩ <;> rw [hvp]

/-- C19, at a `cpuid` trap on a handler that traces every reason. -/
theorem handle_keeps_context_witness :
    trace_ok 64 sample_dims sample_full_handler ∧ 0 < 1 ∧
      trap_fits sample_dims (sample_vp exit_reason.execute_cpuid 1 2 0) ∧
      ∃ res, handle 64 sample_dims 1 0 sample_full_handler
          (sample_vp exit_reason.execute_cpuid 1 2 0) [] = some res ∧
        res.vp = sample_vp exit_reason.execute_cpuid 1 2 0 ∧
        res.vp.exit_reason = (sample_vp exit_reason.execute_cpuid 1 2 0).exit_reason ∧
        res.vp.exit_qualification
          = (sample_vp exit_reason.execute_cpuid 1 2 0).exit_qualification ∧
        res.vp.exit_interrupt_info
          = (sample_vp exit_reason.execute_cpuid 1 2 0).exit_interrupt_info ∧
        res.vp.exit_instruction_info
          = (sample_vp exit_reason.execute_cpuid 1 2 0).exit_instruction_info ∧
        ∀ r, res.vp.exit_context.gp_register r
          = (sample_vp exit_reason.execute_cpuid 1 2 0).exit_context.gp_register r :=
  ⟨by decide, by decide, by decide,
    handle_keeps_context 64 sample_dims 1 0 sample_full_handler
      (sample_vp exit_reason.execute_cpuid 1 2 0) [] (by decide) (by decide) (by decide)⟩

/-- C20: each of the twelve nested-virtualization hooks of the passthrough
handler, on every processor state, is the shared fallback
`handle_vm_fallback`: it injects one fault into the guest and leaves the
host virtualization state as it was. -/
theorem vm_instruction_hooks_fall_back (host_state_t : Type) :
    (vm_instruction_hooks host_state_t).length = 12 ∧
    ∀ hook ∈ vm_instruction_hooks host_state_t,
      ∀ (fault : guest_fault) (vp : passthrough_vcpu_t host_state_t),
        hook fault vp = handle_vm_fallback fault vp ∧
        (hook fault vp).injected = vp.injected ++ [fault] ∧
        (hook fault vp).host_state = vp.host_state := by
  refine ⟨rfl, fun hook hmem fault vp => ?_⟩
  simp only [vm_instruction_hooks, List.mem_cons, List.mem_singleton, List.not_mem_nil,
    or_false] at hmem
  rcases hmem with h | h | h | h | h | h | h | h | h | h | h | h <;> subst h <;>
    exact ⟨rfl, rfl, rfl⟩

/-- C22: for a control-register, debug-register, I/O or descriptor-table
trap whose qualification has one of the access types that `handle`
distinguishes, `handle` returns and increments exactly one secondary
counter `c`, every other secondary counter staying as it was:
`mov_to_cr[cr_number]` or `mov_from_cr[cr_number]` for a control-register
write or read, `clts` or `lmsw` for those sub-opcodes, `mov_to_dr[dr_number]`
or `mov_from_dr[dr_number]` for a debug-register write or read,
`io_out[port_number]` or `io_in[port_number]` for I/O, and
`gdtr_idtr[instruction]` or `ldtr_tr[instruction]` for descriptor-table
traps. -/
theorem handle_register_counter (W : Nat) (d : stats_dims) (cpu_count cpu_index : Nat)
    (h : vmexit_stats_handler) (vp : vcpu_t) (log : List trace_line)
    (c : stats_field × Nat)
    (hok : trace_ok W d h) (hp : cpu_index < cpu_count) (hr : vp.exit_reason < d.vmexit)
    (hc : c.2 < d.size c.1)
    (hcase :
      (vp.exit_reason = exit_reason.mov_cr ∧
        vp.exit_qualification.mov_cr.access_type = access_to_cr ∧
        c = (.mov_to_cr, vp.exit_qualification.mov_cr.cr_number)) ∨
      (vp.exit_reason = exit_reason.mov_cr ∧
        vp.exit_qualification.mov_cr.access_type = access_from_cr ∧
        c = (.mov_from_cr, vp.exit_qualification.mov_cr.cr_number)) ∨
      (vp.exit_reason = exit_reason.mov_cr ∧
        vp.exit_qualification.mov_cr.access_type = access_clts ∧ c = (.clts, 0)) ∨
      (vp.exit_reason = exit_reason.mov_cr ∧
        vp.exit_qualification.mov_cr.access_type = access_lmsw ∧ c = (.lmsw, 0)) ∨
      (vp.exit_reason = exit_reason.mov_dr ∧
        vp.exit_qualification.mov_dr.access_type = access_to_dr ∧
        c = (.mov_to_dr, vp.exit_qualification.mov_dr.dr_number)) ∨
      (vp.exit_reason = exit_reason.mov_dr ∧
        vp.exit_qualification.mov_dr.access_type = access_from_dr ∧
        c = (.mov_from_dr, vp.exit_qualification.mov_dr.dr_number)) ∨
      (vp.exit_reason = exit_reason.execute_io_instruction ∧
        vp.exit_qualification.io_instruction.access_type = access_out ∧
        c = (.io_out, vp.exit_qualification.io_instruction.port_number)) ∨
      (vp.exit_reason = exit_reason.execute_io_instruction ∧
        vp.exit_qualification.io_instruction.access_type = access_in ∧
        c = (.io_in, vp.exit_qualification.io_instruction.port_number)) ∨
      (vp.exit_reason = exit_reason.gdtr_idtr_access ∧
        c = (.gdtr_idtr, vp.exit_instruction_info.gdtr_idtr_access_instruction)) ∨
      (vp.exit_reason = exit_reason.ldtr_tr_access ∧
        c = (.ldtr_tr, vp.exit_instruction_info.ldtr_tr_access_instruction))) :
    ∃ res, handle W d cpu_count cpu_index h vp log = some res ∧
      res.handler.storage_ cpu_index c.1 c.2
        = (h.storage_ cpu_index c.1 c.2 + 1) % 2 ^ 32 ∧
      ∀ f i, f ≠ .vmexit → (f, i) ≠ c →
        res.handler.storage_ cpu_index f i = h.storage_ cpu_index f i := by
  have hsec : secondary_counter d vp = some c := by
    unfold secondary_counter
    rcases hcase with ⟨h1, h2, h3⟩ | ⟨h1, h2, h3⟩ | ⟨h1, h2, h3⟩ | ⟨h1, h2, h3⟩ |
      ⟨h1, h2, h3⟩ | ⟨h1, h2, h3⟩ | ⟨h1, h2, h3⟩ | ⟨h1, h2, h3⟩ | ⟨h1, h3⟩ |
      ⟨h1, h3⟩
    all_goals first
      | simp +decide only [h1, h2, h3, if_true, if_false]
      | simp +decide only [h1, h3, if_true, if_false]
  exact selected_counter log hok hp hr hsec hc

/-- C22, at a `clts` trap on a zeroed handler. -/
theorem handle_register_counter_witness :
    trace_ok 64 sample_dims sample_handler ∧ 0 < 1 ∧
      sample_clts.exit_reason < sample_dims.vmexit ∧
      (stats_field.clts, 0).2 < sample_dims.size (stats_field.clts, 0).1 ∧
      ((sample_clts.exit_reason = exit_reason.mov_cr ∧
          sample_clts.exit_qualification.mov_cr.access_type = access_to_cr ∧
          (stats_field.clts, 0) = (.mov_to_cr, sample_clts.exit_qualification.mov_cr.cr_number)) ∨
        (sample_clts.exit_reason = exit_reason.mov_cr ∧
          sample_clts.exit_qualification.mov_cr.access_type = access_from_cr ∧
          (stats_field.clts, 0) = (.mov_from_cr, sample_clts.exit_qualification.mov_cr.cr_number)) ∨
        (sample_clts.exit_reason = exit_reason.mov_cr ∧
          sample_clts.exit_qualification.mov_cr.access_type = access_clts ∧
          (stats_field.clts, 0) = (.clts, 0)) ∨
        (sample_clts.exit_reason = exit_reason.mov_cr ∧
          sample_clts.exit_qualification.mov_cr.access_type = access_lmsw ∧
          (stats_field.clts, 0) = (.lmsw, 0)) ∨
        (sample_clts.exit_reason = exit_reason.mov_dr ∧
          sample_clts.exit_qualification.mov_dr.access_type = access_to_dr ∧
          (stats_field.clts, 0) = (.mov_to_dr, sample_clts.exit_qualification.mov_dr.dr_number)) ∨
        (sample_clts.exit_reason = exit_reason.mov_dr ∧
          sample_clts.exit_qualification.mov_dr.access_type = access_from_dr ∧
          (stats_field.clts, 0) = (.mov_from_dr, sample_clts.exit_qualification.mov_dr.dr_number)) ∨
        (sample_clts.exit_reason = exit_reason.execute_io_instruction ∧
          sample_clts.exit_qualification.io_instruction.access_type = access_out ∧
          (stats_field.clts, 0) =
            (.io_out, sample_clts.exit_qualification.io_instruction.port_number)) ∨
        (sample_clts.exit_reason = exit_reason.execute_io_instruction ∧
          sample_clts.exit_qualification.io_instruction.access_type = access_in ∧
          (stats_field.clts, 0) =
            (.io_in, sample_clts.exit_qualification.io_instruction.port_number)) ∨
        (sample_clts.exit_reason = exit_reason.gdtr_idtr_access ∧
          (stats_field.clts, 0) =
            (.gdtr_idtr, sample_clts.exit_instruction_info.gdtr_idtr_access_instruction)) ∨
        (sample_clts.exit_reason = exit_reason.ldtr_tr_access ∧
          (stats_field.clts, 0) =
            (.ldtr_tr, sample_clts.exit_instruction_info.ldtr_tr_access_instruction))) ∧
      ∃ res, handle 64 sample_dims 1 0 sample_handler sample_clts [] = some res ∧
        res.handler.storage_ 0 (stats_field.clts, 0).1 (stats_field.clts, 0).2
          = (sample_handler.storage_ 0 (stats_field.clts, 0).1 (stats_field.clts, 0).2 + 1)
            % 2 ^ 32 ∧
        ∀ f i, f ≠ .vmexit → (f, i) ≠ (stats_field.clts, 0) →
          res.handler.storage_ 0 f i = sample_handler.storage_ 0 f i :=
  ⟨by decide, by decide, by decide, by decide, by decide,
    handle_register_counter 64 sample_dims 1 0 sample_handler sample_clts [] (.clts, 0)
      (by decide) (by decide) (by decide) (by decide) (by decide)⟩

/-- C23: for every handler state, `dump()` leaves every per-processor block
and the trace bit vector as they were; the aggregate after it is the sum of
the blocks of the processors below `cpu_count` in `uint32_t` arithmetic,
whatever the aggregate held before (`previous`); and a second `dump()` with
no `handle` in between computes the same aggregate and writes the same
report as the first. -/
theorem dump_recomputes_aggregate (d : stats_dims) (cpu_count : Nat)
    (h : vmexit_stats_handler) (previous : vmexit_stats_storage_t) :
    (dump d cpu_count h).1.storage_ = h.storage_ ∧
    (dump d cpu_count h).1.vmexit_trace_bitmap_ = h.vmexit_trace_bitmap_ ∧
    (∀ f i, (dump d cpu_count h).1.storage_merged_ f i
      = if i < d.size f then sum_below (fun q => h.storage_ q f i) cpu_count % 2 ^ 32
        else 0) ∧
    (dump d cpu_count { h with storage_merged_ := previous }).1.storage_merged_
      = (dump d cpu_count h).1.storage_merged_ ∧
    (dump d cpu_count { h with storage_merged_ := previous }).2 = (dump d cpu_count h).2 ∧
    (dump d cpu_count (dump d cpu_count h).1).1.storage_merged_
      = (dump d cpu_count h).1.storage_merged_ ∧
    (dump d cpu_count (dump d cpu_count h).1).2 = (dump d cpu_count h).2 :=
  ⟨rfl, rfl, fun f i => merged_apply d h.storage_ f i cpu_count, rfl, rfl, rfl, rfl⟩

/-! ## The buckets of a reason partition its coarse counter -/

theorem secondary_reason (d : stats_dims) (vp : vcpu_t) (c : stats_field × Nat)
    (h : secondary_counter d vp = some c) : field_reason c.1 = some vp.exit_reason := by
  have key : (secondary_counter d vp).all
      (fun c => decide (field_reason c.1 = some vp.exit_reason)) = true := by
    unfold secondary_counter
    by_cases h_exception_or_nmi : vp.exit_reason = exit_reason.exception_or_nmi
    · simp only [if_pos h_exception_or_nmi]
      split_ifs <;> simp [field_reason, h_exception_or_nmi]
    simp only [if_neg h_exception_or_nmi]
    by_cases h_execute_cpuid : vp.exit_reason = exit_reason.execute_cpuid
    · simp only [if_pos h_execute_cpuid]
      split_ifs <;> simp [field_reason, h_execute_cpuid]
    simp only [if_neg h_execute_cpuid]
    by_cases h_mov_cr : vp.exit_reason = exit_reason.mov_cr
    · simp only [if_pos h_mov_cr]
      split_ifs <;> simp [field_reason, h_mov_cr]
    simp only [if_neg h_mov_cr]
    by_cases h_mov_dr : vp.exit_reason = exit_reason.mov_dr
    · simp only [if_pos h_mov_dr]
      split_ifs <;> simp [field_reason, h_mov_dr]
    simp only [if_neg h_mov_dr]
    by_cases h_execute_io_instruction : vp.exit_reason = exit_reason.execute_io_instruction
    · simp only [if_pos h_execute_io_instruction]
      split_ifs <;> simp [field_reason, h_execute_io_instruction]
    simp only [if_neg h_execute_io_instruction]
    by_cases h_execute_rdmsr : vp.exit_reason = exit_reason.execute_rdmsr
    · simp only [if_pos h_execute_rdmsr]
      split_ifs <;> simp [field_reason, h_execute_rdmsr]
    simp only [if_neg h_execute_rdmsr]
    by_cases h_execute_wrmsr : vp.exit_reason = exit_reason.execute_wrmsr
    · simp only [if_pos h_execute_wrmsr]
      split_ifs <;> simp [field_reason, h_execute_wrmsr]
    simp only [if_neg h_execute_wrmsr]
    by_cases h_gdtr_idtr_access : vp.exit_reason = exit_reason.gdtr_idtr_access
    · simp only [if_pos h_gdtr_idtr_access]
      simp [field_reason, h_gdtr_idtr_access]
    simp only [if_neg h_gdtr_idtr_access]
    by_cases h_ldtr_tr_access : vp.exit_reason = exit_reason.ldtr_tr_access
    · simp only [if_pos h_ldtr_tr_access]
      simp [field_reason, h_ldtr_tr_access]
    simp only [if_neg h_ldtr_tr_access]
    rfl
  rw [h] at key
  exact of_decide_eq_true key

theorem secondary_of_cpuid (d : stats_dims) (vp : vcpu_t)
    (hr : vp.exit_reason = exit_reason.execute_cpuid) :
    ∃ c, secondary_counter d vp = some c ∧
      (c.1 = .cpuid_0 ∨ c.1 = .cpuid_8 ∨ c.1 = .cpuid_other) := by
  unfold secondary_counter
  simp +decide only [hr, if_true, if_false]
  split_ifs
  · exact ⟨_, rfl, Or.inl rfl⟩
  · exact ⟨_, rfl, Or.inr (Or.inl rfl)⟩
  · exact ⟨_, rfl, Or.inr (Or.inr rfl)⟩

theorem msr_bucket_field (low high other : stats_field) (ecx : Nat) :
    (msr_bucket low high other ecx).1 = low ∨ (msr_bucket low high other ecx).1 = high ∨
      (msr_bucket low high other ecx).1 = other := by
  unfold msr_bucket
  split_ifs
  · exact Or.inl rfl
  · exact Or.inr (Or.inl rfl)
  · exact Or.inr (Or.inr rfl)

theorem hits_secondary (d : stats_dims) (vp : vcpu_t) {f : stats_field}
    (hf : f ≠ .vmexit) (i : Nat) :
    hits d vp f i = if secondary_counter d vp = some (f, i) then 1 else 0 := by
  unfold hits
  rw [if_neg (fun hc => hf hc.1), Nat.zero_add]

theorem sum_hits_none (d : stats_dims) (vp : vcpu_t) {f : stats_field}
    (hf : f ≠ .vmexit) (hs : secondary_counter d vp = none) (n : Nat) :
    sum_below (hits d vp f) n = 0 := by
  have hpt : ∀ i, i < n → hits d vp f i = (fun _ => 0) i := by
    intro i _
    rw [hits_secondary d vp hf, hs, if_neg (fun hc => Option.noConfusion hc)]
  rw [sum_below_congr n hpt]
  exact sum_below_zero n

theorem sum_hits_some (d : stats_dims) (vp : vcpu_t) {f : stats_field}
    (hf : f ≠ .vmexit) {c : stats_field × Nat} (hs : secondary_counter d vp = some c)
    (hc : c.2 < d.size c.1) :
    sum_below (hits d vp f) (d.size f) = if c.1 = f then 1 else 0 := by
  obtain ⟨c1, c2⟩ := c
  by_cases h1 : c1 = f
  · subst h1
    have hpt : ∀ i, i < d.size c1 →
        hits d vp c1 i = (fun q => if c2 = q then 1 else 0) i := by
      intro i _
      rw [hits_secondary d vp hf, hs]
      by_cases h2 : c2 = i
      · subst h2
        simp only [if_true]
      · show (if some (c1, c2) = some (c1, i) then 1 else 0) = if c2 = i then 1 else 0
        rw [if_neg h2, if_neg]
        intro heq
        exact h2 (congrArg Prod.snd (Option.some.inj heq))
    rw [sum_below_congr _ hpt, sum_below_single, if_pos hc, if_pos rfl]
  · have hpt : ∀ i, i < d.size f → hits d vp f i = (fun _ => 0) i := by
      intro i _
      rw [hits_secondary d vp hf, hs, if_neg]
      intro heq
      exact h1 (congrArg Prod.fst (Option.some.inj heq))
    rw [sum_below_congr _ hpt, if_neg h1]
    exact sum_below_zero _

/-- One trap that fits counts once in the buckets of its reason and once in
the coarse counter of it, and in neither for another reason. -/
theorem hits_partition {d : stats_dims} {vp : vcpu_t} (hfit : trap_fits d vp)
    {low high other : stats_field} {reason : Nat}
    (hdist : low ≠ high ∧ low ≠ other ∧ high ≠ other)
    (hnv : low ≠ .vmexit ∧ high ≠ .vmexit ∧ other ≠ .vmexit) (hso : d.size other = 1)
    (hto : ∀ c, secondary_counter d vp = some c →
      (c.1 = low ∨ c.1 = high ∨ c.1 = other) → vp.exit_reason = reason)
    (hfrom : vp.exit_reason = reason → ∃ c, secondary_counter d vp = some c ∧
      (c.1 = low ∨ c.1 = high ∨ c.1 = other)) :
    sum_below (hits d vp low) (d.size low) + sum_below (hits d vp high) (d.size high)
      + hits d vp other 0 = hits d vp .vmexit reason := by
  rw [hits_vmexit]
  have hother : sum_below (hits d vp other) (d.size other) = hits d vp other 0 := by
    rw [hso]
    show 0 + hits d vp other 0 = hits d vp other 0
    rw [Nat.zero_add]
  rw [← hother]
  cases hs : secondary_counter d vp with
  | none =>
    rw [sum_hits_none d vp hnv.1 hs, sum_hits_none d vp hnv.2.1 hs,
      sum_hits_none d vp hnv.2.2 hs, if_neg]
    intro hr
    obtain ⟨c, hc, _⟩ := hfrom hr.symm
    rw [hs] at hc
    exact Option.noConfusion hc
  | some c =>
    have hc : c.2 < d.size c.1 := hfit.2 c hs
    rw [sum_hits_some d vp hnv.1 hs hc, sum_hits_some d vp hnv.2.1 hs hc,
      sum_hits_some d vp hnv.2.2 hs hc]
    by_cases hr : reason = vp.exit_reason
    · rw [if_pos hr]
      obtain ⟨c', hc', hfam⟩ := hfrom hr.symm
      rw [hs] at hc'
      have hcc : c = c' := Option.some.inj hc'
      rw [← hcc] at hfam
      rcases hfam with h1 | h1 | h1
      · rw [if_pos h1, if_neg (fun h2 => hdist.1 (h1.symm.trans h2)),
          if_neg (fun h2 => hdist.2.1 (h1.symm.trans h2))]
      · rw [if_pos h1, if_neg (fun h2 => hdist.1 (h2.symm.trans h1)),
          if_neg (fun h2 => hdist.2.2 (h1.symm.trans h2))]
      · rw [if_pos h1, if_neg (fun h2 => hdist.2.1 (h2.symm.trans h1)),
          if_neg (fun h2 => hdist.2.2 (h2.symm.trans h1))]
    · rw [if_neg hr]
      have hno : ¬ (c.1 = low ∨ c.1 = high ∨ c.1 = other) :=
        fun hfam => hr (hto c hs hfam).symm
      rw [if_neg (fun h1 => hno (Or.inl h1)), if_neg (fun h1 => hno (Or.inr (Or.inl h1))),
        if_neg (fun h1 => hno (Or.inr (Or.inr h1)))]

theorem tally_all_partition {d : stats_dims} {low high other : stats_field} {reason : Nat}
    (hdist : low ≠ high ∧ low ≠ other ∧ high ≠ other)
    (hnv : low ≠ .vmexit ∧ high ≠ .vmexit ∧ other ≠ .vmexit) (hso : d.size other = 1)
    (hfam : ∀ vp : vcpu_t,
      (∀ c, secondary_counter d vp = some c →
        (c.1 = low ∨ c.1 = high ∨ c.1 = other) → vp.exit_reason = reason) ∧
      (vp.exit_reason = reason → ∃ c, secondary_counter d vp = some c ∧
        (c.1 = low ∨ c.1 = high ∨ c.1 = other))) :
    ∀ events : List event, (∀ e ∈ events, trap_fits d e.2) →
      sum_below (tally_all d events low) (d.size low)
        + sum_below (tally_all d events high) (d.size high) + tally_all d events other 0
        = tally_all d events .vmexit reason
  | [], _ => by
    have hz : ∀ (f : stats_field) (n : Nat), sum_below (tally_all d [] f) n = 0 := by
      intro f n
      have h0 : sum_below (tally_all d [] f) n = sum_below (fun _ => 0) n :=
        sum_below_congr n (fun i _ => rfl)
      rw [h0]
      exact sum_below_zero n
    rw [hz, hz]
    rfl
  | e :: rest, hfit => by
    have ih := tally_all_partition hdist hnv hso hfam rest
      (fun x hx => hfit x (List.mem_cons_of_mem _ hx))
    have he := hits_partition (hfit e (List.mem_cons_self _ _)) hdist hnv hso
      (hfam e.2).1 (hfam e.2).2
    have hsplit : ∀ (f : stats_field) (n : Nat), sum_below (tally_all d (e :: rest) f) n
        = sum_below (hits d e.2 f) n + sum_below (tally_all d rest f) n := by
      intro f n
      rw [← sum_below_add]
      exact sum_below_congr n (fun i _ => rfl)
    rw [hsplit, hsplit]
    show _ + _ + (hits d e.2 other 0 + tally_all d rest other 0)
      = hits d e.2 .vmexit reason + tally_all d rest .vmexit reason
    omega

theorem tally_filter (d : stats_dims) (q : Nat) (f : stats_field) (i : Nat) :
    ∀ events : List event,
      tally d events q f i = tally_all d (events.filter fun e => decide (e.1 = q)) f i
  | [] => rfl
  | e :: rest => by
    rw [tally_cons, tally_filter d q f i rest, List.filter_cons]
    by_cases he : e.1 = q
    · simp only [he, decide_True, if_true]
      rfl
    · simp only [he, decide_False, if_false, Nat.zero_add, Bool.false_eq_true]

theorem partitioned_of_mod {d : stats_dims} {stats g : vmexit_stats_storage_t}
    {low high other : stats_field} {reason : Nat} (hso : d.size other = 1)
    (hpt : ∀ f i, i < d.size f → stats f i = g f i % 2 ^ 32)
    (hv : stats .vmexit reason = g .vmexit reason % 2 ^ 32)
    (hex : sum_below (g low) (d.size low) + sum_below (g high) (d.size high) + g other 0
      = g .vmexit reason) :
    partitioned d stats low high other reason := by
  unfold partitioned
  have hsum : ∀ f, sum_below (stats f) (d.size f) % 2 ^ 32
      = sum_below (g f) (d.size f) % 2 ^ 32 := by
    intro f
    have h0 : sum_below (stats f) (d.size f)
        = sum_below (fun i => g f i % 2 ^ 32) (d.size f) :=
      sum_below_congr _ (fun i hi => hpt f i hi)
    rw [h0]
    exact sum_below_mod (g f) (2 ^ 32) _
  have h1 := hsum low
  have h2 := hsum high
  have h3 := hpt other 0 (by omega)
  rw [hv, ← hex]
  omega

theorem family_cpuid (d : stats_dims) (vp : vcpu_t) :
    (∀ c, secondary_counter d vp = some c →
      (c.1 = .cpuid_0 ∨ c.1 = .cpuid_8 ∨ c.1 = .cpuid_other) →
        vp.exit_reason = exit_reason.execute_cpuid) ∧
    (vp.exit_reason = exit_reason.execute_cpuid → ∃ c, secondary_counter d vp = some c ∧
      (c.1 = .cpuid_0 ∨ c.1 = .cpuid_8 ∨ c.1 = .cpuid_other)) := by
  refine ⟨fun c hc hfam => ?_, secondary_of_cpuid d vp⟩
  have hr := secondary_reason d vp c hc
  rcases hfam with h1 | h1 | h1 <;> rw [h1] at hr <;> exact (Option.some.inj hr).symm

theorem family_rdmsr (d : stats_dims) (vp : vcpu_t) :
    (∀ c, secondary_counter d vp = some c →
      (c.1 = .rdmsr_0 ∨ c.1 = .rdmsr_c ∨ c.1 = .rdmsr_other) →
        vp.exit_reason = exit_reason.execute_rdmsr) ∧
    (vp.exit_reason = exit_reason.execute_rdmsr → ∃ c, secondary_counter d vp = some c ∧
      (c.1 = .rdmsr_0 ∨ c.1 = .rdmsr_c ∨ c.1 = .rdmsr_other)) := by
  refine ⟨fun c hc hfam => ?_,
    fun hr => ⟨_, secondary_rdmsr hr, msr_bucket_field _ _ _ _⟩⟩
  have hr := secondary_reason d vp c hc
  rcases hfam with h1 | h1 | h1 <;> rw [h1] at hr <;> exact (Option.some.inj hr).symm

theorem family_wrmsr (d : stats_dims) (vp : vcpu_t) :
    (∀ c, secondary_counter d vp = some c →
      (c.1 = .wrmsr_0 ∨ c.1 = .wrmsr_c ∨ c.1 = .wrmsr_other) →
        vp.exit_reason = exit_reason.execute_wrmsr) ∧
    (vp.exit_reason = exit_reason.execute_wrmsr → ∃ c, secondary_counter d vp = some c ∧
      (c.1 = .wrmsr_0 ∨ c.1 = .wrmsr_c ∨ c.1 = .wrmsr_other)) := by
  refine ⟨fun c hc hfam => ?_,
    fun hr => ⟨_, secondary_wrmsr hr, msr_bucket_field _ _ _ _⟩⟩
  have hr := secondary_reason d vp c hc
  rcases hfam with h1 | h1 | h1 <;> rw [h1] at hr <;> exact (Option.some.inj hr).symm

/-- After the traps of a sequence from zeroed blocks, every counter of the
block of a processor is the tally of its traps and every counter of the
aggregate of `dump` the tally of all traps, modulo `2 ^ 32`. -/
theorem blocks_and_aggregate_tally {W : Nat} {d : stats_dims} {cpu_count : Nat}
    {h0 : vmexit_stats_handler} (hok : trace_ok W d h0)
    (hzero : ∀ q, h0.storage_ q = storage_zero) (events : List event)
    (hfit : events_fit d cpu_count events) (log : List trace_line) :
    ∃ h1 log1, handle_all W d cpu_count events h0 log = some (h1, log1) ∧
      (∀ q f i, h1.storage_ q f i = tally d events q f i % 2 ^ 32) ∧
      ∀ f i, i < d.size f →
        (dump d cpu_count h1).1.storage_merged_ f i = tally_all d events f i % 2 ^ 32 := by
  have hv0 : blocks_valid d h0 := fun q => by rw [hzero q]; exact storage_zero_valid d
  obtain ⟨h1, log1, hrun, _, _, _, hblocks⟩ := handle_all_spec events h0 log hok hv0 hfit
  have hb : ∀ q f i, h1.storage_ q f i = tally d events q f i % 2 ^ 32 := by
    intro q f i
    rw [hblocks q f i, hzero q]
    show (0 + tally d events q f i) % 2 ^ 32 = _
    rw [Nat.zero_add]
  refine ⟨h1, log1, hrun, hb, fun f i hi => ?_⟩
  have hm : (dump d cpu_count h1).1.storage_merged_ f i
      = if i < d.size f then sum_below (fun q => h1.storage_ q f i) cpu_count % 2 ^ 32
        else 0 := merged_apply d h1.storage_ f i cpu_count
  rw [hm, if_pos hi]
  have h0 : sum_below (fun q => h1.storage_ q f i) cpu_count
      = sum_below (fun q => tally d events q f i % 2 ^ 32) cpu_count :=
    sum_below_congr cpu_count (fun q _ => hb q f i)
  rw [h0, sum_below_mod, tally_sum d cpu_count f i events (fun e he => (hfit e he).1)]

/-- C25: after any sequence of `handle` calls that fit, from zeroed blocks,
in the block of every processor and in the aggregate that `dump` computes,
the secondary buckets partition the coarse counter as 32-bit sums:
`sum(cpuid_0) + sum(cpuid_8) + cpuid_other = vmexit[execute_cpuid]`,
`sum(rdmsr_0) + sum(rdmsr_c) + rdmsr_other = vmexit[execute_rdmsr]` and
`sum(wrmsr_0) + sum(wrmsr_c) + wrmsr_other = vmexit[execute_wrmsr]`, each
sum taken in `uint32_t` arithmetic. -/
theorem buckets_partition_coarse (W : Nat) (d : stats_dims) (cpu_count : Nat)
    (h0 : vmexit_stats_handler) (events : List event) (log : List trace_line)
    (hok : trace_ok W d h0) (hzero : ∀ q, h0.storage_ q = storage_zero)
    (hfit : events_fit d cpu_count events) (hd : exit_reason.execute_wrmsr < d.vmexit) :
    ∃ h1 log1, handle_all W d cpu_count events h0 log = some (h1, log1) ∧
      (∀ q,
        partitioned d (h1.storage_ q) .cpuid_0 .cpuid_8 .cpuid_other
          exit_reason.execute_cpuid ∧
        partitioned d (h1.storage_ q) .rdmsr_0 .rdmsr_c .rdmsr_other
          exit_reason.execute_rdmsr ∧
        partitioned d (h1.storage_ q) .wrmsr_0 .wrmsr_c .wrmsr_other
          exit_reason.execute_wrmsr) ∧
      partitioned d (dump d cpu_count h1).1.storage_merged_ .cpuid_0 .cpuid_8 .cpuid_other
        exit_reason.execute_cpuid ∧
      partitioned d (dump d cpu_count h1).1.storage_merged_ .rdmsr_0 .rdmsr_c .rdmsr_other
        exit_reason.execute_rdmsr ∧
      partitioned d (dump d cpu_count h1).1.storage_merged_ .wrmsr_0 .wrmsr_c .wrmsr_other
        exit_reason.execute_wrmsr := by
  obtain ⟨h1, log1, hrun, hb, hagg⟩ := blocks_and_aggregate_tally hok hzero events hfit log
  have hfits : ∀ e ∈ events, trap_fits d e.2 := fun e he => (hfit e he).2
  have hcpuid : exit_reason.execute_cpuid < d.size .vmexit :=
    Nat.lt_trans (by decide) hd
  have hrdmsr : exit_reason.execute_rdmsr < d.size .vmexit :=
    Nat.lt_trans (by decide) hd
  have hwrmsr : exit_reason.execute_wrmsr < d.size .vmexit := hd
  have hblock : ∀ q, ∀ {low high other : stats_field} {reason : Nat},
      (low ≠ high ∧ low ≠ other ∧ high ≠ other) →
      (low ≠ .vmexit ∧ high ≠ .vmexit ∧ other ≠ .vmexit) → d.size other = 1 →
      (∀ vp : vcpu_t,
        (∀ c, secondary_counter d vp = some c →
          (c.1 = low ∨ c.1 = high ∨ c.1 = other) → vp.exit_reason = reason) ∧
        (vp.exit_reason = reason → ∃ c, secondary_counter d vp = some c ∧
          (c.1 = low ∨ c.1 = high ∨ c.1 = other))) →
      partitioned d (h1.storage_ q) low high other reason := by
    intro q low high other reason hdist hnv hso hfam
    have hex := tally_all_partition hdist hnv hso hfam
      (events.filter fun e => decide (e.1 = q))
      (fun e he => hfits e (List.mem_filter.1 he).1)
    refine @partitioned_of_mod d (h1.storage_ q)
      (fun f i => tally_all d (events.filter fun e => decide (e.1 = q)) f i)
      low high other reason hso ?_ ?_ hex
    · intro f i _
      rw [hb q f i, tally_filter]
    · rw [hb q, tally_filter]
  refine ⟨h1, log1, hrun, fun q => ⟨?_, ?_, ?_⟩, ?_, ?_, ?_⟩
  · exact hblock q (by decide) (by decide) rfl (family_cpuid d)
  · exact hblock q (by decide) (by decide) rfl (family_rdmsr d)
  · exact hblock q (by decide) (by decide) rfl (family_wrmsr d)
  · exact partitioned_of_mod rfl hagg (hagg .vmexit _ hcpuid)
      (@tally_all_partition d .cpuid_0 .cpuid_8 .cpuid_other exit_reason.execute_cpuid
        (by decide) (by decide) rfl (family_cpuid d) events hfits)
  · exact partitioned_of_mod rfl hagg (hagg .vmexit _ hrdmsr)
      (@tally_all_partition d .rdmsr_0 .rdmsr_c .rdmsr_other exit_reason.execute_rdmsr
        (by decide) (by decide) rfl (family_rdmsr d) events hfits)
  · exact partitioned_of_mod rfl hagg (hagg .vmexit _ hwrmsr)
      (@tally_all_partition d .wrmsr_0 .wrmsr_c .wrmsr_other exit_reason.execute_wrmsr
        (by decide) (by decide) rfl (family_wrmsr d) events hfits)

/-- C25, at three traps on two processors. -/
theorem buckets_partition_coarse_witness :
    trace_ok 64 sample_dims sample_handler ∧
      (∀ q, sample_handler.storage_ q = storage_zero) ∧
      events_fit sample_dims 2 sample_events ∧
      exit_reason.execute_wrmsr < sample_dims.vmexit ∧
      ∃ h1 log1, handle_all 64 sample_dims 2 sample_events sample_handler [] = some (h1, log1) ∧
        (∀ q,
          partitioned sample_dims (h1.storage_ q) .cpuid_0 .cpuid_8 .cpuid_other
            exit_reason.execute_cpuid ∧
          partitioned sample_dims (h1.storage_ q) .rdmsr_0 .rdmsr_c .rdmsr_other
            exit_reason.execute_rdmsr ∧
          partitioned sample_dims (h1.storage_ q) .wrmsr_0 .wrmsr_c .wrmsr_other
            exit_reason.execute_wrmsr) ∧
        partitioned sample_dims (dump sample_dims 2 h1).1.storage_merged_
          .cpuid_0 .cpuid_8 .cpuid_other exit_reason.execute_cpuid ∧
        partitioned sample_dims (dump sample_dims 2 h1).1.storage_merged_
          .rdmsr_0 .rdmsr_c .rdmsr_other exit_reason.execute_rdmsr ∧
        partitioned sample_dims (dump sample_dims 2 h1).1.storage_merged_
          .wrmsr_0 .wrmsr_c .wrmsr_other exit_reason.execute_wrmsr :=
  ⟨by decide, fun _ => rfl, by decide, by decide,
    buckets_partition_coarse 64 sample_dims 2 sample_handler sample_events []
      (by decide) (fun _ => rfl) (by decide) (by decide)⟩

end hvpp
